import Mathlib

/-!
# Octal codes and the voxel edit packet sender

A shallow embedding of `libraries/shared/src/OctalCode.cpp` and
`libraries/voxels/src/VoxelEditPacketSender.cpp`.

Conventions of the embedding.

* A byte buffer is a `List Nat`; a byte is a natural number below 256.  A
  pointer into a buffer is the list of the bytes from the pointed-to byte to
  the end of the allocation, so `p + k` is `p.drop k`.  A nullable pointer is an
  `Option (List Nat)`, `none` being `NULL`.
* Reading or writing outside the allocation is undefined behaviour in the
  source; here every such access yields `none`.
* A store into an `unsigned char` truncates modulo 256 (`writeByte`).
* `char` is taken to be signed (as on x86), so that the shift amounts of the
  source can be negative; they are modelled in `Int`.
-/

namespace OctalCode

/-! ## Constants of `OctalCode.h` and `SharedUtil.h` -/

/-- Modelled from the spec: `BITS_IN_BYTE` is declared in `SharedUtil.h`, which is not among
the sources; a byte has eight bits. -/
def BITS_IN_BYTE : Nat := 8

/-- Modelled from the spec: `BITS_IN_OCTAL` is declared in `OctalCode.h`, which is not among
the sources; a section is a 3-bit element. -/
def BITS_IN_OCTAL : Nat := 3

/-- Modelled from the spec: `SIZE_OF_COLOR_DATA` is declared in `OctalCode.h`, which is not
among the sources; the colour trailer is the three RGB bytes. -/
def SIZE_OF_COLOR_DATA : Nat := 3

/-- Modelled from the spec: the sentinel `OVERFLOWED_OCTCODE_BUFFER` is declared in
`OctalCode.h`, which is not among the sources; a negative value distinct from
`UNKNOWN_OCTCODE_LENGTH`. -/
def OVERFLOWED_OCTCODE_BUFFER : Int := -1

/-- Modelled from the spec: the sentinel `UNKNOWN_OCTCODE_LENGTH` (the default of `maxBytes`)
is declared in `OctalCode.h`, which is not among the sources. -/
def UNKNOWN_OCTCODE_LENGTH : Int := -2

/-- Modelled from the spec: `CHECK_NODE_ONLY` is declared in `OctalCode.h`, which is not among
the sources; it is the "node only" check mode, a value that is no child number. -/
def CHECK_NODE_ONLY : Int := -1

/-! ## Memory accesses -/

/-- The read `buf[i]`; `none` outside the allocation. -/
def readByte (buf : List Nat) (i : Nat) : Option Nat := buf[i]?

/-- The store `buf[i] = v` into an `unsigned char`; `none` outside the allocation. -/
def writeByte (buf : List Nat) (i : Nat) (v : Nat) : Option (List Nat) :=
  if i < buf.length then some (buf.set i (v % 256)) else none

/-- The allocation `new unsigned char[n]`: its contents are indeterminate, here the bytes
supplied by `garbage`. -/
def newBuffer (garbage : Nat → Nat) (n : Nat) : List Nat :=
  (List.range n).map (fun i => garbage i % 256)

/-- The call `memcpy(dst, src, n)`; `none` when either buffer is shorter than `n`. -/
def memcpy (dst src : List Nat) (n : Nat) : Option (List Nat) :=
  if n ≤ src.length ∧ n ≤ dst.length then some (src.take n ++ dst.drop n) else none

/-- The sign of the first difference of two byte strings, bytes compared as unsigned. -/
def memcmpSign : List Nat → List Nat → Int
  | x :: a, y :: b => if x < y then -1 else if y < x then 1 else memcmpSign a b
  | _, _ => 0

/-- The call `memcmp(a, b, n)`, as the sign of its result; `none` when either buffer is
shorter than `n`. -/
def memcmp (a b : List Nat) (n : Nat) : Option Int :=
  if n ≤ a.length ∧ n ≤ b.length then some (memcmpSign (a.take n) (b.take n)) else none

/-! ## `OctalCode.cpp` -/

/-- Source: `numberOfThreeBitSectionsInCode(octalCode, maxBytes)`. -/
def numberOfThreeBitSectionsInCode : List Nat → Int → Option Int
  | octalCode, maxBytes =>
    if maxBytes = OVERFLOWED_OCTCODE_BUFFER then some OVERFLOWED_OCTCODE_BUFFER
    else
      match octalCode with
      | [] => none
      | b :: rest =>
        if b = 255 then
          let newMaxBytes :=
            if maxBytes = UNKNOWN_OCTCODE_LENGTH then UNKNOWN_OCTCODE_LENGTH else maxBytes - 1
          (fun r => (b : Int) + r) <$> numberOfThreeBitSectionsInCode rest newMaxBytes
        else some (b : Int)

/-- Source: `sectionValue(startByte, startIndexInByte)`. -/
def sectionValue (startByte : List Nat) (startIndexInByte : Nat) : Option Nat :=
  let rightShift : Int := 8 - (startIndexInByte : Int) - 3
  if rightShift < 0 then do
    let b0 ← readByte startByte 0
    let b1 ← readByte startByte 1
    some (((b0 <<< (-rightShift).toNat) &&& 7) + (b1 >>> (8 + rightShift).toNat))
  else do
    let b0 ← readByte startByte 0
    some ((b0 >>> rightShift.toNat) &&& 7)

/-- Source: `bytesRequiredForCodeLength(threeBitCodes)`.  The parameter is an
`unsigned char`, so the argument is converted modulo 256; `ceilf(3n / 8.0f)` is exact for
`n` below 256. -/
def bytesRequiredForCodeLength (threeBitCodes : Nat) : Nat :=
  let n := threeBitCodes % 256
  if n = 0 then 1 else 1 + (n * 3 + 7) / 8

/-- Source: `getOctalCodeSectionValue(octalCode, section)`. -/
def getOctalCodeSectionValue (octalCode : List Nat) (sec : Nat) : Option Nat :=
  let startAtByte := 1 + (BITS_IN_OCTAL * sec / BITS_IN_BYTE)
  let startIndexInByte := (BITS_IN_OCTAL * sec) % BITS_IN_BYTE
  sectionValue (octalCode.drop startAtByte) startIndexInByte

/-- Source: `setOctalCodeSectionValue(octalCode, section, sectionValue)`; the result is the
buffer after the call.  `x & ~m` on a byte `x` and a mask byte `m` keeps the bits of `x`
outside `m`, which is `x &&& (0xFF ^^^ m)`. -/
def setOctalCodeSectionValue (octalCode : List Nat) (sec : Nat) (value : Nat) :
    Option (List Nat) := do
  let byteForSection := BITS_IN_OCTAL * sec / BITS_IN_BYTE
  let byteAt := 1 + byteForSection
  let bitInByte := (BITS_IN_OCTAL * sec) % BITS_IN_BYTE
  let shiftBy : Int := (BITS_IN_BYTE : Int) - (bitInByte : Int) - (BITS_IN_OCTAL : Int)
  let UNSHIFTED_MASK : Nat := 0x07
  let shiftedMask : Nat :=
    if shiftBy ≥ 0 then (UNSHIFTED_MASK <<< shiftBy.toNat) % 256
    else (UNSHIFTED_MASK >>> (-shiftBy).toNat) % 256
  let shiftedValue : Nat :=
    if shiftBy ≥ 0 then (value <<< shiftBy.toNat) % 256
    else (value >>> (-shiftBy).toNat) % 256
  let cur ← readByte octalCode byteAt
  let oldValue := cur &&& (0xFF ^^^ shiftedMask)
  let newValue := oldValue ||| shiftedValue
  let code1 ← writeByte octalCode byteAt newValue
  let FIRST_PARTIAL_BIT := 6
  if bitInByte ≥ FIRST_PARTIAL_BIT then
    let bitsInFirstByte := BITS_IN_BYTE - bitInByte
    let bitsInSecondByte := BITS_IN_OCTAL - bitsInFirstByte
    let shiftBy2 := BITS_IN_BYTE - bitsInSecondByte
    let shiftedMask2 := (UNSHIFTED_MASK <<< shiftBy2) % 256
    let shiftedValue2 := (value <<< shiftBy2) % 256
    let cur2 ← readByte code1 (byteAt + 1)
    let oldValue2 := cur2 &&& (0xFF ^^^ shiftedMask2)
    let newValue2 := oldValue2 ||| shiftedValue2
    writeByte code1 (byteAt + 1) newValue2
  else
    some code1

/-- Source: `childOctalCode(parentOctalCode, childNumber)`.  `garbage` is the indeterminate
content of the fresh allocation. -/
def childOctalCode (garbage : Nat → Nat) (parentOctalCode : Option (List Nat))
    (childNumber : Nat) : Option (List Nat) := do
  let parentCodeSections : Int ←
    match parentOctalCode with
    | some p => numberOfThreeBitSectionsInCode p UNKNOWN_OCTCODE_LENGTH
    | none => some 0
  let parentCodeBytes := bytesRequiredForCodeLength parentCodeSections.toNat
  let childCodeBytes := bytesRequiredForCodeLength (parentCodeSections + 1).toNat
  let newCode0 := newBuffer garbage childCodeBytes
  let newCode1 ←
    match parentOctalCode with
    | some p => memcpy newCode0 p parentCodeBytes
    | none => some newCode0
  let newCode2 ← writeByte newCode1 0 (parentCodeSections + 1).toNat
  let newCode3 ←
    if childCodeBytes > parentCodeBytes then writeByte newCode2 (childCodeBytes - 1) 0
    else some newCode2
  let startBit := parentCodeSections.toNat * 3
  let leftShift : Int := 8 - ((startBit % 8 : Nat) : Int) - 3
  if leftShift < 0 then
    let b1 ← readByte newCode3 (startBit / 8 + 1)
    let newCode4 ← writeByte newCode3 (startBit / 8 + 1) (b1 + (childNumber >>> (-leftShift).toNat))
    let b2 ← readByte newCode4 (startBit / 8 + 2)
    writeByte newCode4 (startBit / 8 + 2) (b2 + (childNumber <<< (8 + leftShift).toNat))
  else
    let b1 ← readByte newCode3 (startBit / 8 + 1)
    writeByte newCode3 (startBit / 8 + 1) (b1 + (childNumber <<< leftShift.toNat))

/-- Modelled from the spec: `oneAtBit(byte, bitIndex)` is defined in `SharedUtil.cpp`, which
is not among the sources: whether the bit `bitIndex` of the byte is set, bit 0 being the
most significant bit and bit 7 the least significant one (bits 5, 6 and 7 of a section
select the +x, +y and +z half). -/
def oneAtBit (byte : Nat) (bitIndex : Nat) : Bool :=
  decide ((byte >>> (7 - bitIndex)) &&& 1 = 1)

/-- Modelled from the spec: the structure `VoxelPositionSize` of `OctalCode.h`, which is not
among the sources: the first vertex `x, y, z` and the size `s` of a voxel in the unit cube.
The `float` fields are rational numbers here, and the arithmetic on them is exact. -/
structure VoxelPositionSize where
  x : ℚ
  y : ℚ
  z : ℚ
  s : ℚ
  deriving DecidableEq

/-- The loop of `voxelDetailsForCode`: `remaining` iterations are left, the next one reads the
section `i`; `output0`, `output1` and `output2` are the three elements of `output`, which
the inner loop over `j` updates in turn. -/
def voxelDetailsLoop (octalCode : List Nat) :
    Nat → Nat → ℚ → ℚ → ℚ → ℚ → Option (ℚ × ℚ × ℚ × ℚ)
  | 0, _, output0, output1, output2, currentScale =>
    some (output0, output1, output2, currentScale)
  | remaining + 1, i, output0, output1, output2, currentScale => do
    let currentScale1 := currentScale * (1 / 2)
    let sectionIndex ← sectionValue (octalCode.drop (1 + BITS_IN_OCTAL * i / BITS_IN_BYTE))
      ((BITS_IN_OCTAL * i) % BITS_IN_BYTE)
    let bit (j : Nat) : ℚ :=
      if oneAtBit sectionIndex ((BITS_IN_BYTE - BITS_IN_OCTAL) + j) then 1 else 0
    voxelDetailsLoop octalCode remaining (i + 1) (output0 + currentScale1 * bit 0)
      (output1 + currentScale1 * bit 1) (output2 + currentScale1 * bit 2) currentScale1

/-- Source: `voxelDetailsForCode(octalCode, voxelPositionSize)`; the result is the structure
written through the reference.  The `float` arithmetic of the source is exact rational
arithmetic here. -/
def voxelDetailsForCode (octalCode : Option (List Nat)) : Option VoxelPositionSize :=
  match octalCode with
  | some c => do
    let n ← numberOfThreeBitSectionsInCode c UNKNOWN_OCTCODE_LENGTH
    let r ← voxelDetailsLoop c n.toNat 0 0 0 0 1
    some { x := r.1, y := r.2.1, z := r.2.2.1, s := r.2.2.2 }
  | none => some { x := 0, y := 0, z := 0, s := 1 }

/-- The loop of `copyFirstVertexForCode`: `remaining` iterations are left, the next one reads
the section `i`; `output0`, `output1` and `output2` are the three elements of `output`, which
the inner loop over `j` updates in turn, and the scale is halved after its use. -/
def copyFirstVertexLoop (octalCode : List Nat) : Nat → Nat → ℚ → ℚ → ℚ → ℚ → Option (ℚ × ℚ × ℚ)
  | 0, _, output0, output1, output2, _ => some (output0, output1, output2)
  | remaining + 1, i, output0, output1, output2, currentScale => do
    let sectionIndex ← sectionValue (octalCode.drop (1 + 3 * i / 8)) ((3 * i) % 8)
    let bit (j : Nat) : ℚ := if oneAtBit sectionIndex (5 + j) then 1 else 0
    copyFirstVertexLoop octalCode remaining (i + 1) (output0 + currentScale * bit 0)
      (output1 + currentScale * bit 1) (output2 + currentScale * bit 2)
      (currentScale * (1 / 2))

/-- Source: `copyFirstVertexForCode(octalCode, output)`; the result is the three values written
to `output`.  The pointer is not tested, so a null `octalCode` fails the `assert` of the
length decoder.  The `float` arithmetic of the source is exact rational arithmetic here. -/
def copyFirstVertexForCode (octalCode : Option (List Nat)) : Option (ℚ × ℚ × ℚ) :=
  match octalCode with
  | some c => do
    let n ← numberOfThreeBitSectionsInCode c UNKNOWN_OCTCODE_LENGTH
    copyFirstVertexLoop c n.toNat 0 0 0 0 (1 / 2)
  | none => none

/-- The result type `OctalCodeComparison` of `compareOctalCodes`. -/
inductive OctalCodeComparison where
  | ILLEGAL_CODE
  | LESS_THAN
  | EXACT_MATCH
  | GREATER_THAN
  deriving DecidableEq, Repr

open OctalCodeComparison in
/-- Source: `compareOctalCodes(codeA, codeB)`. -/
def compareOctalCodes (codeA codeB : Option (List Nat)) : Option OctalCodeComparison :=
  match codeA, codeB with
  | some a, some b => do
    let a0 ← readByte a 0
    let b0 ← readByte b 0
    let numberOfBytes := min (bytesRequiredForCodeLength a0) (bytesRequiredForCodeLength b0)
    let compare ← memcmp a b numberOfBytes
    if compare < 0 then some LESS_THAN
    else if compare > 0 then some GREATER_THAN
    else do
      let codeLengthA ← numberOfThreeBitSectionsInCode a UNKNOWN_OCTCODE_LENGTH
      let codeLengthB ← numberOfThreeBitSectionsInCode b UNKNOWN_OCTCODE_LENGTH
      if codeLengthA = codeLengthB then some EXACT_MATCH
      else if codeLengthA < codeLengthB then some LESS_THAN
      else some GREATER_THAN
  | _, _ => some ILLEGAL_CODE

/-- The loop `for (s = from; s < from + count; s++) set(dst, s + offset, get(src, s))` shared
by `chopOctalCode` and `rebaseOctalCode`: `count` iterations, reading from section `srcSec`
and writing to section `dstSec`. -/
def copySections (src : List Nat) : Nat → Nat → Nat → List Nat → Option (List Nat)
  | 0, _, _, dst => some dst
  | count + 1, srcSec, dstSec, dst => do
    let value ← getOctalCodeSectionValue src srcSec
    let dst1 ← setOctalCodeSectionValue dst dstSec value
    copySections src count (srcSec + 1) (dstSec + 1) dst1

/-- Source: `chopOctalCode(originalOctalCode, chopLevels)`.  The outer `Option` is `none` for
an access outside an allocation, the inner one is the returned pointer (`none` being
`NULL`).  `chopLevels`, an `int` of the source, is the number of leading sections to
remove, a natural number here.  `garbage` is the indeterminate content of the fresh
allocation. -/
def chopOctalCode (garbage : Nat → Nat) (originalOctalCode : List Nat) (chopLevels : Nat) :
    Option (Option (List Nat)) := do
  let codeLength ← numberOfThreeBitSectionsInCode originalOctalCode UNKNOWN_OCTCODE_LENGTH
  if codeLength > (chopLevels : Int) then
    let newLength := codeLength - (chopLevels : Int)
    let newCode0 := newBuffer garbage (newLength + 1).toNat
    let newCode1 ← writeByte newCode0 0 newLength.toNat
    let newCode2 ← copySections originalOctalCode newLength.toNat chopLevels 0 newCode1
    some (some newCode2)
  else some none

/-- Source: `rebaseOctalCode(originalOctalCode, newParentOctalCode, includeColorSpace)`.
`garbage` is the indeterminate content of the fresh allocation. -/
def rebaseOctalCode (garbage : Nat → Nat) (originalOctalCode newParentOctalCode : List Nat)
    (includeColorSpace : Bool) : Option (List Nat) := do
  let oldCodeLength ← numberOfThreeBitSectionsInCode originalOctalCode UNKNOWN_OCTCODE_LENGTH
  let newParentCodeLength ←
    numberOfThreeBitSectionsInCode newParentOctalCode UNKNOWN_OCTCODE_LENGTH
  let newCodeLength := newParentCodeLength + oldCodeLength
  let bufferLength := newCodeLength + (if includeColorSpace then (SIZE_OF_COLOR_DATA : Int) else 0)
  let newCode0 := newBuffer garbage bufferLength.toNat
  let newCode1 ← writeByte newCode0 0 newCodeLength.toNat
  let newCode2 ← copySections newParentOctalCode newParentCodeLength.toNat 0 0 newCode1
  copySections originalOctalCode oldCodeLength.toNat 0 newParentCodeLength.toNat newCode2

/-- The loop of `isAncestorOf`: `remaining` iterations are left, and the next one compares
the section `sec`.  The `assert` of the source is a failure here. -/
def isAncestorOfLoop (possibleAncestor possibleDescendent : List Nat)
    (ancestorCodeLength descendentCodeLength descendentsChild : Int) :
    Nat → Nat → Option Bool
  | 0, _ => some true
  | remaining + 1, sec => do
    let sectionValueAncestor ← getOctalCodeSectionValue possibleAncestor sec
    let sectionValueDescendent : Int ←
      if ancestorCodeLength ≤ descendentCodeLength then
        (fun v : Nat => (v : Int)) <$> getOctalCodeSectionValue possibleDescendent sec
      else if descendentsChild ≠ CHECK_NODE_ONLY then some descendentsChild
      else none
    if (sectionValueAncestor : Int) ≠ sectionValueDescendent then some false
    else
      isAncestorOfLoop possibleAncestor possibleDescendent ancestorCodeLength
        descendentCodeLength descendentsChild remaining (sec + 1)

/-- Source: `isAncestorOf(possibleAncestor, possibleDescendent, descendentsChild)`. -/
def isAncestorOf (possibleAncestor possibleDescendent : Option (List Nat))
    (descendentsChild : Int) : Option Bool :=
  match possibleAncestor, possibleDescendent with
  | some a, some d => do
    let ancestorCodeLength ← numberOfThreeBitSectionsInCode a UNKNOWN_OCTCODE_LENGTH
    if ancestorCodeLength = 0 then some true
    else do
      let descendentCodeLength0 ← numberOfThreeBitSectionsInCode d UNKNOWN_OCTCODE_LENGTH
      let descendentCodeLength :=
        if descendentsChild ≠ CHECK_NODE_ONLY then descendentCodeLength0 + 1
        else descendentCodeLength0
      if ancestorCodeLength > descendentCodeLength then some false
      else
        isAncestorOfLoop a d ancestorCodeLength descendentCodeLength descendentsChild
          ancestorCodeLength.toNat 0
  | _, _ => some false

/-! ### Hex strings

A `QString` is the list of its characters. -/

/-- The upper-case hexadecimal digit of a value below 16. -/
def hexDigit (n : Nat) : Char :=
  if n < 10 then Char.ofNat (48 + n) else Char.ofNat (55 + n)

/-- The value of a hexadecimal digit, in either case. -/
def hexValue (c : Char) : Option Nat :=
  if 48 ≤ c.toNat ∧ c.toNat ≤ 57 then some (c.toNat - 48)
  else if 65 ≤ c.toNat ∧ c.toNat ≤ 70 then some (c.toNat - 55)
  else if 97 ≤ c.toNat ∧ c.toNat ≤ 102 then some (c.toNat - 87)
  else none

/-- Modelled from the spec: Qt's `QString::toUInt(&ok, 16)` on a chunk of at most two
characters, `none` being `ok == false`; it fails on the empty string and on any non-hex
input. -/
def toUInt16 : List Char → Option Nat
  | [c] => hexValue c
  | [c1, c2] => do
    let v1 ← hexValue c1
    let v2 ← hexValue c2
    some (v1 * 16 + v2)
  | _ => none

/-- Modelled from the spec: Qt's `QString("%1").arg(b, 2, 16, QChar('0')).toUpper()` for a
byte `b`: two upper-case hexadecimal digits. -/
def byteToHex (b : Nat) : List Char := [hexDigit (b / 16), hexDigit (b % 16)]

/-- The loop of `octalCodeToHexString`: `remaining` iterations are left, the next one reads
byte `i`. -/
def octalCodeToHexLoop (octalCode : List Nat) : Nat → Nat → List Char → Option (List Char)
  | 0, _, output => some output
  | remaining + 1, i, output => do
    let b ← readByte octalCode i
    octalCodeToHexLoop octalCode remaining (i + 1) (output ++ byteToHex b)

/-- Source: `octalCodeToHexString(octalCode)`. -/
def octalCodeToHexString (octalCode : Option (List Nat)) : Option (List Char) :=
  match octalCode with
  | none => some ['0', '0']
  | some c => do
    let c0 ← readByte c 0
    octalCodeToHexLoop c (bytesRequiredForCodeLength c0) 0 []

/-- The loop of `hexStringToOctalCode` on the characters from `stringIndex` on; the result is
the final `ok` and the byte array. -/
def hexStringLoop : List Char → Nat → List Nat → Bool → Option (Bool × List Nat)
  | [], _, bytes, ok => some (ok, bytes)
  | [c], byteArrayIndex, bytes, _ =>
    match toUInt16 [c] with
    | none => some (false, bytes)
    | some value => do
      let bytes1 ← writeByte bytes byteArrayIndex value
      some (true, bytes1)
  | c1 :: c2 :: rest, byteArrayIndex, bytes, _ =>
    match toUInt16 [c1, c2] with
    | none => some (false, bytes)
    | some value => do
      let bytes1 ← writeByte bytes byteArrayIndex value
      hexStringLoop rest (byteArrayIndex + 1) bytes1 true

/-- Source: `hexStringToOctalCode(input)`.  The outer `Option` is `none` for an access outside
the allocation, the inner one is the returned pointer (`none` being `NULL`). -/
def hexStringToOctalCode (garbage : Nat → Nat) (input : List Char) :
    Option (Option (List Nat)) := do
  let HEX_BYTE_SIZE := 2
  let bytes := newBuffer garbage (input.length / HEX_BYTE_SIZE)
  let (ok, bytes1) ← hexStringLoop input 0 bytes false
  if !ok then some none else some (some bytes1)

/-! ### Valid codes -/

/-- A valid octal code with a one-byte section count (spec, data model): byte 0 holds the
count `N` of sections, below the extension marker 255; the buffer holds at least the
`bytesRequiredForCodeLength N` bytes of the code; every element is a byte; and the unused
trailing bits of the last section byte are zero. -/
def validOctalCode (c : List Nat) : Bool :=
  match c with
  | [] => false
  | n :: _ =>
    decide (n < 255) && decide (bytesRequiredForCodeLength n ≤ c.length)
      && c.all (fun b => decide (b < 256))
      && decide ((3 * n) % 8 = 0 ∨ c.getD (bytesRequiredForCodeLength n - 1) 0 % 2 ^ (8 - (3 * n) % 8) = 0)

/-- Bit `k` of the section stream of a code buffer: bit 0 is the most significant bit of
byte 1, bit 8 the most significant bit of byte 2, and so on. -/
def bitAt (c : List Nat) (k : Nat) : Nat := (c.getD (1 + k / 8) 0 / 2 ^ (7 - k % 8)) % 2

end OctalCode

open OctalCode

/-! ## `VoxelEditPacketSender.cpp`

The sender is a state machine.  Its collaborators are not part of the embedding: the node
list, the jurisdiction table, the packet-header helpers and the clock are read from an
environment `Env` that is given anew at each call, the encoder result is an argument of the
call, and the outbound queue of the base class `PacketSender` is the list of the packets
handed to `queuePacketForSending`, oldest first.

A step yields `none` where the source dereferences a null pointer or fails an `assert`. -/

/-- A packet type, an `unsigned char` of the protocol registry. -/
abbrev PACKET_TYPE := Nat

/-- Modelled from the spec: the sentinel `PACKET_TYPE_UNKNOWN` of `PacketHeaders.h`, which is
not among the sources; the type of a buffer that holds no packet. -/
def PACKET_TYPE_UNKNOWN : PACKET_TYPE := 0

/-- Modelled from the spec: the node type `NODE_TYPE_VOXEL_SERVER` of `NodeTypes.h`, which is
not among the sources. -/
def NODE_TYPE_VOXEL_SERVER : Nat := 86

/-- The null `QUuid`; a `QUuid` is a natural number here. -/
def nullUUID : Nat := 0

/-- Modelled from the spec: an entry of the `NodeList`, with its type, its UUID and its
active socket (`none` being `NULL`). -/
structure Node where
  type : Nat
  uuid : Nat
  activeSocket : Option Nat

/-- Modelled from the spec: the answers of `JurisdictionMap::isMyJurisdiction`. -/
inductive Area where
  | ABOVE
  | WITHIN
  | BELOW
  | NOT_MINE
  deriving DecidableEq, Repr

/-- Modelled from the spec: a `JurisdictionMap`, whose sources are not given, as the
classification `isMyJurisdiction(code, childIndex)` it computes. -/
structure JurisdictionMap where
  isMyJurisdiction : List Nat → Int → Area

/-- The collaborators of the sender as one call sees them. -/
structure Env where
  /-- The nodes of `NodeList::getInstance()`, in iteration order. -/
  nodes : List Node
  /-- The table `*_voxelServerJurisdictions`, `none` when the pointer is `NULL`. -/
  jurisdictions : Option (List (Nat × JurisdictionMap))
  /-- The map that `operator[]` of the table yields for a UUID it does not hold. -/
  defaultJurisdiction : JurisdictionMap
  /-- The bytes that `populateTypeAndVersion(buffer, type)` writes; their number is its
  result. -/
  populateTypeAndVersion : PACKET_TYPE → List Nat
  /-- The result of `numBytesForPacketHeader(buffer)`. -/
  numBytesForPacketHeader : List Nat → Nat
  /-- The result of `usecTimestampNow()`. -/
  usecTimestampNow : Nat

/-- The class `EditPacketBuffer`.  `_currentBuffer` is the array
`_currentBuffer[MAX_PACKET_SIZE]` as the list of its bytes written so far.  The capacity
`MAX_PACKET_SIZE` of the array is not part of the model: a write that would pass the end of
the array in the source extends the list here, so the model follows the source only as long
as the list is no longer than `MAX_PACKET_SIZE`. -/
structure EditPacketBuffer where
  _nodeUUID : Nat
  _currentType : PACKET_TYPE
  _currentBuffer : List Nat
  _currentSize : Nat

/-- Modelled from the spec: the default constructor of `EditPacketBuffer`, declared in the
header, which is not among the sources: the state `EMPTY` (size 0, type `UNKNOWN`). -/
def EditPacketBuffer.empty : EditPacketBuffer :=
  { _nodeUUID := nullUUID, _currentType := PACKET_TYPE_UNKNOWN, _currentBuffer := [],
    _currentSize := 0 }

/-- Source: the constructor `EditPacketBuffer(type, buffer, length, nodeUUID)`; `length` is
the length of `buffer`. -/
def EditPacketBuffer.make (type : PACKET_TYPE) (buffer : List Nat) (nodeUUID : Nat) :
    EditPacketBuffer :=
  { _nodeUUID := nodeUUID, _currentType := type, _currentBuffer := buffer,
    _currentSize := buffer.length }

/-- The state of a `VoxelEditPacketSender`, with the outbound queue of its base class. -/
structure VoxelEditPacketSender where
  _shouldSend : Bool
  _maxPendingMessages : Int
  _releaseQueuedMessagesPending : Bool
  /-- An `unsigned short`. -/
  _sequenceNumber : Nat
  _maxPacketSize : Int
  /-- A `std::map<QUuid, EditPacketBuffer>`, as its entries in key order. -/
  _pendingEditPackets : List (Nat × EditPacketBuffer)
  _preServerSingleMessagePackets : List EditPacketBuffer
  _preServerPackets : List EditPacketBuffer
  /-- The packets handed to `queuePacketForSending(address, buffer, length)`, oldest
  first. -/
  outbound : List (Nat × List Nat)

namespace VoxelEditPacketSender

/-- Source: the constructor.  `MAX_PACKET_SIZE` and `DEFAULT_PACKETS_PER_SECOND` are constants
of headers that are not among the sources. -/
def fresh (MAX_PACKET_SIZE DEFAULT_PACKETS_PER_SECOND : Int) : VoxelEditPacketSender :=
  { _shouldSend := true
    _maxPendingMessages := DEFAULT_PACKETS_PER_SECOND
    _releaseQueuedMessagesPending := false
    _sequenceNumber := 0
    _maxPacketSize := MAX_PACKET_SIZE
    _pendingEditPackets := []
    _preServerSingleMessagePackets := []
    _preServerPackets := []
    outbound := [] }

/-- Modelled from the spec: the setter `setMaxPacketSize(maxPacketSize)` of the header
`VoxelEditPacketSender.h`, which is not among the sources: it stores the limit
`_maxPacketSize` (the `max_packet_size` of the spec), which `queueVoxelEditMessages` takes to
be at most the capacity `MAX_PACKET_SIZE` of the buffers. -/
def setMaxPacketSize (s : VoxelEditPacketSender) (maxPacketSize : Int) :
    VoxelEditPacketSender :=
  { s with _maxPacketSize := maxPacketSize }

/-- The entry of a `std::map` for a key, default-constructed when the key is new
(`operator[]`). -/
def mapGet (m : List (Nat × EditPacketBuffer)) (uuid : Nat) : EditPacketBuffer :=
  match m with
  | [] => EditPacketBuffer.empty
  | (k, v) :: rest => if k = uuid then v else mapGet rest uuid

/-- The `std::map` after a write through the reference that `operator[]` returned: the entry
is replaced, or inserted at its place in key order. -/
def mapSet (m : List (Nat × EditPacketBuffer)) (uuid : Nat) (b : EditPacketBuffer) :
    List (Nat × EditPacketBuffer) :=
  match m with
  | [] => [(uuid, b)]
  | (k, v) :: rest =>
    if uuid < k then (uuid, b) :: (k, v) :: rest
    else if uuid = k then (uuid, b) :: rest
    else (k, v) :: mapSet rest uuid b

/-- The array after `memcpy(&array[at], bytes, bytes.length)`. -/
def writeAt (array : List Nat) (pos : Nat) (bytes : List Nat) : List Nat :=
  array.take pos ++ bytes ++ array.drop (pos + bytes.length)

/-- The `n` bytes of a value in memory, least significant first (the stores through
`unsigned short*` and `uint64_t*` on a little-endian machine). -/
def littleEndian : Nat → Nat → List Nat
  | 0, _ => []
  | n + 1, v => (v % 256) :: littleEndian n (v / 256)

/-- The loop of `voxelServersExist`: the flags `hasVoxelServers` and
`atLeastOnJurisdictionMissing` after the nodes given. -/
def voxelServersExistLoop (env : Env) : List Node → Bool → Bool → Bool × Bool
  | [], hasVoxelServers, atLeastOnJurisdictionMissing =>
    (hasVoxelServers, atLeastOnJurisdictionMissing)
  | node :: rest, hasVoxelServers, atLeastOnJurisdictionMissing =>
    let flags : Bool × Bool :=
      if node.type = NODE_TYPE_VOXEL_SERVER then
        if node.activeSocket.isSome then
          let missing :=
            match env.jurisdictions with
            | some table =>
              if (table.lookup node.uuid).isNone then true else atLeastOnJurisdictionMissing
            | none => atLeastOnJurisdictionMissing
          (true, missing)
        else (hasVoxelServers, atLeastOnJurisdictionMissing)
      else (hasVoxelServers, atLeastOnJurisdictionMissing)
    if flags.2 then flags else voxelServersExistLoop env rest flags.1 flags.2

/-- Source: `voxelServersExist()`. -/
def voxelServersExist (env : Env) : Bool :=
  let flags := voxelServersExistLoop env env.nodes false false
  flags.1 && !flags.2

/-- The body of the loop of `queuePacketToNode` for one node. -/
def queuePacketToNodeStep (nodeUUID : Nat) (buffer : List Nat) (length : Nat)
    (s : VoxelEditPacketSender) (node : Node) : VoxelEditPacketSender :=
  if node.type = NODE_TYPE_VOXEL_SERVER ∧ (node.uuid = nodeUUID ∨ nodeUUID = nullUUID) then
    match node.activeSocket with
    | some nodeAddress => { s with outbound := s.outbound ++ [(nodeAddress, buffer.take length)] }
    | none => s
  else s

/-- Source: `queuePacketToNode(nodeUUID, buffer, length)`. -/
def queuePacketToNode (env : Env) (s : VoxelEditPacketSender) (nodeUUID : Nat)
    (buffer : List Nat) (length : Nat) : VoxelEditPacketSender :=
  env.nodes.foldl (queuePacketToNodeStep nodeUUID buffer length) s

/-- Source: `releaseQueuedPacket(packetBuffer)`; the result is the sender and the buffer
after the call. -/
def releaseQueuedPacket (env : Env) (s : VoxelEditPacketSender) (packetBuffer : EditPacketBuffer) :
    VoxelEditPacketSender × EditPacketBuffer :=
  let s1 :=
    if packetBuffer._currentSize > 0 ∧ packetBuffer._currentType ≠ PACKET_TYPE_UNKNOWN then
      queuePacketToNode env s packetBuffer._nodeUUID packetBuffer._currentBuffer
        packetBuffer._currentSize
    else s
  (s1, { packetBuffer with _currentSize := 0, _currentType := PACKET_TYPE_UNKNOWN })

/-- Source: `initializePacket(packetBuffer, type)`; the result is the sender and the buffer
after the call. -/
def initializePacket (env : Env) (s : VoxelEditPacketSender) (packetBuffer : EditPacketBuffer)
    (type : PACKET_TYPE) : VoxelEditPacketSender × EditPacketBuffer :=
  let header := env.populateTypeAndVersion type
  let buffer1 := writeAt packetBuffer._currentBuffer 0 header
  let size1 := header.length
  let buffer2 := writeAt buffer1 size1 (littleEndian 2 s._sequenceNumber)
  let size2 := size1 + 2
  let s1 := { s with _sequenceNumber := (s._sequenceNumber + 1) % 65536 }
  let now := env.usecTimestampNow
  let buffer3 := writeAt buffer2 size2 (littleEndian 8 now)
  let size3 := size2 + 8
  (s1, { packetBuffer with _currentBuffer := buffer3, _currentSize := size3, _currentType := type })

/-- The jurisdiction test of `queueVoxelEditMessage` for one node. -/
def isMyJurisdictionForQueue (env : Env) (nodeUUID : Nat) (codeColorBuffer : List Nat) : Bool :=
  match env.jurisdictions with
  | some table =>
    match table.lookup nodeUUID with
    | some map => decide (map.isMyJurisdiction codeColorBuffer CHECK_NODE_ONLY = Area.WITHIN)
    | none => false
  | none => true

/-- The part of the loop body of `queueVoxelEditMessage` that works on the buffer
`packetBuffer` of the node: the flush (release and initialise) when the type switches or the
packet is full, the initialisation of an empty buffer, and the append of the message. -/
def appendToPacketBuffer (env : Env) (s : VoxelEditPacketSender) (packetBuffer0 : EditPacketBuffer)
    (type : PACKET_TYPE) (codeColorBuffer : List Nat) :
    VoxelEditPacketSender × EditPacketBuffer :=
  let length : Nat := codeColorBuffer.length
  let flushed : VoxelEditPacketSender × EditPacketBuffer :=
    if (type ≠ packetBuffer0._currentType ∧ packetBuffer0._currentSize > 0)
        ∨ ((packetBuffer0._currentSize : Int) + (length : Int) ≥ s._maxPacketSize) then
      initializePacket env (releaseQueuedPacket env s packetBuffer0).1
        (releaseQueuedPacket env s packetBuffer0).2 type
    else (s, packetBuffer0)
  let initialized : VoxelEditPacketSender × EditPacketBuffer :=
    if type ≠ flushed.2._currentType ∧ flushed.2._currentSize = 0 then
      initializePacket env flushed.1 flushed.2 type
    else flushed
  (initialized.1,
    { initialized.2 with
      _currentBuffer := writeAt initialized.2._currentBuffer initialized.2._currentSize
        codeColorBuffer
      _currentSize := initialized.2._currentSize + length })

/-- The body of the loop of `queueVoxelEditMessage` for one node. -/
def queueVoxelEditMessageStep (env : Env) (type : PACKET_TYPE) (codeColorBuffer : List Nat)
    (s : VoxelEditPacketSender) (node : Node) : VoxelEditPacketSender :=
  if node.activeSocket.isSome ∧ node.type = NODE_TYPE_VOXEL_SERVER then
    let nodeUUID := node.uuid
    if isMyJurisdictionForQueue env nodeUUID codeColorBuffer then
      let packetBuffer0 : EditPacketBuffer :=
        { mapGet s._pendingEditPackets nodeUUID with _nodeUUID := nodeUUID }
      let appended := appendToPacketBuffer env s packetBuffer0 type codeColorBuffer
      { appended.1 with
        _pendingEditPackets := mapSet appended.1._pendingEditPackets nodeUUID appended.2 }
    else s
  else s

/-- Source: `queueVoxelEditMessage(type, codeColorBuffer, length)`; `length` is the length of
`codeColorBuffer`. -/
def queueVoxelEditMessage (env : Env) (s : VoxelEditPacketSender) (type : PACKET_TYPE)
    (codeColorBuffer : List Nat) : VoxelEditPacketSender :=
  if !s._shouldSend then s
  else if !voxelServersExist env then
    if s._maxPendingMessages > 0 then
      let packet := EditPacketBuffer.make type codeColorBuffer nullUUID
      let preServerPackets := s._preServerPackets ++ [packet]
      let allPendingMessages : Int :=
        ((s._preServerSingleMessagePackets.length + preServerPackets.length : Nat) : Int)
      if allPendingMessages > s._maxPendingMessages then
        { s with _preServerPackets := preServerPackets.tail }
      else { s with _preServerPackets := preServerPackets }
    else s
  else env.nodes.foldl (queueVoxelEditMessageStep env type codeColorBuffer) s

/-- Source: `queueVoxelEditMessages(type, numberOfDetails, details)`.  `encoded` lists, for
each detail in turn, what the encoder
`encodeVoxelEditMessageDetails(type, 1, &details[i], bufferOut, _maxPacketSize, sizeOut)`
produces: `none` when it returns false, the `sizeOut` bytes of `bufferOut` otherwise. -/
def queueVoxelEditMessages (env : Env) (s : VoxelEditPacketSender) (type : PACKET_TYPE)
    (encoded : List (Option (List Nat))) : VoxelEditPacketSender :=
  if !s._shouldSend then s
  else
    encoded.foldl (fun s1 e =>
      match e with
      | some bufferOut => queueVoxelEditMessage env s1 type bufferOut
      | none => s1) s

/-- The body of the loop of `queuePacketToNodes` for one node; `none` when the jurisdiction
table is dereferenced through a null pointer. -/
def queuePacketToNodesStep (env : Env) (buffer : List Nat) (length : Nat) (octCode : List Nat)
    (s : VoxelEditPacketSender) (node : Node) : Option VoxelEditPacketSender :=
  if node.activeSocket.isSome ∧ node.type = NODE_TYPE_VOXEL_SERVER then
    let nodeUUID := node.uuid
    match env.jurisdictions with
    | none => none
    | some table =>
      let map := (table.lookup nodeUUID).getD env.defaultJurisdiction
      if map.isMyJurisdiction octCode CHECK_NODE_ONLY = Area.WITHIN then
        some (queuePacketToNode env s nodeUUID buffer length)
      else some s
  else some s

/-- Source: `queuePacketToNodes(buffer, length)`; `length` is the length of `buffer`. -/
def queuePacketToNodes (env : Env) (s : VoxelEditPacketSender) (buffer : List Nat) :
    Option VoxelEditPacketSender :=
  if !s._shouldSend then some s
  else if !voxelServersExist env then none
  else
    let headerBytes := env.numBytesForPacketHeader buffer + 2 + 8
    let octCode := buffer.drop headerBytes
    env.nodes.foldlM (queuePacketToNodesStep env buffer buffer.length octCode) s

/-- Source: `sendVoxelEditMessage(type, detail)`.  `encoded` is what the encoder
`createVoxelEditMessage(type, 0, 1, &detail, bufferOut, sizeOut)` produces for the detail:
`none` when it returns false, the buffer `bufferOut` of `sizeOut` bytes otherwise. -/
def sendVoxelEditMessage (env : Env) (s : VoxelEditPacketSender) (type : PACKET_TYPE)
    (encoded : Option (List Nat)) : Option VoxelEditPacketSender :=
  if !s._shouldSend then some s
  else
    match encoded with
    | none => some s
    | some bufferOut =>
      if !voxelServersExist env then
        if s._maxPendingMessages > 0 then
          let packet := EditPacketBuffer.make type bufferOut nullUUID
          let single := s._preServerSingleMessagePackets ++ [packet]
          let allPendingMessages : Int :=
            ((single.length + s._preServerPackets.length : Nat) : Int)
          if allPendingMessages > s._maxPendingMessages then
            some { s with _preServerSingleMessagePackets := single.tail }
          else some { s with _preServerSingleMessagePackets := single }
        else some s
      else queuePacketToNodes env s bufferOut

/-- The loop of `releaseQueuedMessages` over the entries of `_pendingEditPackets` that are
still to visit; each entry is written back after its release. -/
def releaseQueuedMessagesLoop (env : Env) :
    List (Nat × EditPacketBuffer) → VoxelEditPacketSender → VoxelEditPacketSender
  | [], s => s
  | (uuid, _) :: rest, s =>
    let released := releaseQueuedPacket env s (mapGet s._pendingEditPackets uuid)
    releaseQueuedMessagesLoop env rest
      { released.1 with
        _pendingEditPackets := mapSet released.1._pendingEditPackets uuid released.2 }

/-- Source: `releaseQueuedMessages()`. -/
def releaseQueuedMessages (env : Env) (s : VoxelEditPacketSender) : VoxelEditPacketSender :=
  if !voxelServersExist env then { s with _releaseQueuedMessagesPending := true }
  else releaseQueuedMessagesLoop env s._pendingEditPackets s

/-- The first loop of `processPreServerExistsPackets`, with at most `fuel` iterations. -/
def drainSingleMessagePackets (env : Env) :
    Nat → VoxelEditPacketSender → Option VoxelEditPacketSender
  | 0, s => some s
  | fuel + 1, s =>
    match s._preServerSingleMessagePackets with
    | [] => some s
    | packet :: _ => do
      let s1 ← queuePacketToNodes env s (packet._currentBuffer.take packet._currentSize)
      drainSingleMessagePackets env fuel
        { s1 with _preServerSingleMessagePackets := s1._preServerSingleMessagePackets.tail }

/-- The second loop of `processPreServerExistsPackets`, with at most `fuel` iterations. -/
def drainPackets (env : Env) : Nat → VoxelEditPacketSender → VoxelEditPacketSender
  | 0, s => s
  | fuel + 1, s =>
    match s._preServerPackets with
    | [] => s
    | packet :: _ =>
      let s1 := queueVoxelEditMessage env s packet._currentType
        (packet._currentBuffer.take packet._currentSize)
      drainPackets env fuel { s1 with _preServerPackets := s1._preServerPackets.tail }

/-- Source: `processPreServerExistsPackets()`.  Each loop removes one packet of its queue per
iteration and, servers being known, adds none, so the length of the queue is fuel
enough. -/
def processPreServerExistsPackets (env : Env) (s : VoxelEditPacketSender) :
    Option VoxelEditPacketSender :=
  if !voxelServersExist env then none
  else do
    let s1 ← drainSingleMessagePackets env s._preServerSingleMessagePackets.length s
    let s2 := drainPackets env s1._preServerPackets.length s1
    if s2._releaseQueuedMessagesPending then
      some { releaseQueuedMessages env s2 with _releaseQueuedMessagesPending := false }
    else some s2

/-- Source: `process()`, up to the call of `PacketSender::process()`, the worker of the base
class that sends the packets of the outbound queue. -/
def process (env : Env) (s : VoxelEditPacketSender) : Option VoxelEditPacketSender :=
  if voxelServersExist env
      ∧ (!s._preServerPackets.isEmpty ∨ !s._preServerSingleMessagePackets.isEmpty) then
    processPreServerExistsPackets env s
  else some s

/-- A call of the public interface of the sender. -/
inductive Call where
  | sendVoxelEditMessage (type : PACKET_TYPE) (encoded : Option (List Nat))
  | queueVoxelEditMessage (type : PACKET_TYPE) (codeColorBuffer : List Nat)
  | releaseQueuedMessages
  | process

/-- One call, in the environment it sees. -/
def step (env : Env) (s : VoxelEditPacketSender) : Call → Option VoxelEditPacketSender
  | Call.sendVoxelEditMessage type encoded => sendVoxelEditMessage env s type encoded
  | Call.queueVoxelEditMessage type codeColorBuffer =>
    some (queueVoxelEditMessage env s type codeColorBuffer)
  | Call.releaseQueuedMessages => some (releaseQueuedMessages env s)
  | Call.process => process env s

/-- A run of the sender: the calls in order, each with the environment it sees. -/
def run (s : VoxelEditPacketSender) : List (Env × Call) → Option VoxelEditPacketSender
  | [] => some s
  | (env, call) :: rest => do
    let s1 ← step env s call
    run s1 rest

/-- The size of the header of a batched packet: packet header, 2-byte sequence number and
8-byte timestamp. -/
def headerSize (env : Env) (type : PACKET_TYPE) : Nat :=
  (env.populateTypeAndVersion type).length + 2 + 8

end VoxelEditPacketSender

open VoxelEditPacketSender

/-! ## Notions used to state the properties of the sender -/

/-- The part of the sender that batching does not touch: the switches, the limits and the two
pre-server queues. -/
def Frame (s s1 : VoxelEditPacketSender) : Prop :=
  s1._shouldSend = s._shouldSend ∧ s1._maxPendingMessages = s._maxPendingMessages
    ∧ s1._maxPacketSize = s._maxPacketSize
    ∧ s1._releaseQueuedMessagesPending = s._releaseQueuedMessagesPending
    ∧ s1._preServerSingleMessagePackets = s._preServerSingleMessagePackets
    ∧ s1._preServerPackets = s._preServerPackets

/-- The calls that read the jurisdiction table through the pointer
`_voxelServerJurisdictions` without testing it: those that reach `queuePacketToNodes`. -/
def usesTable : Call → Bool
  | Call.sendVoxelEditMessage _ _ => true
  | Call.process => true
  | _ => false

/-- The outbound queue and the sequence counter apart, nothing of the sender changes. -/
def Keeps (s s1 : VoxelEditPacketSender) : Prop :=
  Frame s s1 ∧ s1._pendingEditPackets = s._pendingEditPackets

/-- An invariant of the per-server buffers and of the queue of packable messages: the limit
`_maxPacketSize` is `MAX`, every per-server buffer satisfies `Q`, and every message waiting
in `_preServerPackets` satisfies `R`. -/
def BufferInv (MAX : Int) (Q : EditPacketBuffer → Prop) (R : PACKET_TYPE → List Nat → Prop)
    (s : VoxelEditPacketSender) : Prop :=
  s._maxPacketSize = MAX ∧ (∀ p ∈ s._pendingEditPackets, Q p.2)
    ∧ ∀ p ∈ s._preServerPackets, R p._currentType (p._currentBuffer.take p._currentSize)

/-- The calls of a run whose queued messages all satisfy `R`. -/
def Admissible (R : PACKET_TYPE → List Nat → Prop) : Call → Prop
  | Call.queueVoxelEditMessage type codeColorBuffer => R type codeColorBuffer
  | _ => True

/-- Bit `b` of the section `i` of a code, as a rational number 0 or 1: bit 2 is the most
significant bit of the 3-bit section and bit 0 the least significant one. -/
def sectionBit (c : List Nat) (i : Nat) (b : Nat) : ℚ :=
  ((((getOctalCodeSectionValue c i).getD 0 / 2 ^ b % 2 : Nat)) : ℚ)

/-- The sender holds one open packet, in the buffer of the server `U`: a packet of the type
`t` whose bytes are a header of the size of `hdr t` plus the 2-byte sequence number and the
8-byte timestamp, followed by `payload`. -/
def Batched (U : Nat) (t : PACKET_TYPE) (hdr : PACKET_TYPE → List Nat) (payload : List Nat)
    (s : VoxelEditPacketSender) : Prop :=
  ∃ b, s._pendingEditPackets = [(U, b)] ∧ b._currentType = t ∧ b._nodeUUID = U
    ∧ b._currentSize ≤ b._currentBuffer.length
    ∧ ∃ header, header.length = (hdr t).length + 2 + 8
        ∧ b._currentBuffer.take b._currentSize = header ++ payload

/-- The only buffer of the sender is that of the server `U`, and it holds the packet `bytes`
of the type `t`. -/
def Holds (U : Nat) (t : PACKET_TYPE) (bytes : List Nat) (s : VoxelEditPacketSender) : Prop :=
  ∃ b, s._pendingEditPackets = [(U, b)] ∧ b._currentType = t ∧ b._nodeUUID = U
    ∧ b._currentSize ≤ b._currentBuffer.length
    ∧ b._currentBuffer.take b._currentSize = bytes

/-! ## Environments of the examples -/

/-- One voxel server (UUID 1, socket 10) and no jurisdiction table, so every edit is taken
to be the server's; packet headers are the type and a version byte. -/
def oneServerEnv : Env :=
  { nodes := [{ type := NODE_TYPE_VOXEL_SERVER, uuid := 1, activeSocket := some 10 }]
    jurisdictions := none
    defaultJurisdiction := { isMyJurisdiction := fun _ _ => Area.NOT_MINE }
    populateTypeAndVersion := fun type => [type, 1]
    numBytesForPacketHeader := fun _ => 2
    usecTimestampNow := 0 }

/-- No node at all: no voxel server is known. -/
def noServerEnv : Env :=
  { nodes := []
    jurisdictions := none
    defaultJurisdiction := { isMyJurisdiction := fun _ _ => Area.NOT_MINE }
    populateTypeAndVersion := fun type => [type, 1]
    numBytesForPacketHeader := fun _ => 2
    usecTimestampNow := 0 }

/-- Two voxel servers, listed as UUID 2 (socket 20) then UUID 1 (socket 10); server 1 owns
the codes whose first byte is 1 and server 2 those whose first byte is 2. -/
def twoServerEnv : Env :=
  { nodes := [{ type := NODE_TYPE_VOXEL_SERVER, uuid := 2, activeSocket := some 20 },
      { type := NODE_TYPE_VOXEL_SERVER, uuid := 1, activeSocket := some 10 }]
    jurisdictions := some
      [(1, { isMyJurisdiction := fun code _ =>
          if code.getD 0 0 = 1 then Area.WITHIN else Area.NOT_MINE }),
        (2, { isMyJurisdiction := fun code _ =>
          if code.getD 0 0 = 2 then Area.WITHIN else Area.NOT_MINE })]
    defaultJurisdiction := { isMyJurisdiction := fun _ _ => Area.NOT_MINE }
    populateTypeAndVersion := fun type => [type, 1]
    numBytesForPacketHeader := fun _ => 2
    usecTimestampNow := 0 }

/-- The one server of `oneServerEnv`. -/
def oneServerNode : Node :=
  { type := NODE_TYPE_VOXEL_SERVER, uuid := 1, activeSocket := some 10 }

/-- A sender whose buffer for the server 1 is open: a fresh sender, under the limit 1500,
after one edit of the type 83 and of three bytes. -/
def openSender : VoxelEditPacketSender :=
  queueVoxelEditMessage oneServerEnv (fresh 1500 60) 83 [1, 2, 3]

/-- A fresh sender that has been disabled. -/
def disabledSender : VoxelEditPacketSender :=
  { fresh 1500 60 with _shouldSend := false }

/-! ## Byte-level facts

The bit operations of the section accessors in arithmetic form. -/

section ByteFacts

set_option maxRecDepth 100000 in
theorem byte_set_single : ∀ s, s < 6 → ∀ b, b < 256 → ∀ v, v < 8 →
    ((b &&& (0xFF ^^^ ((7 <<< s) % 256))) ||| ((v <<< s) % 256)) % 256
      = b / 2 ^ (s + 3) * 2 ^ (s + 3) + v * 2 ^ s + b % 2 ^ s := by
  decide

set_option maxRecDepth 100000 in
theorem byte_set_first : ∀ t, t < 3 → ∀ b, b < 256 → ∀ v, v < 8 →
    ((b &&& (0xFF ^^^ ((7 >>> t) % 256))) ||| ((v >>> t) % 256)) % 256
      = b / 2 ^ (3 - t) * 2 ^ (3 - t) + v / 2 ^ t := by
  decide

set_option maxRecDepth 100000 in
theorem byte_set_second : ∀ t, t < 3 → ∀ b, b < 256 → ∀ v, v < 8 →
    ((b &&& (0xFF ^^^ ((7 <<< (8 - t)) % 256))) ||| ((v <<< (8 - t)) % 256)) % 256
      = b % 2 ^ (8 - t) + (v % 2 ^ t) * 2 ^ (8 - t) := by
  decide

theorem byte_get_single (b s : Nat) : (b >>> s) &&& 7 = (b / 2 ^ s) % 8 := by
  rw [Nat.shiftRight_eq_div_pow]
  exact Nat.and_pow_two_sub_one_eq_mod _ 3

theorem byte_get_straddle (b0 b1 t u : Nat) :
    ((b0 <<< t) &&& 7) + (b1 >>> u) = (b0 * 2 ^ t) % 8 + b1 / 2 ^ u := by
  rw [Nat.shiftRight_eq_div_pow, Nat.shiftLeft_eq]
  congr 1
  exact Nat.and_pow_two_sub_one_eq_mod _ 3

end ByteFacts

/-! ## The accessors in arithmetic form -/

section Accessors

theorem readByte_of_lt (c : List Nat) (n : Nat) (h : n < c.length) :
    readByte c n = some (c.getD n 0) := by
  simp [readByte, List.getD, List.getElem?_eq_getElem h]

theorem readByte_drop (c : List Nat) (m n : Nat) :
    readByte (c.drop m) n = readByte c (m + n) := by
  simp [readByte, List.getElem?_drop]

theorem getSection_single (c : List Nat) (i : Nat) (hr : 3 * i % 8 ≤ 5)
    (hlen : 1 + 3 * i / 8 < c.length) :
    getOctalCodeSectionValue c i
      = some ((c.getD (1 + 3 * i / 8) 0 / 2 ^ (5 - 3 * i % 8)) % 8) := by
  have hs : ¬ ((8 : Int) - ((3 * i % 8 : Nat) : Int) - 3 < 0) := by omega
  have ht : ((8 : Int) - ((3 * i % 8 : Nat) : Int) - 3).toNat = 5 - 3 * i % 8 := by omega
  simp only [getOctalCodeSectionValue, sectionValue, BITS_IN_OCTAL, BITS_IN_BYTE, hs, ht,
    if_false, readByte_drop, Nat.add_zero, readByte_of_lt c _ hlen, Option.bind_eq_bind,
    Option.some_bind, byte_get_single]

theorem getSection_straddle (c : List Nat) (i : Nat) (hr : 6 ≤ 3 * i % 8)
    (hlen : 2 + 3 * i / 8 < c.length) :
    getOctalCodeSectionValue c i
      = some ((c.getD (1 + 3 * i / 8) 0 * 2 ^ (3 * i % 8 - 5)) % 8
          + c.getD (2 + 3 * i / 8) 0 / 2 ^ (13 - 3 * i % 8)) := by
  have h8 : 3 * i % 8 < 8 := Nat.mod_lt _ (by norm_num)
  have hs : (8 : Int) - ((3 * i % 8 : Nat) : Int) - 3 < 0 := by omega
  have ht : (-((8 : Int) - ((3 * i % 8 : Nat) : Int) - 3)).toNat = 3 * i % 8 - 5 := by omega
  have hu : ((8 : Int) + ((8 : Int) - ((3 * i % 8 : Nat) : Int) - 3)).toNat = 13 - 3 * i % 8 := by
    omega
  have h1 : 1 + 3 * i / 8 < c.length := by omega
  have h2 : 1 + 3 * i / 8 + 1 = 2 + 3 * i / 8 := by omega
  simp only [getOctalCodeSectionValue, sectionValue, BITS_IN_OCTAL, BITS_IN_BYTE, hs, ht, hu,
    if_true, readByte_drop, Nat.add_zero, readByte_of_lt c _ h1, h2, readByte_of_lt c _ hlen,
    Option.bind_eq_bind, Option.some_bind, byte_get_straddle]

end Accessors

section SetAccessor

theorem writeByte_of_lt (c : List Nat) (n v : Nat) (h : n < c.length) :
    writeByte c n v = some (c.set n (v % 256)) := by
  simp [writeByte, h]

theorem setSection_single (c : List Nat) (i v : Nat) (hr : 3 * i % 8 ≤ 5)
    (hlen : 1 + 3 * i / 8 < c.length) (hb : c.getD (1 + 3 * i / 8) 0 < 256) (hv : v < 8) :
    setOctalCodeSectionValue c i v
      = some (c.set (1 + 3 * i / 8)
          (c.getD (1 + 3 * i / 8) 0 / 2 ^ (5 - 3 * i % 8 + 3) * 2 ^ (5 - 3 * i % 8 + 3)
            + v * 2 ^ (5 - 3 * i % 8) + c.getD (1 + 3 * i / 8) 0 % 2 ^ (5 - 3 * i % 8))) := by
  have hs : ((8 : Int) - ((3 * i % 8 : Nat) : Int) - 3) ≥ 0 := by omega
  have ht : ((8 : Int) - ((3 * i % 8 : Nat) : Int) - 3).toNat = 5 - 3 * i % 8 := by omega
  have h6 : ¬ (3 * i % 8 ≥ 6) := by omega
  have hlt : 5 - 3 * i % 8 < 6 := by omega
  simp only [setOctalCodeSectionValue, BITS_IN_OCTAL, BITS_IN_BYTE, Nat.cast_ofNat, hs, ht, h6,
    if_true, if_false, readByte_of_lt c _ hlen, Option.bind_eq_bind, Option.some_bind,
    writeByte_of_lt c _ _ hlen, byte_set_single _ hlt _ hb _ hv]

theorem setSection_straddle (c : List Nat) (i v : Nat) (hr : 6 ≤ 3 * i % 8)
    (hlen : 2 + 3 * i / 8 < c.length) (hb0 : c.getD (1 + 3 * i / 8) 0 < 256)
    (hb1 : c.getD (2 + 3 * i / 8) 0 < 256) (hv : v < 8) :
    setOctalCodeSectionValue c i v
      = some ((c.set (1 + 3 * i / 8)
            (c.getD (1 + 3 * i / 8) 0 / 2 ^ (8 - 3 * i % 8) * 2 ^ (8 - 3 * i % 8)
              + v / 2 ^ (3 * i % 8 - 5))).set (2 + 3 * i / 8)
            (c.getD (2 + 3 * i / 8) 0 % 2 ^ (13 - 3 * i % 8)
              + v % 2 ^ (3 * i % 8 - 5) * 2 ^ (13 - 3 * i % 8))) := by
  have h8 : 3 * i % 8 < 8 := Nat.mod_lt _ (by norm_num)
  have hs : ¬ (((8 : Int) - ((3 * i % 8 : Nat) : Int) - 3) ≥ 0) := by omega
  have ht : (-((8 : Int) - ((3 * i % 8 : Nat) : Int) - 3)).toNat = 3 * i % 8 - 5 := by omega
  have h6 : 3 * i % 8 ≥ 6 := hr
  have h1 : 1 + 3 * i / 8 < c.length := by omega
  have h2 : 1 + 3 * i / 8 + 1 = 2 + 3 * i / 8 := by omega
  have hu : 8 - (3 - (8 - 3 * i % 8)) = 8 - (3 * i % 8 - 5) := by omega
  have hlt : 3 * i % 8 - 5 < 3 := by omega
  have hlen2 : 2 + 3 * i / 8 <
      (c.set (1 + 3 * i / 8)
        (c.getD (1 + 3 * i / 8) 0 / 2 ^ (8 - 3 * i % 8) * 2 ^ (8 - 3 * i % 8)
          + v / 2 ^ (3 * i % 8 - 5))).length := by
    simpa using hlen
  have hget2 : (c.set (1 + 3 * i / 8)
        (c.getD (1 + 3 * i / 8) 0 / 2 ^ (8 - 3 * i % 8) * 2 ^ (8 - 3 * i % 8)
          + v / 2 ^ (3 * i % 8 - 5))).getD (2 + 3 * i / 8) 0 = c.getD (2 + 3 * i / 8) 0 := by
    simp only [List.getD_eq_getElem?_getD]
    rw [List.getElem?_set_ne (by omega)]
  have e1 := byte_set_first _ hlt _ hb0 _ hv
  have e2 := byte_set_second _ hlt _ hb1 _ hv
  have hp1 : 3 - (3 * i % 8 - 5) = 8 - 3 * i % 8 := by omega
  have hp2 : 8 - (3 * i % 8 - 5) = 13 - 3 * i % 8 := by omega
  rw [hp1] at e1
  rw [hp2] at e2
  simp only [setOctalCodeSectionValue, BITS_IN_OCTAL, BITS_IN_BYTE, Nat.cast_ofNat, hs, ht, h6,
    if_true, if_false, readByte_of_lt c _ h1, Option.bind_eq_bind, Option.some_bind,
    writeByte_of_lt c _ _ h1, e1, h2, hu, hp2, readByte_of_lt _ _ hlen2, hget2,
    writeByte_of_lt _ _ _ hlen2, e2]

end SetAccessor

/-! ## The section stream bit by bit -/

section Bits

theorem bit_upd_single (r p b v : Nat) (hr : r ≤ 5) (hp : p < 8) (hb : b < 256) (hv : v < 8) :
    ((b / 2 ^ (5 - r + 3) * 2 ^ (5 - r + 3) + v * 2 ^ (5 - r) + b % 2 ^ (5 - r)) / 2 ^ (7 - p)) % 2
      = if r ≤ p ∧ p < r + 3 then (v / 2 ^ (r + 2 - p)) % 2 else (b / 2 ^ (7 - p)) % 2 := by
  interval_cases r <;> interval_cases p <;> simp <;> omega

theorem bit_upd_first (r p b v : Nat) (hr : 6 ≤ r) (hr8 : r < 8) (hp : p < 8) (hb : b < 256)
    (hv : v < 8) :
    ((b / 2 ^ (8 - r) * 2 ^ (8 - r) + v / 2 ^ (r - 5)) / 2 ^ (7 - p)) % 2
      = if r ≤ p then (v / 2 ^ (r + 2 - p)) % 2 else (b / 2 ^ (7 - p)) % 2 := by
  interval_cases r <;> interval_cases p <;> simp <;> omega

theorem bit_upd_second (r p b v : Nat) (hr : 6 ≤ r) (hr8 : r < 8) (hp : p < 8) (hb : b < 256)
    (hv : v < 8) :
    ((b % 2 ^ (13 - r) + v % 2 ^ (r - 5) * 2 ^ (13 - r)) / 2 ^ (7 - p)) % 2
      = if p + 8 < r + 3 then (v / 2 ^ (r + 2 - (p + 8))) % 2 else (b / 2 ^ (7 - p)) % 2 := by
  interval_cases r <;> interval_cases p <;> simp <;> omega

theorem byte_upd_single_lt (r b v : Nat) (hr : r ≤ 5) (hb : b < 256) (hv : v < 8) :
    b / 2 ^ (5 - r + 3) * 2 ^ (5 - r + 3) + v * 2 ^ (5 - r) + b % 2 ^ (5 - r) < 256 := by
  interval_cases r <;> simp <;> omega

theorem byte_upd_first_lt (r b v : Nat) (hr : 6 ≤ r) (hr8 : r < 8) (hb : b < 256) (hv : v < 8) :
    b / 2 ^ (8 - r) * 2 ^ (8 - r) + v / 2 ^ (r - 5) < 256 := by
  interval_cases r <;> simp <;> omega

theorem byte_upd_second_lt (r b v : Nat) (hr : 6 ≤ r) (hr8 : r < 8) (hb : b < 256) (hv : v < 8) :
    b % 2 ^ (13 - r) + v % 2 ^ (r - 5) * 2 ^ (13 - r) < 256 := by
  interval_cases r <;> simp <;> omega

theorem getSection_eq_bits (c : List Nat) (i : Nat) (hb : ∀ n, c.getD n 0 < 256)
    (hlen : 1 + (3 * i + 2) / 8 < c.length) :
    getOctalCodeSectionValue c i
      = some (4 * bitAt c (3 * i) + 2 * bitAt c (3 * i + 1) + bitAt c (3 * i + 2)) := by
  have h8 : 3 * i % 8 < 8 := Nat.mod_lt _ (by norm_num)
  by_cases hr : 3 * i % 8 ≤ 5
  · rw [getSection_single c i hr (by omega)]
    have e1 : (3 * i + 1) / 8 = 3 * i / 8 := by omega
    have e2 : (3 * i + 2) / 8 = 3 * i / 8 := by omega
    have f1 : (3 * i + 1) % 8 = 3 * i % 8 + 1 := by omega
    have f2 : (3 * i + 2) % 8 = 3 * i % 8 + 2 := by omega
    simp only [bitAt, e1, e2, f1, f2]
    have hb0 := hb (1 + 3 * i / 8)
    generalize c.getD (1 + 3 * i / 8) 0 = b at hb0 ⊢
    generalize 3 * i % 8 = r at hr ⊢
    congr 1
    interval_cases r <;> simp <;> omega
  · have hb0 := hb (1 + 3 * i / 8)
    have hb1 := hb (2 + 3 * i / 8)
    rw [getSection_straddle c i (by omega) (by omega)]
    by_cases h6 : 3 * i % 8 = 6
    · have e1 : (3 * i + 1) / 8 = 3 * i / 8 := by omega
      have e2 : 1 + (3 * i + 2) / 8 = 2 + 3 * i / 8 := by omega
      have f1 : (3 * i + 1) % 8 = 7 := by omega
      have f2 : (3 * i + 2) % 8 = 0 := by omega
      simp only [bitAt, e1, e2, f1, f2, h6]
      generalize c.getD (1 + 3 * i / 8) 0 = b0 at hb0 ⊢
      generalize c.getD (2 + 3 * i / 8) 0 = b1 at hb1 ⊢
      congr 1
      simp
      omega
    · have h7 : 3 * i % 8 = 7 := by omega
      have e1 : 1 + (3 * i + 1) / 8 = 2 + 3 * i / 8 := by omega
      have e2 : 1 + (3 * i + 2) / 8 = 2 + 3 * i / 8 := by omega
      have f1 : (3 * i + 1) % 8 = 0 := by omega
      have f2 : (3 * i + 2) % 8 = 1 := by omega
      simp only [bitAt, e1, e2, f1, f2, h7]
      generalize c.getD (1 + 3 * i / 8) 0 = b0 at hb0 ⊢
      generalize c.getD (2 + 3 * i / 8) 0 = b1 at hb1 ⊢
      congr 1
      simp
      omega

end Bits

section SetBits

theorem getD_set_self (c : List Nat) (n x : Nat) (h : n < c.length) :
    (c.set n x).getD n 0 = x := by
  simp [List.getD_eq_getElem?_getD, List.getElem?_set_self h]

theorem getD_set_other (c : List Nat) (n m x : Nat) (h : n ≠ m) :
    (c.set n x).getD m 0 = c.getD m 0 := by
  simp [List.getD_eq_getElem?_getD, List.getElem?_set_ne h]

theorem getD_set_lt (c : List Nat) (n m x : Nat) (hx : x < 256) (hc : ∀ k, c.getD k 0 < 256) :
    (c.set n x).getD m 0 < 256 := by
  by_cases h : n = m
  · subst h
    by_cases hl : n < c.length
    · rw [getD_set_self c n x hl]
      exact hx
    · rw [List.set_eq_of_length_le (by omega)]
      exact hc n
  · rw [getD_set_other c n m x h]
    exact hc m

/-- Writing a section: the call succeeds inside the buffer, keeps the length and byte 0, and
changes exactly the three bits of the section. -/
theorem setSection_bits (c : List Nat) (i v : Nat) (hb : ∀ n, c.getD n 0 < 256)
    (hlen : 1 + (3 * i + 2) / 8 < c.length) (hv : v < 8) :
    ∃ c1, setOctalCodeSectionValue c i v = some c1 ∧ c1.length = c.length
      ∧ (∀ n, c1.getD n 0 < 256) ∧ c1.getD 0 0 = c.getD 0 0
      ∧ ∀ k, bitAt c1 k
          = if 3 * i ≤ k ∧ k < 3 * i + 3 then (v / 2 ^ (3 * i + 2 - k)) % 2 else bitAt c k := by
  have h8 : 3 * i % 8 < 8 := Nat.mod_lt _ (by norm_num)
  have hb0 := hb (1 + 3 * i / 8)
  have hb1 := hb (2 + 3 * i / 8)
  by_cases hr : 3 * i % 8 ≤ 5
  · have hl1 : 1 + 3 * i / 8 < c.length := by omega
    refine ⟨_, setSection_single c i v hr hl1 hb0 hv, by simp, ?_, ?_, ?_⟩
    · intro n
      exact getD_set_lt c _ n _ (byte_upd_single_lt _ _ _ hr hb0 hv) hb
    · exact getD_set_other c _ 0 _ (by omega)
    · intro k
      have hk8 : k % 8 < 8 := Nat.mod_lt _ (by norm_num)
      by_cases hk : k / 8 = 3 * i / 8
      · simp only [bitAt, hk, getD_set_self c _ _ hl1]
        rw [bit_upd_single _ _ _ _ hr hk8 hb0 hv]
        have hc : (3 * i % 8 ≤ k % 8 ∧ k % 8 < 3 * i % 8 + 3) ↔ (3 * i ≤ k ∧ k < 3 * i + 3) := by
          omega
        have he : 3 * i % 8 + 2 - k % 8 = 3 * i + 2 - k := by omega
        simp only [hc, he]
      · have hc : ¬ (3 * i ≤ k ∧ k < 3 * i + 3) := by omega
        simp only [bitAt, hc, if_false]
        rw [getD_set_other c _ _ _ (by omega)]
  · have hl1 : 1 + 3 * i / 8 < c.length := by omega
    have hl2 : 2 + 3 * i / 8 < c.length := by omega
    have hr6 : 6 ≤ 3 * i % 8 := by omega
    refine ⟨_, setSection_straddle c i v hr6 hl2 hb0 hb1 hv, by simp, ?_, ?_, ?_⟩
    · intro n
      exact getD_set_lt _ _ n _ (byte_upd_second_lt _ _ _ hr6 h8 hb1 hv)
        (fun m => getD_set_lt c _ m _ (byte_upd_first_lt _ _ _ hr6 h8 hb0 hv) hb)
    · rw [getD_set_other _ _ 0 _ (by omega), getD_set_other c _ 0 _ (by omega)]
    · intro k
      have hk8 : k % 8 < 8 := Nat.mod_lt _ (by norm_num)
      by_cases hk : k / 8 = 3 * i / 8
      · have e1 : 1 + k / 8 = 1 + 3 * i / 8 := by omega
        simp only [bitAt, e1]
        rw [getD_set_other _ _ _ _ (by omega), getD_set_self c _ _ hl1]
        rw [bit_upd_first _ _ _ _ hr6 h8 hk8 hb0 hv]
        have hc : (3 * i % 8 ≤ k % 8) ↔ (3 * i ≤ k ∧ k < 3 * i + 3) := by omega
        have he : 3 * i % 8 + 2 - k % 8 = 3 * i + 2 - k := by omega
        simp only [hc, he]
      · by_cases hk2 : k / 8 = 3 * i / 8 + 1
        · have e1 : 1 + k / 8 = 2 + 3 * i / 8 := by omega
          simp only [bitAt, e1]
          rw [getD_set_self _ _ _ (by simpa using hl2)]
          rw [bit_upd_second _ _ _ _ hr6 h8 hk8 hb1 hv]
          have hc : (k % 8 + 8 < 3 * i % 8 + 3) ↔ (3 * i ≤ k ∧ k < 3 * i + 3) := by omega
          have he : 3 * i % 8 + 2 - (k % 8 + 8) = 3 * i + 2 - k := by omega
          simp only [hc, he]
        · have hc : ¬ (3 * i ≤ k ∧ k < 3 * i + 3) := by omega
          simp only [bitAt, hc, if_false]
          rw [getD_set_other _ _ _ _ (by omega), getD_set_other c _ _ _ (by omega)]

end SetBits

section SetGet

theorem getD_lt_of_forall (c : List Nat) (h : ∀ b ∈ c, b < 256) (n : Nat) : c.getD n 0 < 256 := by
  by_cases hn : n < c.length
  · rw [List.getD_eq_getElem c 0 hn]
    exact h _ (List.getElem_mem hn)
  · rw [List.getD_eq_default c 0 (by omega)]
    norm_num

theorem forall_lt_of_getD (c : List Nat) (h : ∀ n, c.getD n 0 < 256) : ∀ b ∈ c, b < 256 := by
  intro b hb
  obtain ⟨n, hn, rfl⟩ := List.getElem_of_mem hb
  have := h n
  rwa [List.getD_eq_getElem c 0 hn] at this

theorem bits_value (v : Nat) (hv : v < 8) :
    4 * ((v / 2 ^ 2) % 2) + 2 * ((v / 2 ^ 1) % 2) + (v / 2 ^ 0) % 2 = v := by
  norm_num
  omega

/-- Reading back the section just written, and any other section, after
`setOctalCodeSectionValue` on a buffer of bytes. -/
theorem setSection_get (c : List Nat) (i v : Nat) (hb : ∀ n, c.getD n 0 < 256)
    (hlen : 1 + (3 * i + 2) / 8 < c.length) (hv : v < 8) :
    ∃ c1, setOctalCodeSectionValue c i v = some c1 ∧ c1.length = c.length
      ∧ (∀ n, c1.getD n 0 < 256) ∧ c1.getD 0 0 = c.getD 0 0
      ∧ (∀ k, bitAt c1 k
          = if 3 * i ≤ k ∧ k < 3 * i + 3 then (v / 2 ^ (3 * i + 2 - k)) % 2 else bitAt c k)
      ∧ getOctalCodeSectionValue c1 i = some v
      ∧ ∀ j, j ≠ i → 1 + (3 * j + 2) / 8 < c.length →
          getOctalCodeSectionValue c1 j = getOctalCodeSectionValue c j := by
  obtain ⟨c1, hset, hl, hb1, h0, hbits⟩ := setSection_bits c i v hb hlen hv
  refine ⟨c1, hset, hl, hb1, h0, hbits, ?_, ?_⟩
  · rw [getSection_eq_bits c1 i hb1 (by omega)]
    rw [hbits (3 * i), hbits (3 * i + 1), hbits (3 * i + 2)]
    have e0 : 3 * i + 2 - 3 * i = 2 := by omega
    have e1 : 3 * i + 2 - (3 * i + 1) = 1 := by omega
    have e2 : 3 * i + 2 - (3 * i + 2) = 0 := by omega
    have c0 : 3 * i ≤ 3 * i ∧ 3 * i < 3 * i + 3 := by omega
    have c1 : 3 * i ≤ 3 * i + 1 ∧ 3 * i + 1 < 3 * i + 3 := by omega
    have c2 : 3 * i ≤ 3 * i + 2 ∧ 3 * i + 2 < 3 * i + 3 := by omega
    simp only [c0, c1, c2, if_true, and_self, e0, e1, e2]
    rw [bits_value v hv]
  · intro j hj hjl
    rw [getSection_eq_bits c1 j hb1 (by omega), getSection_eq_bits c j hb hjl]
    rw [hbits (3 * j), hbits (3 * j + 1), hbits (3 * j + 2)]
    have c0 : ¬ (3 * i ≤ 3 * j ∧ 3 * j < 3 * i + 3) := by omega
    have c1 : ¬ (3 * i ≤ 3 * j + 1 ∧ 3 * j + 1 < 3 * i + 3) := by omega
    have c2 : ¬ (3 * i ≤ 3 * j + 2 ∧ 3 * j + 2 < 3 * i + 3) := by omega
    simp only [c0, c1, c2, if_false]

end SetGet

section Valid

theorem bytesRequired_eq (n : Nat) (h : n < 256) :
    bytesRequiredForCodeLength n = 1 + (3 * n + 7) / 8 := by
  unfold bytesRequiredForCodeLength
  simp only [Nat.mod_eq_of_lt h]
  split <;> omega

theorem validOctalCode_iff (c : List Nat) :
    validOctalCode c = true ↔
      ∃ n rest, c = n :: rest ∧ n < 255 ∧ bytesRequiredForCodeLength n ≤ c.length
        ∧ (∀ b ∈ c, b < 256)
        ∧ ((3 * n) % 8 = 0
            ∨ c.getD (bytesRequiredForCodeLength n - 1) 0 % 2 ^ (8 - (3 * n) % 8) = 0) := by
  cases c with
  | nil => simp [validOctalCode]
  | cons n rest =>
    simp only [validOctalCode, Bool.and_eq_true, decide_eq_true_eq, List.all_eq_true]
    constructor
    · rintro ⟨⟨⟨h1, h2⟩, h3⟩, h4⟩
      exact ⟨n, rest, rfl, h1, h2, h3, h4⟩
    · rintro ⟨m, rest1, he, h1, h2, h3, h4⟩
      obtain ⟨rfl, rfl⟩ := List.cons.inj he
      exact ⟨⟨⟨h1, h2⟩, h3⟩, h4⟩

theorem numberOf_cons (n : Nat) (rest : List Nat) (h : n ≠ 255) :
    numberOfThreeBitSectionsInCode (n :: rest) UNKNOWN_OCTCODE_LENGTH = some (n : Int) := by
  simp [numberOfThreeBitSectionsInCode, UNKNOWN_OCTCODE_LENGTH, OVERFLOWED_OCTCODE_BUFFER, h]

theorem numberOf_of_head (c : List Nat) (n : Nat) (hl : 0 < c.length) (h0 : c.getD 0 0 = n)
    (h : n ≠ 255) :
    numberOfThreeBitSectionsInCode c UNKNOWN_OCTCODE_LENGTH = some (n : Int) := by
  cases c with
  | nil => simp at hl
  | cons m rest =>
    simp at h0
    subst h0
    exact numberOf_cons m rest h

/-- A valid code in the form the proofs use: its head is the section count, which the
length decoder returns, its bytes are in range, it is long enough, and the bits past its
last section are zero in its last byte. -/
theorem valid_facts (c : List Nat) (hv : validOctalCode c = true) :
    ∃ n, c.getD 0 0 = n ∧ n < 255
      ∧ numberOfThreeBitSectionsInCode c UNKNOWN_OCTCODE_LENGTH = some (n : Int)
      ∧ 1 + (3 * n + 7) / 8 ≤ c.length ∧ (∀ m, c.getD m 0 < 256)
      ∧ ((3 * n) % 8 = 0 ∨ c.getD ((3 * n + 7) / 8) 0 % 2 ^ (8 - (3 * n) % 8) = 0) := by
  obtain ⟨n, rest, rfl, hn, hlen, hb, hpad⟩ := (validOctalCode_iff c).1 hv
  rw [bytesRequired_eq n (by omega)] at hlen hpad
  refine ⟨n, by simp, hn, numberOf_cons n rest (by omega), hlen, getD_lt_of_forall _ hb, ?_⟩
  simpa using hpad

end Valid

section Child

theorem memcpy_of_le (dst src : List Nat) (n : Nat) (h1 : n ≤ src.length) (h2 : n ≤ dst.length) :
    memcpy dst src n = some (src.take n ++ dst.drop n) := by
  simp [memcpy, h1, h2]

theorem length_newBuffer (g : Nat → Nat) (n : Nat) : (newBuffer g n).length = n := by
  simp [newBuffer]

theorem getD_take_append_drop (src dst : List Nat) (n m : Nat) (h1 : n ≤ src.length) :
    (src.take n ++ dst.drop n).getD m 0 = if m < n then src.getD m 0 else dst.getD m 0 := by
  simp only [List.getD_eq_getElem?_getD]
  by_cases hm : m < n
  · rw [List.getElem?_append_left (by simp; omega)]
    simp [hm, List.getElem?_take]
  · rw [List.getElem?_append_right (by simp; omega)]
    simp only [hm, if_false, List.length_take, Nat.min_eq_left h1, List.getElem?_drop]
    congr 2
    omega

theorem div8_facts (m : Nat) :
    (m % 8 = 0 → (m + 7) / 8 = m / 8 ∧ (m + 10) / 8 = m / 8 + 1)
      ∧ (1 ≤ m % 8 → m % 8 ≤ 5 → (m + 7) / 8 = m / 8 + 1 ∧ (m + 10) / 8 = m / 8 + 1)
      ∧ (6 ≤ m % 8 → (m + 7) / 8 = m / 8 + 1 ∧ (m + 10) / 8 = m / 8 + 2) := by
  omega

theorem child_of_valid (g : Nat → Nat) (p : List Nat) (n k : Nat)
    (hv : validOctalCode p = true) (h0 : p.getD 0 0 = n) (hn : n < 254) (hk : k < 8) :
    ∃ c, childOctalCode g (some p) k = some c
      ∧ numberOfThreeBitSectionsInCode c UNKNOWN_OCTCODE_LENGTH = some ((n : Int) + 1)
      ∧ getOctalCodeSectionValue c n = some k := by
  obtain ⟨n1, h01, _, hnum, hlen, hb, hpad⟩ := valid_facts p hv
  rw [h0] at h01
  subst h01
  have e1 : ((n : Int) + 1).toNat = n + 1 := by omega
  have hB : bytesRequiredForCodeLength n = 1 + (3 * n + 7) / 8 := bytesRequired_eq n (by omega)
  have hB1 : bytesRequiredForCodeLength (n + 1) = 1 + (3 * n + 10) / 8 := by
    rw [bytesRequired_eq (n + 1) (by omega)]
    omega
  simp only [childOctalCode, hnum, Option.bind_eq_bind, Option.some_bind, Int.toNat_ofNat, e1,
    hB, hB1]
  rw [memcpy_of_le _ _ _ hlen (by rw [length_newBuffer]; omega), Nat.mul_comm n 3]
  simp only [Option.some_bind]
  have hAl : (List.take (1 + (3 * n + 7) / 8) p ++
      List.drop (1 + (3 * n + 7) / 8) (newBuffer g (1 + (3 * n + 10) / 8))).length
        = 1 + (3 * n + 10) / 8 := by
    simp only [List.length_append, List.length_take, List.length_drop, length_newBuffer]
    omega
  have hAget : ∀ m, m < 1 + (3 * n + 7) / 8 →
      (List.take (1 + (3 * n + 7) / 8) p ++
        List.drop (1 + (3 * n + 7) / 8) (newBuffer g (1 + (3 * n + 10) / 8))).getD m 0
          = p.getD m 0 := by
    intro m hm
    rw [getD_take_append_drop _ _ _ _ hlen, if_pos hm]
  generalize (List.take (1 + (3 * n + 7) / 8) p ++
      List.drop (1 + (3 * n + 7) / 8) (newBuffer g (1 + (3 * n + 10) / 8))) = A at hAl hAget ⊢
  have h8 : 3 * n % 8 < 8 := Nat.mod_lt _ (by norm_num)
  have hn1 : (n + 1) % 256 = n + 1 := Nat.mod_eq_of_lt (by omega)
  have hne : n + 1 ≠ 255 := by omega
  rw [writeByte_of_lt A 0 _ (by omega), hn1]
  simp only [Option.some_bind]
  have hcast : ((n : Int) + 1) = ((n + 1 : Nat) : Int) := by push_cast; rfl
  rw [hcast]
  clear hcast e1 hB hB1 hnum hv
  rcases (show 3 * n % 8 = 0 ∨ (1 ≤ 3 * n % 8 ∧ 3 * n % 8 ≤ 5) ∨ 6 ≤ 3 * n % 8 by omega)
    with hr | hr | hr
  · -- the new section opens a new byte
    obtain ⟨d7, d10⟩ := (div8_facts (3 * n)).1 hr
    have hgt : 1 + (3 * n + 10) / 8 > 1 + (3 * n + 7) / 8 := by omega
    have hls : ¬ ((8 : Int) - ((3 * n % 8 : Nat) : Int) - 3 < 0) := by omega
    have hsh : ((8 : Int) - ((3 * n % 8 : Nat) : Int) - 3).toNat = 5 := by omega
    have hidx : 1 + (3 * n + 10) / 8 - 1 = 3 * n / 8 + 1 := by omega
    simp only [hgt, hls, hsh, if_true, if_false, hidx]
    rw [writeByte_of_lt _ _ _ (by simp; omega)]
    simp only [Option.some_bind]
    rw [readByte_of_lt _ _ (by simp; omega), getD_set_self _ _ _ (by simp; omega)]
    simp only [Option.some_bind]
    rw [writeByte_of_lt _ _ _ (by simp; omega)]
    refine ⟨_, rfl, ?_, ?_⟩
    · apply numberOf_of_head _ _ (by simp; omega) _ hne
      rw [getD_set_other _ _ _ _ (by omega), getD_set_other _ _ _ _ (by omega),
        getD_set_self _ _ _ (by omega)]
    · rw [getSection_single _ n (by omega) (by simp; omega)]
      have e : 1 + 3 * n / 8 = 3 * n / 8 + 1 := by omega
      rw [e, getD_set_self _ _ _ (by simp; omega), hr, Nat.shiftLeft_eq]
      congr 1
      norm_num
      omega
  · -- the new section fits into the last byte of the parent
    obtain ⟨d7, d10⟩ := (div8_facts (3 * n)).2.1 hr.1 hr.2
    have hgt : ¬ (1 + (3 * n + 10) / 8 > 1 + (3 * n + 7) / 8) := by omega
    have hls : ¬ ((8 : Int) - ((3 * n % 8 : Nat) : Int) - 3 < 0) := by omega
    have hsh : ((8 : Int) - ((3 * n % 8 : Nat) : Int) - 3).toNat = 5 - 3 * n % 8 := by omega
    simp only [hgt, hls, hsh, if_false]
    rw [readByte_of_lt _ _ (by simp; omega), getD_set_other _ _ _ _ (by omega),
      hAget _ (by omega)]
    simp only [Option.some_bind]
    rw [writeByte_of_lt _ _ _ (by simp; omega)]
    refine ⟨_, rfl, ?_, ?_⟩
    · apply numberOf_of_head _ _ (by simp; omega) _ hne
      rw [getD_set_other _ _ _ _ (by omega), getD_set_self _ _ _ (by omega)]
    · rw [getSection_single _ n (by omega) (by simp; omega)]
      have e : 1 + 3 * n / 8 = 3 * n / 8 + 1 := by omega
      have e2 : (3 * n + 7) / 8 = 3 * n / 8 + 1 := by omega
      rw [e, getD_set_self _ _ _ (by simp; omega), Nat.shiftLeft_eq]
      rw [e2] at hpad
      have hpad1 : p.getD (3 * n / 8 + 1) 0 % 2 ^ (8 - 3 * n % 8) = 0 :=
        hpad.resolve_left (by omega)
      have hbb := hb (3 * n / 8 + 1)
      generalize p.getD (3 * n / 8 + 1) 0 = b at hpad1 hbb ⊢
      obtain ⟨hr1, hr2⟩ := hr
      generalize 3 * n % 8 = r at hr1 hr2 hpad1 ⊢
      congr 1
      interval_cases r <;> simp at hpad1 ⊢ <;> omega
  · -- the new section straddles the last byte of the parent and a new byte
    obtain ⟨d7, d10⟩ := (div8_facts (3 * n)).2.2 hr
    have hgt : 1 + (3 * n + 10) / 8 > 1 + (3 * n + 7) / 8 := by omega
    have hls : (8 : Int) - ((3 * n % 8 : Nat) : Int) - 3 < 0 := by omega
    have hsh : (-((8 : Int) - ((3 * n % 8 : Nat) : Int) - 3)).toNat = 3 * n % 8 - 5 := by omega
    have hsh2 : ((8 : Int) + ((8 : Int) - ((3 * n % 8 : Nat) : Int) - 3)).toNat
        = 13 - 3 * n % 8 := by omega
    have hidx : 1 + (3 * n + 10) / 8 - 1 = 3 * n / 8 + 2 := by omega
    simp only [hgt, hls, hsh, hsh2, if_true, hidx]
    rw [writeByte_of_lt _ _ _ (by simp; omega)]
    simp only [Option.some_bind]
    rw [readByte_of_lt _ _ (by simp; omega), getD_set_other _ _ _ _ (by omega),
      getD_set_other _ _ _ _ (by omega), hAget _ (by omega)]
    simp only [Option.some_bind]
    rw [writeByte_of_lt _ _ _ (by simp; omega)]
    simp only [Option.some_bind]
    rw [readByte_of_lt _ _ (by simp; omega), getD_set_other _ _ _ _ (by omega),
      getD_set_self _ _ _ (by simp; omega)]
    simp only [Option.some_bind]
    rw [writeByte_of_lt _ _ _ (by simp; omega)]
    refine ⟨_, rfl, ?_, ?_⟩
    · apply numberOf_of_head _ _ (by simp; omega) _ hne
      rw [getD_set_other _ _ _ _ (by omega), getD_set_other _ _ _ _ (by omega),
        getD_set_other _ _ _ _ (by omega), getD_set_self _ _ _ (by omega)]
    · rw [getSection_straddle _ n hr (by simp; omega)]
      have e : 1 + 3 * n / 8 = 3 * n / 8 + 1 := by omega
      have e3 : 2 + 3 * n / 8 = 3 * n / 8 + 2 := by omega
      have e2 : (3 * n + 7) / 8 = 3 * n / 8 + 1 := by omega
      rw [e, e3, getD_set_self _ _ _ (by simp; omega), getD_set_other _ _ _ _ (by omega),
        getD_set_self _ _ _ (by simp; omega), Nat.shiftLeft_eq, Nat.shiftRight_eq_div_pow]
      rw [e2] at hpad
      have hpad1 : p.getD (3 * n / 8 + 1) 0 % 2 ^ (8 - 3 * n % 8) = 0 :=
        hpad.resolve_left (by omega)
      have hbb := hb (3 * n / 8 + 1)
      generalize p.getD (3 * n / 8 + 1) 0 = b at hpad1 hbb ⊢
      generalize 3 * n % 8 = r at hr h8 hpad1 ⊢
      congr 1
      interval_cases r <;> simp at hpad1 ⊢ <;> omega

end Child

section Ancestor

/-- Every section of a valid code can be read. -/
theorem valid_get (c : List Nat) (n i : Nat) (hb : ∀ m, c.getD m 0 < 256)
    (hlen : 1 + (3 * n + 7) / 8 ≤ c.length) (hi : i < n) :
    ∃ v, getOctalCodeSectionValue c i = some v ∧ v < 8 := by
  refine ⟨_, getSection_eq_bits c i hb (by omega), ?_⟩
  simp only [bitAt]
  omega

theorem isAncestorOfLoop_spec (A D : List Nat) (la ld : Int) (hle : la ≤ ld) (child : Int)
    (rem : Nat) :
    ∀ sec, (∀ i, sec ≤ i → i < sec + rem → ∃ v, getOctalCodeSectionValue A i = some v) →
      (∀ i, sec ≤ i → i < sec + rem → ∃ v, getOctalCodeSectionValue D i = some v) →
      ∃ b, isAncestorOfLoop A D la ld child rem sec = some b
        ∧ (b = true ↔ ∀ i, sec ≤ i → i < sec + rem →
            getOctalCodeSectionValue A i = getOctalCodeSectionValue D i) := by
  induction rem with
  | zero =>
    intro sec _ _
    refine ⟨true, rfl, ?_⟩
    simp only [true_iff]
    intro i h1 h2
    omega
  | succ r ih =>
    intro sec hA hD
    obtain ⟨va, hva⟩ := hA sec (le_refl _) (by omega)
    obtain ⟨vd, hvd⟩ := hD sec (le_refl _) (by omega)
    obtain ⟨b, hb, hiff⟩ := ih (sec + 1)
      (fun i h1 h2 => hA i (by omega) (by omega)) (fun i h1 h2 => hD i (by omega) (by omega))
    by_cases hne : va = vd
    · refine ⟨b, ?_, ?_⟩
      · simp only [isAncestorOfLoop, hva, hvd, hle, if_true, Option.bind_eq_bind,
          Option.some_bind, Option.map_eq_map, Option.map_some', hne, ne_eq, not_true_eq_false,
          if_false]
        exact hb
      · rw [hiff]
        constructor
        · intro h i h1 h2
          by_cases hi : i = sec
          · subst hi
            rw [hva, hvd, hne]
          · exact h i (by omega) (by omega)
        · intro h i h1 h2
          exact h i (by omega) (by omega)
    · refine ⟨false, ?_, ?_⟩
      · have hne2 : ¬ ((va : Int) = (vd : Int)) := by omega
        simp only [isAncestorOfLoop, hva, hvd, hle, if_true, Option.bind_eq_bind,
          Option.some_bind, Option.map_eq_map, Option.map_some', ne_eq, hne2, not_false_eq_true]
      · simp only [Bool.false_eq_true, false_iff, not_forall]
        refine ⟨sec, le_refl _, by omega, ?_⟩
        rw [hva, hvd]
        intro h
        exact hne (Option.some.inj h)

theorem isAncestorOf_of_valid (A D : List Nat) (hA : validOctalCode A = true)
    (hD : validOctalCode D = true) :
    ∃ b, isAncestorOf (some A) (some D) CHECK_NODE_ONLY = some b
      ∧ (b = true ↔ (A.getD 0 0 ≤ D.getD 0 0 ∧ ∀ i, i < A.getD 0 0 →
            getOctalCodeSectionValue A i = getOctalCodeSectionValue D i)) := by
  obtain ⟨a, ha0, _, hanum, halen, hab, _⟩ := valid_facts A hA
  obtain ⟨d, hd0, _, hdnum, hdlen, hdb, _⟩ := valid_facts D hD
  rw [ha0, hd0]
  by_cases hz : a = 0
  · subst hz
    refine ⟨true, ?_, ?_⟩
    · simp [isAncestorOf, hanum]
    · simp
  · by_cases hgt : a > d
    · refine ⟨false, ?_, ?_⟩
      · have h1 : ¬ ((a : Int) = 0) := by omega
        have h2 : (a : Int) > (d : Int) := by omega
        simp [isAncestorOf, hanum, hdnum, h1, h2]
      · simp only [Bool.false_eq_true, false_iff, not_and]
        intro h
        omega
    · have h1 : ¬ ((a : Int) = 0) := by omega
      have h2 : ¬ ((a : Int) > (d : Int)) := by omega
      have h3 : (a : Int) ≤ (d : Int) := by omega
      obtain ⟨b, hb, hiff⟩ := isAncestorOfLoop_spec A D a d h3 CHECK_NODE_ONLY a 0
        (fun i _ h => (valid_get A a i hab halen (by omega)).imp (fun _ h => h.1))
        (fun i _ h => (valid_get D d i hdb hdlen (by omega)).imp (fun _ h => h.1))
      refine ⟨b, ?_, ?_⟩
      · simp only [isAncestorOf, hanum, hdnum, Option.bind_eq_bind, Option.some_bind, h1,
          if_false, ne_eq, not_true_eq_false, h2, Int.toNat_ofNat]
        exact hb
      · rw [hiff]
        constructor
        · intro h
          exact ⟨by omega, fun i hi => h i (Nat.zero_le _) (by omega)⟩
        · intro h i _ hi
          exact h.2 i (by omega)

end Ancestor

section Compare

theorem memcmpSign_swap (a : List Nat) : ∀ b, memcmpSign b a = - memcmpSign a b := by
  induction a with
  | nil =>
    intro b
    cases b <;> simp [memcmpSign]
  | cons x a ih =>
    intro b
    cases b with
    | nil => simp [memcmpSign]
    | cons y b =>
      simp only [memcmpSign]
      by_cases h1 : x < y
      · have h2 : ¬ y < x := by omega
        simp [h1, h2]
      · by_cases h2 : y < x
        · simp [h1, h2]
        · simp [h1, h2, ih b]

open OctalCodeComparison in
theorem compare_of_valid (A B : List Nat) (hA : validOctalCode A = true)
    (hB : validOctalCode B = true) :
    ∃ r s, compareOctalCodes (some A) (some B) = some r
      ∧ compareOctalCodes (some B) (some A) = some s
      ∧ (r = EXACT_MATCH ↔ s = EXACT_MATCH) ∧ (r = LESS_THAN ↔ s = GREATER_THAN)
      ∧ (r = GREATER_THAN ↔ s = LESS_THAN) ∧ r ≠ ILLEGAL_CODE ∧ s ≠ ILLEGAL_CODE := by
  obtain ⟨a, ha0, ha, hanum, halen, _, _⟩ := valid_facts A hA
  obtain ⟨b, hb0, hb, hbnum, hblen, _, _⟩ := valid_facts B hB
  have hBa := bytesRequired_eq a (by omega)
  have hBb := bytesRequired_eq b (by omega)
  have hra : readByte A 0 = some a := by rw [readByte_of_lt A 0 (by omega), ha0]
  have hrb : readByte B 0 = some b := by rw [readByte_of_lt B 0 (by omega), hb0]
  have hm1 : memcmp A B (min (1 + (3 * a + 7) / 8) (1 + (3 * b + 7) / 8))
      = some (memcmpSign (A.take (min (1 + (3 * a + 7) / 8) (1 + (3 * b + 7) / 8)))
          (B.take (min (1 + (3 * a + 7) / 8) (1 + (3 * b + 7) / 8)))) := by
    unfold memcmp
    rw [if_pos]
    constructor <;> omega
  have hm2 : memcmp B A (min (1 + (3 * b + 7) / 8) (1 + (3 * a + 7) / 8))
      = some (- memcmpSign (A.take (min (1 + (3 * a + 7) / 8) (1 + (3 * b + 7) / 8)))
          (B.take (min (1 + (3 * a + 7) / 8) (1 + (3 * b + 7) / 8)))) := by
    unfold memcmp
    rw [if_pos (by constructor <;> omega), Nat.min_comm, memcmpSign_swap]
  simp only [compareOctalCodes, hra, hrb, Option.bind_eq_bind, Option.some_bind, hBa, hBb,
    hm1, hm2, hanum, hbnum]
  generalize memcmpSign (A.take (min (1 + (3 * a + 7) / 8) (1 + (3 * b + 7) / 8)))
    (B.take (min (1 + (3 * a + 7) / 8) (1 + (3 * b + 7) / 8))) = sgn
  rcases lt_trichotomy sgn 0 with hs | hs | hs
  · have h1 : ¬ (-sgn < 0) := by omega
    have h2 : -sgn > 0 := by omega
    simp [hs, h1, h2]
  · subst hs
    rcases lt_trichotomy a b with hab | hab | hab
    · have h1 : ¬ ((a : Int) = b) := by omega
      have h2 : (a : Int) < b := by omega
      have h3 : ¬ ((b : Int) = a) := by omega
      have h4 : ¬ ((b : Int) < a) := by omega
      simp [h1, h2, h3, h4]
    · subst hab
      simp
    · have h1 : ¬ ((a : Int) = b) := by omega
      have h2 : ¬ ((a : Int) < b) := by omega
      have h3 : ¬ ((b : Int) = a) := by omega
      have h4 : (b : Int) < a := by omega
      simp [h1, h2, h3, h4]
  · have h1 : ¬ (sgn < 0) := by omega
    have h2 : -sgn < 0 := by omega
    simp [hs, h1, h2]

end Compare

section Hex

theorem hexValue_hexDigit : ∀ n, n < 16 → hexValue (hexDigit n) = some n := by
  decide

theorem toUInt16_byteToHex (b : Nat) (hb : b < 256) : toUInt16 (byteToHex b) = some b := by
  have h1 := hexValue_hexDigit (b / 16) (by omega)
  have h2 := hexValue_hexDigit (b % 16) (by omega)
  simp only [byteToHex, toUInt16, h1, h2, Option.bind_eq_bind, Option.some_bind]
  congr 1
  omega

/-- The text of a byte string: two upper-case digits per byte. -/
theorem octalCodeToHexLoop_eq (c : List Nat) (rem : Nat) :
    ∀ i out, i + rem ≤ c.length →
      octalCodeToHexLoop c rem i out
        = some (out ++ (((c.drop i).take rem).map byteToHex).flatten) := by
  induction rem with
  | zero =>
    intro i out _
    simp [octalCodeToHexLoop]
  | succ r ih =>
    intro i out h
    have hi : i < c.length := by omega
    rw [octalCodeToHexLoop, readByte_of_lt c i hi]
    simp only [Option.bind_eq_bind, Option.some_bind]
    rw [ih (i + 1) _ (by omega)]
    have hd : c.drop i = c.getD i 0 :: c.drop (i + 1) := by
      rw [List.getD_eq_getElem c 0 hi]
      exact List.drop_eq_getElem_cons hi
    rw [hd, List.take_succ_cons, List.map_cons, List.flatten_cons, List.append_assoc]

theorem take_succ_set (buf : List Nat) :
    ∀ idx b, idx < buf.length → List.take (idx + 1) (buf.set idx b) = List.take idx buf ++ [b] := by
  induction buf with
  | nil =>
    intro idx b h
    simp at h
  | cons x buf ih =>
    intro idx b h
    cases idx with
    | zero => simp
    | succ j =>
      simp only [List.length_cons] at h
      simp [ih j b (by omega)]

theorem drop_succ_set (buf : List Nat) :
    ∀ idx k b, List.drop (idx + 1 + k) (buf.set idx b) = List.drop (idx + (k + 1)) buf := by
  induction buf with
  | nil =>
    intro idx k b
    simp
  | cons x buf ih =>
    intro idx k b
    cases idx with
    | zero =>
      simp only [List.set_cons_zero, Nat.zero_add]
      rw [Nat.add_comm 1 k, List.drop_succ_cons, List.drop_succ_cons]
    | succ j =>
      have e1 : j + 1 + 1 + k = (j + 1 + k) + 1 := by omega
      have e2 : j + 1 + (k + 1) = (j + (k + 1)) + 1 := by omega
      rw [List.set_cons_succ, e1, e2, List.drop_succ_cons, List.drop_succ_cons]
      exact ih j k b

theorem hexStringLoop_eq (bs : List Nat) :
    ∀ idx buf ok, (∀ b ∈ bs, b < 256) → idx + bs.length ≤ buf.length →
      hexStringLoop (bs.map byteToHex).flatten idx buf ok
        = some (ok || !bs.isEmpty, buf.take idx ++ bs ++ buf.drop (idx + bs.length)) := by
  induction bs with
  | nil =>
    intro idx buf ok _ _
    simp [hexStringLoop]
  | cons b bs ih =>
    intro idx buf ok hb hl
    have hb0 : b < 256 := hb b (List.mem_cons_self _ _)
    have hl1 : idx < buf.length := by
      simp only [List.length_cons] at hl
      omega
    have hstr : ((b :: bs).map byteToHex).flatten
        = hexDigit (b / 16) :: hexDigit (b % 16) :: (bs.map byteToHex).flatten := by
      simp [byteToHex]
    have hp := toUInt16_byteToHex b hb0
    simp only [byteToHex] at hp
    rw [hstr, hexStringLoop, hp]
    simp only [writeByte_of_lt buf idx b hl1, Option.bind_eq_bind, Option.some_bind,
      Nat.mod_eq_of_lt hb0]
    rw [ih (idx + 1) _ true (fun x hx => hb x (List.mem_cons_of_mem _ hx))
      (by simp only [List.length_set, List.length_cons] at hl ⊢; omega)]
    simp only [Bool.true_or, List.isEmpty_cons, Bool.not_false, Bool.or_true, List.length_cons,
      Option.some.injEq, Prod.mk.injEq, true_and]
    rw [take_succ_set buf idx b hl1, drop_succ_set buf idx bs.length b]
    simp

theorem hex_roundtrip (g : Nat → Nat) (c : List Nat) (hv : validOctalCode c = true) :
    ∃ s, octalCodeToHexString (some c) = some s
      ∧ hexStringToOctalCode g s
          = some (some (c.take (bytesRequiredForCodeLength (c.getD 0 0)))) := by
  obtain ⟨n, h0, hn, _, hlen, hb, _⟩ := valid_facts c hv
  have hB := bytesRequired_eq n (by omega)
  have hr : readByte c 0 = some n := by rw [readByte_of_lt c 0 (by omega), h0]
  refine ⟨([] : List Char) ++ (((c.drop 0).take (bytesRequiredForCodeLength n)).map
      byteToHex).flatten, ?_, ?_⟩
  · simp only [octalCodeToHexString, hr, Option.bind_eq_bind, Option.some_bind]
    rw [octalCodeToHexLoop_eq c _ 0 [] (by rw [hB]; omega)]
  · have hbs : ∀ b ∈ c.take (bytesRequiredForCodeLength n), b < 256 := by
      intro b hbm
      exact forall_lt_of_getD c hb b (List.mem_of_mem_take hbm)
    have hlenT : (c.take (bytesRequiredForCodeLength n)).length = bytesRequiredForCodeLength n := by
      rw [List.length_take, hB]
      omega
    have hslen : (([] : List Char) ++ (((c.drop 0).take (bytesRequiredForCodeLength n)).map
        byteToHex).flatten).length = 2 * bytesRequiredForCodeLength n := by
      simp only [List.nil_append, List.drop_zero]
      generalize c.take (bytesRequiredForCodeLength n) = l at hlenT
      rw [← hlenT]
      clear hlenT
      induction l with
      | nil => simp
      | cons x l ih =>
        simp only [List.map_cons, List.flatten_cons, List.length_append, ih, List.length_cons]
        simp [byteToHex]
        omega
    simp only [hexStringToOctalCode, hslen, h0]
    simp only [List.nil_append, List.drop_zero]
    rw [hexStringLoop_eq _ 0 _ false hbs
      (by rw [length_newBuffer, hlenT]; omega)]
    have hne : (c.take (bytesRequiredForCodeLength n)).isEmpty = false := by
      cases hc : c.take (bytesRequiredForCodeLength n) with
      | nil =>
        rw [hc] at hlenT
        simp at hlenT
        omega
      | cons x l => rfl
    have hdrop : List.drop (0 + (c.take (bytesRequiredForCodeLength n)).length)
        (newBuffer g (2 * bytesRequiredForCodeLength n / 2)) = [] := by
      apply List.drop_eq_nil_of_le
      rw [length_newBuffer, hlenT]
      omega
    simp only [hdrop, hne, Bool.not_false, Bool.or_true, List.take_zero, List.nil_append,
      List.append_nil, Bool.not_true, if_false, Bool.false_eq_true]
    rfl

end Hex

section Rebase

theorem getD_newBuffer_lt (g : Nat → Nat) (n m : Nat) : (newBuffer g n).getD m 0 < 256 := by
  apply getD_lt_of_forall
  intro b hb
  simp only [newBuffer, List.mem_map, List.mem_range] at hb
  obtain ⟨i, _, rfl⟩ := hb
  exact Nat.mod_lt _ (by norm_num)

/-- The copy loop: it succeeds inside the destination buffer, keeps its length and byte 0,
leaves every bit outside the written sections as it was, and makes the written sections
equal to the sections read. -/
theorem copySections_spec (src : List Nat) (count : Nat) :
    ∀ s d dst, (∀ j, j < count → ∃ v, getOctalCodeSectionValue src (s + j) = some v ∧ v < 8) →
      (∀ n, dst.getD n 0 < 256) → (0 < count → 1 + (3 * (d + count) + 7) / 8 ≤ dst.length) →
      ∃ dst1, copySections src count s d dst = some dst1 ∧ dst1.length = dst.length
        ∧ (∀ n, dst1.getD n 0 < 256) ∧ dst1.getD 0 0 = dst.getD 0 0
        ∧ (∀ k, ¬ (3 * d ≤ k ∧ k < 3 * (d + count)) → bitAt dst1 k = bitAt dst k)
        ∧ ∀ j, j < count →
            getOctalCodeSectionValue dst1 (d + j) = getOctalCodeSectionValue src (s + j) := by
  induction count with
  | zero =>
    intro s d dst _ hb _
    exact ⟨dst, rfl, rfl, hb, rfl, fun _ _ => rfl, fun j hj => absurd hj (Nat.not_lt_zero j)⟩
  | succ r ih =>
    intro s d dst hsrc hb hlen
    have hlen1 := hlen (Nat.succ_pos r)
    obtain ⟨v, hv, hv8⟩ := hsrc 0 (Nat.succ_pos r)
    rw [Nat.add_zero] at hv
    obtain ⟨c1, hset, hl1, hb1, h01, hbits1, hget1, _⟩ :=
      setSection_get dst d v hb (by omega) hv8
    obtain ⟨c2, hcopy, hl2, hb2, h02, hbits2, hget2⟩ := ih (s + 1) (d + 1) c1
      (fun j hj => by
        have := hsrc (j + 1) (by omega)
        rwa [show s + (j + 1) = s + 1 + j by omega] at this)
      hb1 (fun _ => by rw [hl1]; omega)
    refine ⟨c2, ?_, by rw [hl2, hl1], hb2, by rw [h02, h01], ?_, ?_⟩
    · simp only [copySections, hv, hset, Option.bind_eq_bind, Option.some_bind]
      exact hcopy
    · intro k hk
      rw [hbits2 k (by omega), hbits1 k, if_neg (by omega)]
    · intro j hj
      cases j with
      | zero =>
        rw [Nat.add_zero, Nat.add_zero, hv, ← hget1]
        rw [getSection_eq_bits c2 d hb2 (by rw [hl2, hl1]; omega),
          getSection_eq_bits c1 d hb1 (by rw [hl1]; omega)]
        rw [hbits2 (3 * d) (by omega), hbits2 (3 * d + 1) (by omega),
          hbits2 (3 * d + 2) (by omega)]
      | succ j =>
        have := hget2 j (by omega)
        rwa [show d + 1 + j = d + (j + 1) by omega, show s + 1 + j = s + (j + 1) by omega] at this

/-- The rebased code, whatever the total of the section counts: the length byte holds the
total modulo 256, and the sections are those of the parent followed by those of the
code. -/
theorem rebase_spec (g : Nat → Nat) (C P : List Nat) (incl : Bool)
    (hC : validOctalCode C = true) (hP : validOctalCode P = true)
    (hroom : incl = true ∨ 2 ≤ P.getD 0 0 + C.getD 0 0) :
    ∃ R, rebaseOctalCode g C P incl = some R ∧ 0 < R.length
      ∧ R.getD 0 0 = (P.getD 0 0 + C.getD 0 0) % 256
      ∧ (∀ i, i < P.getD 0 0 → ∃ v, getOctalCodeSectionValue P i = some v
            ∧ getOctalCodeSectionValue R i = some v)
      ∧ ∀ j, j < C.getD 0 0 → ∃ v, getOctalCodeSectionValue C j = some v
            ∧ getOctalCodeSectionValue R (P.getD 0 0 + j) = some v := by
  obtain ⟨c, hc0, _, hcnum, hclen, hcb, _⟩ := valid_facts C hC
  obtain ⟨p, hp0, _, hpnum, hplen, hpb, _⟩ := valid_facts P hP
  rw [hc0, hp0] at hroom ⊢
  clear hC hP hc0 hp0
  have hbuf : (((p : Int) + (c : Int)) + (if incl = true then (SIZE_OF_COLOR_DATA : Int) else 0)).toNat
      = p + c + (if incl = true then 3 else 0) := by
    cases incl
    · simp only [Bool.false_eq_true, if_false]
      omega
    · simp only [if_true, SIZE_OF_COLOR_DATA]
      omega
  have htn : ((p : Int) + (c : Int)).toNat = p + c := by omega
  have hroom2 : 1 + (3 * (p + c) + 7) / 8 ≤ p + c + (if incl = true then 3 else 0) := by
    cases incl
    · simp only [Bool.false_eq_true, if_false, false_or] at hroom ⊢
      omega
    · simp only [if_true]
      omega
  clear hroom
  simp only [rebaseOctalCode, hcnum, hpnum, Option.bind_eq_bind, Option.some_bind, hbuf, htn,
    Int.toNat_ofNat]
  generalize hN : p + c + (if incl = true then 3 else 0) = len at hroom2
  rw [writeByte_of_lt _ 0 _ (by rw [length_newBuffer]; omega)]
  simp only [Option.some_bind]
  have hb0 : ∀ n, ((newBuffer g len).set 0 ((p + c) % 256)).getD n 0 < 256 :=
    fun n => getD_set_lt _ _ n _ (Nat.mod_lt _ (by norm_num)) (getD_newBuffer_lt g len)
  have hl0 : ((newBuffer g len).set 0 ((p + c) % 256)).length = len := by
    rw [List.length_set, length_newBuffer]
  have h00 : ((newBuffer g len).set 0 ((p + c) % 256)).getD 0 0 = (p + c) % 256 :=
    getD_set_self _ _ _ (by rw [length_newBuffer]; omega)
  generalize (newBuffer g len).set 0 ((p + c) % 256) = B0 at hb0 hl0 h00 ⊢
  obtain ⟨B1, hcp1, hl1, hb1, h01, hbits1, hget1⟩ := copySections_spec P p 0 0 B0
    (fun j hj => by rw [Nat.zero_add]; exact valid_get P p j hpb hplen hj) hb0
    (fun _ => by rw [hl0]; omega)
  obtain ⟨B2, hcp2, hl2, hb2, h02, hbits2, hget2⟩ := copySections_spec C c 0 p B1
    (fun j hj => by rw [Nat.zero_add]; exact valid_get C c j hcb hclen hj) hb1
    (fun _ => by rw [hl1, hl0]; omega)
  refine ⟨B2, ?_, ?_, ?_, ?_, ?_⟩
  · rw [hcp1]
    simp only [Option.some_bind]
    exact hcp2
  · rw [hl2, hl1, hl0]
    omega
  · rw [h02, h01, h00]
  · intro i hi
    obtain ⟨v, hv, _⟩ := valid_get P p i hpb hplen hi
    refine ⟨v, hv, ?_⟩
    have h1 := hget1 i hi
    simp only [Nat.zero_add] at h1
    rw [hv] at h1
    rw [← h1, getSection_eq_bits B2 i hb2 (by rw [hl2, hl1, hl0]; omega),
      getSection_eq_bits B1 i hb1 (by rw [hl1, hl0]; omega)]
    rw [hbits2 (3 * i) (by omega), hbits2 (3 * i + 1) (by omega), hbits2 (3 * i + 2) (by omega)]
  · intro j hj
    obtain ⟨v, hv, _⟩ := valid_get C c j hcb hclen hj
    refine ⟨v, hv, ?_⟩
    have h2 := hget2 j hj
    simp only [Nat.zero_add] at h2
    rw [hv] at h2
    exact h2

theorem rebase_of_valid (g : Nat → Nat) (C P : List Nat) (incl : Bool)
    (hC : validOctalCode C = true) (hP : validOctalCode P = true)
    (htot : P.getD 0 0 + C.getD 0 0 ≤ 254)
    (hroom : incl = true ∨ 2 ≤ P.getD 0 0 + C.getD 0 0) :
    ∃ R, rebaseOctalCode g C P incl = some R
      ∧ numberOfThreeBitSectionsInCode R UNKNOWN_OCTCODE_LENGTH
          = some (((C.getD 0 0 + P.getD 0 0 : Nat)) : Int)
      ∧ (∀ i, i < P.getD 0 0 → ∃ v, getOctalCodeSectionValue P i = some v
            ∧ getOctalCodeSectionValue R i = some v)
      ∧ ∀ j, j < C.getD 0 0 → ∃ v, getOctalCodeSectionValue C j = some v
            ∧ getOctalCodeSectionValue R (P.getD 0 0 + j) = some v := by
  obtain ⟨R, hR, hlen, h0, hP1, hC1⟩ := rebase_spec g C P incl hC hP hroom
  refine ⟨R, hR, ?_, hP1, hC1⟩
  rw [Nat.mod_eq_of_lt (by omega)] at h0
  rw [numberOf_of_head R _ hlen h0 (by omega), Nat.add_comm]

end Rebase

/-! ## The sender: what each operation leaves alone -/

section Frame

theorem frame_refl (s : VoxelEditPacketSender) : Frame s s := by
  exact ⟨rfl, rfl, rfl, rfl, rfl, rfl⟩

theorem frame_trans {s s1 s2 : VoxelEditPacketSender} (h1 : Frame s s1) (h2 : Frame s1 s2) :
    Frame s s2 := by
  unfold Frame at h1 h2 ⊢
  refine ⟨?_, ?_, ?_, ?_, ?_, ?_⟩
  · rw [h2.1, h1.1]
  · rw [h2.2.1, h1.2.1]
  · rw [h2.2.2.1, h1.2.2.1]
  · rw [h2.2.2.2.1, h1.2.2.2.1]
  · rw [h2.2.2.2.2.1, h1.2.2.2.2.1]
  · rw [h2.2.2.2.2.2, h1.2.2.2.2.2]

theorem foldl_rel {α β : Type} (R : α → α → Prop) (hrefl : ∀ a, R a a)
    (htrans : ∀ a b c, R a b → R b c → R a c) (f : α → β → α) (hf : ∀ a b, R a (f a b)) :
    ∀ (l : List β) (a : α), R a (l.foldl f a) := by
  intro l
  induction l with
  | nil =>
    intro a
    exact hrefl a
  | cons x l ih =>
    intro a
    exact htrans _ _ _ (hf a x) (ih (f a x))

theorem foldlM_rel {α β : Type} (R : α → α → Prop) (hrefl : ∀ a, R a a)
    (htrans : ∀ a b c, R a b → R b c → R a c) (f : α → β → Option α)
    (hf : ∀ a b a1, f a b = some a1 → R a a1) :
    ∀ (l : List β) (a a1 : α), l.foldlM f a = some a1 → R a a1 := by
  intro l
  induction l with
  | nil =>
    intro a a1 h
    simp only [List.foldlM, pure, Option.some.injEq] at h
    subst h
    exact hrefl a
  | cons x l ih =>
    intro a a1 h
    simp only [List.foldlM, bind, Option.bind_eq_some] at h
    obtain ⟨a2, h2, h3⟩ := h
    exact htrans _ _ _ (hf a x a2 h2) (ih a2 a1 h3)

theorem frame_queuePacketToNodeStep (u : Nat) (buf : List Nat) (len : Nat)
    (s : VoxelEditPacketSender) (node : Node) : Frame s (queuePacketToNodeStep u buf len s node) := by
  unfold queuePacketToNodeStep
  split
  · split
    · exact ⟨rfl, rfl, rfl, rfl, rfl, rfl⟩
    · exact frame_refl s
  · exact frame_refl s

theorem frame_queuePacketToNode (env : Env) (s : VoxelEditPacketSender) (u : Nat)
    (buf : List Nat) (len : Nat) : Frame s (queuePacketToNode env s u buf len) := by
  exact foldl_rel Frame frame_refl (fun _ _ _ => frame_trans) _
    (frame_queuePacketToNodeStep u buf len) env.nodes s

theorem frame_releaseQueuedPacket (env : Env) (s : VoxelEditPacketSender) (pb : EditPacketBuffer) :
    Frame s (releaseQueuedPacket env s pb).1 := by
  unfold releaseQueuedPacket
  dsimp only
  split
  · exact frame_queuePacketToNode env s _ _ _
  · exact frame_refl s

theorem frame_initializePacket (env : Env) (s : VoxelEditPacketSender) (pb : EditPacketBuffer)
    (t : PACKET_TYPE) : Frame s (initializePacket env s pb t).1 := by
  exact ⟨rfl, rfl, rfl, rfl, rfl, rfl⟩

theorem frame_appendToPacketBuffer (env : Env) (s : VoxelEditPacketSender)
    (pb : EditPacketBuffer) (t : PACKET_TYPE) (code : List Nat) :
    Frame s (appendToPacketBuffer env s pb t code).1 := by
  unfold appendToPacketBuffer
  dsimp only
  split
  · split
    · exact frame_trans (frame_trans (frame_releaseQueuedPacket env s _)
        (frame_initializePacket env _ _ t)) (frame_initializePacket env _ _ t)
    · exact frame_trans (frame_releaseQueuedPacket env s _) (frame_initializePacket env _ _ t)
  · split
    · exact frame_initializePacket env _ _ t
    · exact frame_refl s

theorem frame_queueVoxelEditMessageStep (env : Env) (t : PACKET_TYPE) (code : List Nat)
    (s : VoxelEditPacketSender) (node : Node) :
    Frame s (queueVoxelEditMessageStep env t code s node) := by
  unfold queueVoxelEditMessageStep
  split
  · dsimp only
    split
    · exact frame_trans (frame_appendToPacketBuffer env s _ t code) ⟨rfl, rfl, rfl, rfl, rfl, rfl⟩
    · exact frame_refl s
  · exact frame_refl s

theorem frame_releaseQueuedMessagesLoop (env : Env) (l : List (Nat × EditPacketBuffer)) :
    ∀ s, Frame s (releaseQueuedMessagesLoop env l s) := by
  induction l with
  | nil =>
    intro s
    exact frame_refl s
  | cons x l ih =>
    intro s
    obtain ⟨uuid, b⟩ := x
    simp only [releaseQueuedMessagesLoop]
    exact frame_trans (frame_trans (frame_releaseQueuedPacket env s _)
      ⟨rfl, rfl, rfl, rfl, rfl, rfl⟩) (ih _)

end Frame

/-! ## The cap on the pre-server queues -/

section Cap

theorem run_invariant (P : VoxelEditPacketSender → Prop) (calls : List (Env × Call)) :
    ∀ s s1, (∀ ec ∈ calls, ∀ a a1, P a → step ec.1 a ec.2 = some a1 → P a1) → P s →
      run s calls = some s1 → P s1 := by
  induction calls with
  | nil =>
    intro s s1 _ h hs
    simp only [run, Option.some.injEq] at hs
    subst hs
    exact h
  | cons ec calls ih =>
    intro s s1 hstep h hs
    obtain ⟨env, call⟩ := ec
    simp only [run, bind, Option.bind_eq_some] at hs
    obtain ⟨s2, h2, h3⟩ := hs
    exact ih s2 s1 (fun ec hec => hstep ec (List.mem_cons_of_mem _ hec))
      (hstep (env, call) (List.mem_cons_self _ _) s s2 h h2) h3

end Cap

/-! ## Runs that return -/

section Returns

theorem foldlM_isSome {α β : Type} (f : α → β → Option α) (h : ∀ a b, ∃ a1, f a b = some a1) :
    ∀ (l : List β) (a : α), ∃ a1, l.foldlM f a = some a1 := by
  intro l
  induction l with
  | nil =>
    intro a
    exact ⟨a, rfl⟩
  | cons x l ih =>
    intro a
    obtain ⟨a2, h2⟩ := h a x
    obtain ⟨a3, h3⟩ := ih a2
    refine ⟨a3, ?_⟩
    simp only [List.foldlM, bind, Option.bind_eq_some]
    exact ⟨a2, h2, h3⟩

theorem queuePacketToNodes_returns (env : Env) (s : VoxelEditPacketSender) (buf : List Nat)
    (ht : env.jurisdictions.isSome = true) (he : voxelServersExist env = true) :
    ∃ s1, queuePacketToNodes env s buf = some s1 := by
  unfold queuePacketToNodes
  split
  · exact ⟨s, rfl⟩
  · simp only [he, Bool.not_true, Bool.false_eq_true, if_false]
    apply foldlM_isSome
    intro a node
    unfold queuePacketToNodesStep
    obtain ⟨table, htable⟩ := Option.isSome_iff_exists.1 ht
    rw [htable]
    dsimp only
    split
    · split
      · exact ⟨_, rfl⟩
      · exact ⟨_, rfl⟩
    · exact ⟨_, rfl⟩

theorem sendVoxelEditMessage_returns (env : Env) (s : VoxelEditPacketSender) (t : PACKET_TYPE)
    (encoded : Option (List Nat)) (ht : env.jurisdictions.isSome = true) :
    ∃ s1, sendVoxelEditMessage env s t encoded = some s1 := by
  unfold sendVoxelEditMessage
  split
  · exact ⟨s, rfl⟩
  · split
    · exact ⟨s, rfl⟩
    · split
      · split
        · dsimp only
          split
          · exact ⟨_, rfl⟩
          · exact ⟨_, rfl⟩
        · exact ⟨s, rfl⟩
      · rename_i he
        exact queuePacketToNodes_returns env s _ ht (by simpa using he)

theorem drainSingle_returns (env : Env) (ht : env.jurisdictions.isSome = true)
    (he : voxelServersExist env = true) (fuel : Nat) :
    ∀ s, ∃ s1, drainSingleMessagePackets env fuel s = some s1 := by
  induction fuel with
  | zero =>
    intro s
    exact ⟨s, rfl⟩
  | succ n ih =>
    intro s
    unfold drainSingleMessagePackets
    split
    · exact ⟨s, rfl⟩
    · rename_i packet rest hq
      obtain ⟨s2, h2⟩ := queuePacketToNodes_returns env s
        (packet._currentBuffer.take packet._currentSize) ht he
      obtain ⟨s3, h3⟩ := ih
        { s2 with _preServerSingleMessagePackets := s2._preServerSingleMessagePackets.tail }
      refine ⟨s3, ?_⟩
      simp only [bind, Option.bind_eq_some]
      exact ⟨s2, h2, h3⟩

theorem process_returns (env : Env) (s : VoxelEditPacketSender)
    (ht : env.jurisdictions.isSome = true) : ∃ s1, process env s = some s1 := by
  unfold process
  split
  · rename_i hc
    unfold processPreServerExistsPackets
    simp only [hc.1, Bool.not_true, Bool.false_eq_true, if_false]
    obtain ⟨s2, h2⟩ := drainSingle_returns env ht hc.1 s._preServerSingleMessagePackets.length s
    simp only [bind, Option.bind_eq_some]
    by_cases hp : (drainPackets env s2._preServerPackets.length s2)._releaseQueuedMessagesPending
        = true
    · exact ⟨_, s2, h2, by rw [if_pos hp]⟩
    · exact ⟨_, s2, h2, by rw [if_neg hp]⟩
  · exact ⟨s, rfl⟩

theorem step_returns (env : Env) (s : VoxelEditPacketSender) (call : Call)
    (ht : usesTable call = true → env.jurisdictions.isSome = true) :
    ∃ s1, step env s call = some s1 := by
  cases call with
  | sendVoxelEditMessage t e => exact sendVoxelEditMessage_returns env s t e (ht rfl)
  | queueVoxelEditMessage t c => exact ⟨_, rfl⟩
  | releaseQueuedMessages => exact ⟨_, rfl⟩
  | process => exact process_returns env s (ht rfl)

theorem run_returns (calls : List (Env × Call)) :
    ∀ s, (∀ ec ∈ calls, usesTable ec.2 = true → ec.1.jurisdictions.isSome = true) →
      ∃ s1, run s calls = some s1 := by
  induction calls with
  | nil =>
    intro s _
    exact ⟨s, rfl⟩
  | cons ec calls ih =>
    intro s h
    obtain ⟨env, call⟩ := ec
    obtain ⟨s2, h2⟩ := step_returns env s call (h (env, call) (List.mem_cons_self _ _))
    obtain ⟨s3, h3⟩ := ih s2 (fun ec hec => h ec (List.mem_cons_of_mem _ hec))
    refine ⟨s3, ?_⟩
    simp only [run, bind, Option.bind_eq_some]
    exact ⟨s2, h2, h3⟩

end Returns

section KeepsLemmas

theorem keeps_refl (s : VoxelEditPacketSender) : Keeps s s := by
  exact ⟨frame_refl s, rfl⟩

theorem keeps_trans {s s1 s2 : VoxelEditPacketSender} (h1 : Keeps s s1) (h2 : Keeps s1 s2) :
    Keeps s s2 := by
  exact ⟨frame_trans h1.1 h2.1, h2.2.trans h1.2⟩

theorem keeps_queuePacketToNodeStep (u : Nat) (buf : List Nat) (len : Nat)
    (s : VoxelEditPacketSender) (node : Node) : Keeps s (queuePacketToNodeStep u buf len s node) := by
  refine ⟨frame_queuePacketToNodeStep u buf len s node, ?_⟩
  unfold queuePacketToNodeStep
  split
  · split
    · rfl
    · rfl
  · rfl

theorem keeps_queuePacketToNode (env : Env) (s : VoxelEditPacketSender) (u : Nat)
    (buf : List Nat) (len : Nat) : Keeps s (queuePacketToNode env s u buf len) := by
  exact foldl_rel Keeps keeps_refl (fun _ _ _ => keeps_trans) _
    (keeps_queuePacketToNodeStep u buf len) env.nodes s

theorem keeps_releaseQueuedPacket (env : Env) (s : VoxelEditPacketSender) (pb : EditPacketBuffer) :
    Keeps s (releaseQueuedPacket env s pb).1 := by
  unfold releaseQueuedPacket
  dsimp only
  split
  · exact keeps_queuePacketToNode env s _ _ _
  · exact keeps_refl s

theorem keeps_initializePacket (env : Env) (s : VoxelEditPacketSender) (pb : EditPacketBuffer)
    (t : PACKET_TYPE) : Keeps s (initializePacket env s pb t).1 := by
  exact ⟨frame_initializePacket env s pb t, rfl⟩

theorem keeps_appendToPacketBuffer (env : Env) (s : VoxelEditPacketSender)
    (pb : EditPacketBuffer) (t : PACKET_TYPE) (code : List Nat) :
    Keeps s (appendToPacketBuffer env s pb t code).1 := by
  unfold appendToPacketBuffer
  dsimp only
  split
  · split
    · exact keeps_trans (keeps_trans (keeps_releaseQueuedPacket env s _)
        (keeps_initializePacket env _ _ t)) (keeps_initializePacket env _ _ t)
    · exact keeps_trans (keeps_releaseQueuedPacket env s _) (keeps_initializePacket env _ _ t)
  · split
    · exact keeps_initializePacket env _ _ t
    · exact keeps_refl s

theorem keeps_queuePacketToNodes (env : Env) (s s1 : VoxelEditPacketSender) (buf : List Nat)
    (h : queuePacketToNodes env s buf = some s1) : Keeps s s1 := by
  unfold queuePacketToNodes at h
  split at h
  · cases h
    exact keeps_refl s
  · split at h
    · cases h
    · refine foldlM_rel Keeps keeps_refl (fun _ _ _ => keeps_trans) _ ?_ env.nodes s s1 h
      intro a node a1 ha
      unfold queuePacketToNodesStep at ha
      split at ha
      · dsimp only at ha
        split at ha
        · cases ha
        · split at ha
          · cases ha
            exact keeps_queuePacketToNode env a _ _ _
          · cases ha
            exact keeps_refl a
      · cases ha
        exact keeps_refl a

theorem mem_mapSet (m : List (Nat × EditPacketBuffer)) (u : Nat) (b : EditPacketBuffer) :
    ∀ p, p ∈ mapSet m u b → p ∈ m ∨ p = (u, b) := by
  induction m with
  | nil =>
    intro p hp
    simp only [mapSet, List.mem_singleton] at hp
    exact Or.inr hp
  | cons x m ih =>
    intro p hp
    obtain ⟨k, v⟩ := x
    unfold mapSet at hp
    split at hp
    · rcases List.mem_cons.1 hp with h | h
      · exact Or.inr h
      · exact Or.inl h
    · split at hp
      · rcases List.mem_cons.1 hp with h | h
        · exact Or.inr h
        · exact Or.inl (List.mem_cons_of_mem _ h)
      · rcases List.mem_cons.1 hp with h | h
        · exact Or.inl (h ▸ List.mem_cons_self _ _)
        · rcases ih p h with h1 | h1
          · exact Or.inl (List.mem_cons_of_mem _ h1)
          · exact Or.inr h1

theorem mapGet_cases (m : List (Nat × EditPacketBuffer)) (u : Nat) :
    mapGet m u = EditPacketBuffer.empty ∨ (u, mapGet m u) ∈ m := by
  induction m with
  | nil => exact Or.inl rfl
  | cons x m ih =>
    obtain ⟨k, v⟩ := x
    unfold mapGet
    split
    · rename_i hk
      subst hk
      exact Or.inr (List.mem_cons_self _ _)
    · rcases ih with h | h
      · exact Or.inl h
      · exact Or.inr (List.mem_cons_of_mem _ h)

end KeepsLemmas

/-! ## Invariants of the per-server buffers -/

section BufferInvariant

theorem binv_of_keeps {MAX : Int} {Q : EditPacketBuffer → Prop}
    {R : PACKET_TYPE → List Nat → Prop} {s s1 : VoxelEditPacketSender} (hk : Keeps s s1)
    (h : BufferInv MAX Q R s) : BufferInv MAX Q R s1 := by
  obtain ⟨⟨_, _, a3, _, _, a6⟩, a7⟩ := hk
  unfold BufferInv at *
  rw [a3, a6, a7]
  exact h

theorem binv_queueStep (env : Env) (MAX : Int) (Q : EditPacketBuffer → Prop)
    (R : PACKET_TYPE → List Nat → Prop)
    (hcongr : ∀ b b1 : EditPacketBuffer, b1._currentSize = b._currentSize →
      b1._currentType = b._currentType → Q b → Q b1)
    (hempty : Q EditPacketBuffer.empty)
    (happend : ∀ (s : VoxelEditPacketSender) (pb : EditPacketBuffer) (t : PACKET_TYPE)
      (code : List Nat), s._maxPacketSize = MAX → R t code → Q pb →
        Q (appendToPacketBuffer env s pb t code).2)
    (t : PACKET_TYPE) (code : List Nat) (hR : R t code) (s : VoxelEditPacketSender)
    (node : Node) (h : BufferInv MAX Q R s) :
    BufferInv MAX Q R (queueVoxelEditMessageStep env t code s node) := by
  unfold queueVoxelEditMessageStep
  split
  · dsimp only
    split
    · obtain ⟨h1, h2, h3⟩ := h
      have hQ0 : Q (mapGet s._pendingEditPackets node.uuid) := by
        rcases mapGet_cases s._pendingEditPackets node.uuid with he | hm
        · rw [he]
          exact hempty
        · exact h2 _ hm
      have hQ1 : Q { mapGet s._pendingEditPackets node.uuid with _nodeUUID := node.uuid } :=
        hcongr (mapGet s._pendingEditPackets node.uuid) _ rfl rfl hQ0
      have hQ2 := happend s _ t code h1 hR hQ1
      obtain ⟨⟨_, _, a3, _, _, a6⟩, a7⟩ := keeps_appendToPacketBuffer env s
        { mapGet s._pendingEditPackets node.uuid with _nodeUUID := node.uuid } t code
      refine ⟨a3.trans h1, ?_, ?_⟩
      · intro p hp
        rcases mem_mapSet _ _ _ p hp with hm | he
        · rw [a7] at hm
          exact h2 p hm
        · rw [he]
          exact hQ2
      · intro p hp
        exact h3 p (a6 ▸ hp)
    · exact h
  · exact h

theorem binv_queueFold (env : Env) (MAX : Int) (Q : EditPacketBuffer → Prop)
    (R : PACKET_TYPE → List Nat → Prop)
    (hcongr : ∀ b b1 : EditPacketBuffer, b1._currentSize = b._currentSize →
      b1._currentType = b._currentType → Q b → Q b1)
    (hempty : Q EditPacketBuffer.empty)
    (happend : ∀ (s : VoxelEditPacketSender) (pb : EditPacketBuffer) (t : PACKET_TYPE)
      (code : List Nat), s._maxPacketSize = MAX → R t code → Q pb →
        Q (appendToPacketBuffer env s pb t code).2)
    (t : PACKET_TYPE) (code : List Nat) (hR : R t code) (l : List Node) :
    ∀ s, BufferInv MAX Q R s →
      BufferInv MAX Q R (l.foldl (queueVoxelEditMessageStep env t code) s) := by
  induction l with
  | nil =>
    intro s h
    exact h
  | cons node l ih =>
    intro s h
    exact ih _ (binv_queueStep env MAX Q R hcongr hempty happend t code hR s node h)

theorem binv_queueVoxelEditMessage (env : Env) (MAX : Int) (Q : EditPacketBuffer → Prop)
    (R : PACKET_TYPE → List Nat → Prop)
    (hcongr : ∀ b b1 : EditPacketBuffer, b1._currentSize = b._currentSize →
      b1._currentType = b._currentType → Q b → Q b1)
    (hempty : Q EditPacketBuffer.empty)
    (happend : ∀ (s : VoxelEditPacketSender) (pb : EditPacketBuffer) (t : PACKET_TYPE)
      (code : List Nat), s._maxPacketSize = MAX → R t code → Q pb →
        Q (appendToPacketBuffer env s pb t code).2)
    (t : PACKET_TYPE) (code : List Nat) (hR : R t code) (s : VoxelEditPacketSender)
    (h : BufferInv MAX Q R s) : BufferInv MAX Q R (queueVoxelEditMessage env s t code) := by
  unfold queueVoxelEditMessage
  split
  · exact h
  · split
    · split
      · obtain ⟨h1, h2, h3⟩ := h
        have hnew : ∀ p ∈ s._preServerPackets ++ [EditPacketBuffer.make t code nullUUID],
            R p._currentType (p._currentBuffer.take p._currentSize) := by
          intro p hp
          rcases List.mem_append.1 hp with hm | hm
          · exact h3 p hm
          · rw [List.mem_singleton.1 hm]
            simpa [EditPacketBuffer.make] using hR
        dsimp only
        split
        · exact ⟨h1, h2, fun p hp => hnew p (List.mem_of_mem_tail hp)⟩
        · exact ⟨h1, h2, hnew⟩
      · exact h
    · exact binv_queueFold env MAX Q R hcongr hempty happend t code hR env.nodes s h

theorem binv_releaseLoop (env : Env) (MAX : Int) (Q : EditPacketBuffer → Prop)
    (R : PACKET_TYPE → List Nat → Prop)
    (hcongr : ∀ b b1 : EditPacketBuffer, b1._currentSize = b._currentSize →
      b1._currentType = b._currentType → Q b → Q b1)
    (hempty : Q EditPacketBuffer.empty) (l : List (Nat × EditPacketBuffer)) :
    ∀ s, BufferInv MAX Q R s → BufferInv MAX Q R (releaseQueuedMessagesLoop env l s) := by
  induction l with
  | nil =>
    intro s h
    exact h
  | cons x l ih =>
    intro s h
    obtain ⟨uuid, b⟩ := x
    simp only [releaseQueuedMessagesLoop]
    apply ih
    have hk := keeps_releaseQueuedPacket env s (mapGet s._pendingEditPackets uuid)
    obtain ⟨h1, h2, h3⟩ := binv_of_keeps hk h
    refine ⟨h1, ?_, h3⟩
    intro p hp
    rcases mem_mapSet _ _ _ p hp with hm | he
    · exact h2 p hm
    · rw [he]
      exact hcongr EditPacketBuffer.empty _ rfl rfl hempty

theorem binv_releaseQueuedMessages (env : Env) (MAX : Int) (Q : EditPacketBuffer → Prop)
    (R : PACKET_TYPE → List Nat → Prop)
    (hcongr : ∀ b b1 : EditPacketBuffer, b1._currentSize = b._currentSize →
      b1._currentType = b._currentType → Q b → Q b1)
    (hempty : Q EditPacketBuffer.empty) (s : VoxelEditPacketSender)
    (h : BufferInv MAX Q R s) : BufferInv MAX Q R (releaseQueuedMessages env s) := by
  unfold releaseQueuedMessages
  split
  · exact h
  · exact binv_releaseLoop env MAX Q R hcongr hempty _ s h

theorem binv_sendVoxelEditMessage (env : Env) (MAX : Int) (Q : EditPacketBuffer → Prop)
    (R : PACKET_TYPE → List Nat → Prop) (s s1 : VoxelEditPacketSender) (t : PACKET_TYPE)
    (encoded : Option (List Nat)) (h : BufferInv MAX Q R s)
    (hs : sendVoxelEditMessage env s t encoded = some s1) : BufferInv MAX Q R s1 := by
  unfold sendVoxelEditMessage at hs
  split at hs
  · cases hs
    exact h
  · split at hs
    · cases hs
      exact h
    · split at hs
      · split at hs
        · dsimp only at hs
          split at hs
          · cases hs
            exact h
          · cases hs
            exact h
        · cases hs
          exact h
      · exact binv_of_keeps (keeps_queuePacketToNodes env s s1 _ hs) h

theorem binv_drainSingle (env : Env) (MAX : Int) (Q : EditPacketBuffer → Prop)
    (R : PACKET_TYPE → List Nat → Prop) (fuel : Nat) :
    ∀ s s1, BufferInv MAX Q R s → drainSingleMessagePackets env fuel s = some s1 →
      BufferInv MAX Q R s1 := by
  induction fuel with
  | zero =>
    intro s s1 h hs
    simp only [drainSingleMessagePackets, Option.some.injEq] at hs
    subst hs
    exact h
  | succ n ih =>
    intro s s1 h hs
    unfold drainSingleMessagePackets at hs
    split at hs
    · cases hs
      exact h
    · simp only [bind, Option.bind_eq_some] at hs
      obtain ⟨s2, h2, h3⟩ := hs
      have h4 : BufferInv MAX Q R s2 := binv_of_keeps (keeps_queuePacketToNodes env s s2 _ h2) h
      refine ih _ s1 ?_ h3
      exact ⟨h4.1, h4.2.1, h4.2.2⟩

theorem binv_drainPackets (env : Env) (MAX : Int) (Q : EditPacketBuffer → Prop)
    (R : PACKET_TYPE → List Nat → Prop)
    (hcongr : ∀ b b1 : EditPacketBuffer, b1._currentSize = b._currentSize →
      b1._currentType = b._currentType → Q b → Q b1)
    (hempty : Q EditPacketBuffer.empty)
    (happend : ∀ (s : VoxelEditPacketSender) (pb : EditPacketBuffer) (t : PACKET_TYPE)
      (code : List Nat), s._maxPacketSize = MAX → R t code → Q pb →
        Q (appendToPacketBuffer env s pb t code).2) (fuel : Nat) :
    ∀ s, BufferInv MAX Q R s → BufferInv MAX Q R (drainPackets env fuel s) := by
  induction fuel with
  | zero =>
    intro s h
    exact h
  | succ n ih =>
    intro s h
    unfold drainPackets
    split
    · exact h
    · rename_i packet rest hq
      have hR : R packet._currentType (packet._currentBuffer.take packet._currentSize) :=
        h.2.2 packet (hq ▸ List.mem_cons_self _ _)
      obtain ⟨h1, h2, h3⟩ := binv_queueVoxelEditMessage env MAX Q R hcongr hempty happend _ _ hR s h
      exact ih _ ⟨h1, h2, fun p hp => h3 p (List.mem_of_mem_tail hp)⟩

theorem binv_step (env : Env) (MAX : Int) (Q : EditPacketBuffer → Prop)
    (R : PACKET_TYPE → List Nat → Prop)
    (hcongr : ∀ b b1 : EditPacketBuffer, b1._currentSize = b._currentSize →
      b1._currentType = b._currentType → Q b → Q b1)
    (hempty : Q EditPacketBuffer.empty)
    (happend : ∀ (s : VoxelEditPacketSender) (pb : EditPacketBuffer) (t : PACKET_TYPE)
      (code : List Nat), s._maxPacketSize = MAX → R t code → Q pb →
        Q (appendToPacketBuffer env s pb t code).2)
    (call : Call) (hadm : Admissible R call) (s s1 : VoxelEditPacketSender)
    (h : BufferInv MAX Q R s) (hs : step env s call = some s1) : BufferInv MAX Q R s1 := by
  cases call with
  | sendVoxelEditMessage t e => exact binv_sendVoxelEditMessage env MAX Q R s s1 t e h hs
  | queueVoxelEditMessage t c =>
    simp only [step, Option.some.injEq] at hs
    subst hs
    exact binv_queueVoxelEditMessage env MAX Q R hcongr hempty happend t c hadm s h
  | releaseQueuedMessages =>
    simp only [step, Option.some.injEq] at hs
    subst hs
    exact binv_releaseQueuedMessages env MAX Q R hcongr hempty s h
  | process =>
    simp only [step] at hs
    unfold process at hs
    split at hs
    · unfold processPreServerExistsPackets at hs
      split at hs
      · cases hs
      · simp only [bind, Option.bind_eq_some] at hs
        obtain ⟨s2, h2, h3⟩ := hs
        have c2 := binv_drainSingle env MAX Q R _ s s2 h h2
        have c3 := binv_drainPackets env MAX Q R hcongr hempty happend
          s2._preServerPackets.length s2 c2
        split at h3
        · cases h3
          exact binv_releaseQueuedMessages env MAX Q R hcongr hempty _ c3
        · cases h3
          exact c3
    · cases hs
      exact h

end BufferInvariant

section Append

/-- The size and the type of a buffer after the flush, initialise and append steps of
`queueVoxelEditMessage`. -/
theorem append_size_type (env : Env) (s : VoxelEditPacketSender) (pb : EditPacketBuffer)
    (t : PACKET_TYPE) (code : List Nat) :
    ((t ≠ pb._currentType ∧ pb._currentSize > 0)
        ∨ ((pb._currentSize : Int) + (code.length : Int) ≥ s._maxPacketSize)
        ∨ (t ≠ pb._currentType ∧ pb._currentSize = 0) →
      (appendToPacketBuffer env s pb t code).2._currentSize = headerSize env t + code.length
        ∧ (appendToPacketBuffer env s pb t code).2._currentType = t)
    ∧ (¬ ((t ≠ pb._currentType ∧ pb._currentSize > 0)
        ∨ ((pb._currentSize : Int) + (code.length : Int) ≥ s._maxPacketSize)
        ∨ (t ≠ pb._currentType ∧ pb._currentSize = 0)) →
      (appendToPacketBuffer env s pb t code).2._currentSize = pb._currentSize + code.length
        ∧ (appendToPacketBuffer env s pb t code).2._currentType = pb._currentType) := by
  by_cases c1 : (t ≠ pb._currentType ∧ pb._currentSize > 0)
      ∨ ((pb._currentSize : Int) + (code.length : Int) ≥ s._maxPacketSize)
  · have hc : (t ≠ pb._currentType ∧ pb._currentSize > 0)
        ∨ ((pb._currentSize : Int) + (code.length : Int) ≥ s._maxPacketSize)
        ∨ (t ≠ pb._currentType ∧ pb._currentSize = 0) := by
      rcases c1 with h | h
      · exact Or.inl h
      · exact Or.inr (Or.inl h)
    refine ⟨fun _ => ?_, fun h => absurd hc h⟩
    unfold appendToPacketBuffer
    dsimp only
    rw [if_pos c1]
    have hn : ¬ (t ≠ (initializePacket env (releaseQueuedPacket env s pb).1
        (releaseQueuedPacket env s pb).2 t).2._currentType
          ∧ (initializePacket env (releaseQueuedPacket env s pb).1
            (releaseQueuedPacket env s pb).2 t).2._currentSize = 0) := by
      intro h
      exact h.1 rfl
    rw [if_neg hn]
    exact ⟨rfl, rfl⟩
  · by_cases c2 : t ≠ pb._currentType ∧ pb._currentSize = 0
    · refine ⟨fun _ => ?_, fun h => absurd (Or.inr (Or.inr c2)) h⟩
      unfold appendToPacketBuffer
      dsimp only
      rw [if_neg c1]
      dsimp only
      rw [if_pos c2]
      exact ⟨rfl, rfl⟩
    · have hc : ¬ ((t ≠ pb._currentType ∧ pb._currentSize > 0)
          ∨ ((pb._currentSize : Int) + (code.length : Int) ≥ s._maxPacketSize)
          ∨ (t ≠ pb._currentType ∧ pb._currentSize = 0)) := by
        intro h
        rcases h with h | h | h
        · exact c1 (Or.inl h)
        · exact c1 (Or.inr h)
        · exact c2 h
      refine ⟨fun h => absurd h hc, fun _ => ?_⟩
      unfold appendToPacketBuffer
      dsimp only
      rw [if_neg c1]
      dsimp only
      rw [if_neg c2]
      exact ⟨rfl, rfl⟩

end Append

/-! ## Sequence numbers with one server -/

section SequenceBytes

theorem writeAt_take (a bytes : List Nat) (pos : Nat) (h : pos ≤ a.length) :
    (writeAt a pos bytes).take (pos + bytes.length) = a.take pos ++ bytes := by
  unfold writeAt
  have hl : (a.take pos ++ bytes).length = pos + bytes.length := by
    simp only [List.length_append, List.length_take]
    omega
  rw [← hl]
  exact List.take_left' rfl

theorem writeAt_length (a bytes : List Nat) (pos : Nat) (h : pos ≤ a.length) :
    pos + bytes.length ≤ (writeAt a pos bytes).length := by
  unfold writeAt
  simp only [List.length_append, List.length_take, List.length_drop]
  omega

theorem littleEndian_length (n v : Nat) : (littleEndian n v).length = n := by
  induction n generalizing v with
  | zero => rfl
  | succ n ih => simp [littleEndian, ih]

/-- The packet that `initializePacket` builds: header, sequence number, timestamp. -/
theorem initializePacket_bytes (env : Env) (s : VoxelEditPacketSender) (pb : EditPacketBuffer)
    (t : PACKET_TYPE) :
    (initializePacket env s pb t).2._currentBuffer.take (initializePacket env s pb t).2._currentSize
        = env.populateTypeAndVersion t ++ littleEndian 2 s._sequenceNumber
            ++ littleEndian 8 env.usecTimestampNow
      ∧ (initializePacket env s pb t).2._currentSize
          ≤ (initializePacket env s pb t).2._currentBuffer.length := by
  simp only [initializePacket]
  have h1 := writeAt_take pb._currentBuffer (env.populateTypeAndVersion t) 0 (Nat.zero_le _)
  have l1 := writeAt_length pb._currentBuffer (env.populateTypeAndVersion t) 0 (Nat.zero_le _)
  rw [Nat.zero_add] at h1 l1
  rw [List.take_zero, List.nil_append] at h1
  have h2 := writeAt_take _ (littleEndian 2 s._sequenceNumber) _ l1
  have l2 := writeAt_length _ (littleEndian 2 s._sequenceNumber) _ l1
  rw [littleEndian_length] at h2 l2
  rw [h1] at h2
  have h3 := writeAt_take _ (littleEndian 8 env.usecTimestampNow) _ l2
  have l3 := writeAt_length _ (littleEndian 8 env.usecTimestampNow) _ l2
  rw [littleEndian_length] at h3 l3
  rw [h2] at h3
  exact ⟨h3, l3⟩

end SequenceBytes

section SequenceOneServer

theorem append_eval_init (env : Env) (s : VoxelEditPacketSender) (pb : EditPacketBuffer)
    (t : PACKET_TYPE) (code : List Nat)
    (c1 : ¬ ((t ≠ pb._currentType ∧ pb._currentSize > 0)
      ∨ ((pb._currentSize : Int) + (code.length : Int) ≥ s._maxPacketSize)))
    (c2 : t ≠ pb._currentType ∧ pb._currentSize = 0) :
    appendToPacketBuffer env s pb t code
      = ((initializePacket env s pb t).1,
          { (initializePacket env s pb t).2 with
            _currentBuffer := writeAt (initializePacket env s pb t).2._currentBuffer
              (initializePacket env s pb t).2._currentSize code
            _currentSize := (initializePacket env s pb t).2._currentSize + code.length }) := by
  unfold appendToPacketBuffer
  dsimp only
  rw [if_neg c1]
  dsimp only
  rw [if_pos c2]

theorem append_eval_plain (env : Env) (s : VoxelEditPacketSender) (pb : EditPacketBuffer)
    (t : PACKET_TYPE) (code : List Nat)
    (c1 : ¬ ((t ≠ pb._currentType ∧ pb._currentSize > 0)
      ∨ ((pb._currentSize : Int) + (code.length : Int) ≥ s._maxPacketSize)))
    (c2 : ¬ (t ≠ pb._currentType ∧ pb._currentSize = 0)) :
    appendToPacketBuffer env s pb t code
      = (s, { pb with
            _currentBuffer := writeAt pb._currentBuffer pb._currentSize code
            _currentSize := pb._currentSize + code.length }) := by
  unfold appendToPacketBuffer
  dsimp only
  rw [if_neg c1]
  dsimp only
  rw [if_neg c2]

theorem queuePacketToNode_single (env : Env) (U A : Nat) (s : VoxelEditPacketSender)
    (buf : List Nat) (len : Nat)
    (hnodes : env.nodes = [{ type := NODE_TYPE_VOXEL_SERVER, uuid := U, activeSocket := some A }]) :
    queuePacketToNode env s U buf len = { s with outbound := s.outbound ++ [(A, buf.take len)] } := by
  simp [queuePacketToNode, hnodes, queuePacketToNodeStep]

end SequenceOneServer

section SequenceRun

theorem mapGet_single (U : Nat) (b : EditPacketBuffer) : mapGet [(U, b)] U = b := by
  simp [mapGet]

end SequenceRun

/-! ## The length decoder -/

section LengthDecoder

theorem numberOf_extension (k : Nat) :
    ∀ (b : Nat) (rest : List Nat), b ≠ 255 →
      numberOfThreeBitSectionsInCode (List.replicate k 255 ++ b :: rest) UNKNOWN_OCTCODE_LENGTH
        = some (((255 * k + b : Nat)) : Int) := by
  induction k with
  | zero =>
    intro b rest hb
    simpa using numberOf_cons b rest hb
  | succ k ih =>
    intro b rest hb
    rw [List.replicate_succ, List.cons_append]
    unfold numberOfThreeBitSectionsInCode
    rw [if_neg (by decide), if_pos rfl]
    simp only [if_true, ih b rest hb, Option.map_eq_map, Option.map_some']
    congr 1
    push_cast
    ring

/-- What the length decoder can return: at least the sentinel -1, and never the sentinel
when the budget it is called with is not the sentinel itself. -/
theorem numberOf_ge (code : List Nat) :
    ∀ (maxBytes r : Int), numberOfThreeBitSectionsInCode code maxBytes = some r →
      -1 ≤ r ∧ (maxBytes ≠ OVERFLOWED_OCTCODE_BUFFER → 0 ≤ r) := by
  induction code with
  | nil =>
    intro maxBytes r h
    unfold numberOfThreeBitSectionsInCode at h
    by_cases hm : maxBytes = OVERFLOWED_OCTCODE_BUFFER
    · rw [if_pos hm] at h
      have e := Option.some.inj h
      rw [← e]
      exact ⟨by decide, fun hn => absurd hm hn⟩
    · rw [if_neg hm] at h
      exact Option.noConfusion h
  | cons b rest ih =>
    intro maxBytes r h
    unfold numberOfThreeBitSectionsInCode at h
    by_cases hm : maxBytes = OVERFLOWED_OCTCODE_BUFFER
    · rw [if_pos hm] at h
      have e := Option.some.inj h
      rw [← e]
      exact ⟨by decide, fun hn => absurd hm hn⟩
    · rw [if_neg hm] at h
      by_cases hb : b = 255
      · simp only [hb, if_true, Option.map_eq_map, Option.map_eq_some'] at h
        obtain ⟨r1, hr1, e⟩ := h
        have h1 := (ih _ r1 hr1).1
        have e2 : r = 255 + r1 := by
          rw [← e]
          norm_num
        exact ⟨by omega, fun _ => by omega⟩
      · simp only [hb, if_false] at h
        have e := Option.some.inj h
        exact ⟨by omega, fun _ => by omega⟩

end LengthDecoder

/-! ## Ancestry as a relation -/

section AncestryRelation

/-- When the ancestor is not longer than the effective descendant, the loop never looks at
the trailing child. -/
theorem isAncestorOfLoop_child (A D : List Nat) (la ld : Int) (hle : la ≤ ld) (c1 c2 : Int)
    (rem : Nat) :
    ∀ sec, isAncestorOfLoop A D la ld c1 rem sec = isAncestorOfLoop A D la ld c2 rem sec := by
  induction rem with
  | zero =>
    intro sec
    rfl
  | succ r ih =>
    intro sec
    simp only [isAncestorOfLoop, hle, if_true, ih (sec + 1)]

/-- The answer of `isAncestorOf` is the same for every trailing child: the branch that
would compare a section with `descendentsChild` is never taken. -/
theorem isAncestorOf_child (A D : Option (List Nat)) (c1 c2 : Int)
    (h1 : c1 ≠ CHECK_NODE_ONLY) (h2 : c2 ≠ CHECK_NODE_ONLY) :
    isAncestorOf A D c1 = isAncestorOf A D c2 := by
  cases A with
  | none => rfl
  | some a =>
    cases D with
    | none => rfl
    | some d =>
      simp only [isAncestorOf, h1, h2, ne_eq, not_false_eq_true, if_true]
      cases hla : numberOfThreeBitSectionsInCode a UNKNOWN_OCTCODE_LENGTH with
      | none => rfl
      | some la =>
        simp only [Option.bind_eq_bind, Option.some_bind]
        by_cases hz : la = 0
        · simp only [hz, if_true]
        · simp only [hz, if_false]
          cases hld : numberOfThreeBitSectionsInCode d UNKNOWN_OCTCODE_LENGTH with
          | none => rfl
          | some ld =>
            simp only [Option.some_bind]
            by_cases hgt : la > ld + 1
            · simp only [hgt, if_true]
            · simp only [hgt, if_false]
              exact isAncestorOfLoop_child a d la (ld + 1) (by omega) c1 c2 _ 0

end AncestryRelation

/-! ## Chopping the leading sections -/

section Chop

/-- Chopping fewer levels than the code has sections: the result holds the remaining
sections, under their count. -/
theorem chop_spec (g : Nat → Nat) (C : List Nat) (hC : validOctalCode C = true) (levels : Nat)
    (hlv : levels < C.getD 0 0) :
    ∃ R, chopOctalCode g C levels = some (some R)
      ∧ numberOfThreeBitSectionsInCode R UNKNOWN_OCTCODE_LENGTH
          = some (((C.getD 0 0 - levels : Nat)) : Int)
      ∧ ∀ j, j < C.getD 0 0 - levels → ∃ v, getOctalCodeSectionValue C (levels + j) = some v
            ∧ getOctalCodeSectionValue R j = some v := by
  obtain ⟨n, hn0, hn, hnum, hlen, hb, _⟩ := valid_facts C hC
  rw [hn0] at hlv ⊢
  obtain ⟨m, hm⟩ : ∃ m, n = levels + (m + 1) := ⟨n - levels - 1, by omega⟩
  subst hm
  have e1 : ((((levels + (m + 1) : Nat)) : Int) - (levels : Int) + 1).toNat = m + 2 := by omega
  have e2 : ((((levels + (m + 1) : Nat)) : Int) - (levels : Int)).toNat = m + 1 := by omega
  have e3 : levels + (m + 1) - levels = m + 1 := by omega
  have hgt : (((levels + (m + 1) : Nat)) : Int) > (levels : Int) := by omega
  simp only [chopOctalCode, hnum, Option.bind_eq_bind, Option.some_bind, hgt, if_true, e1, e2, e3]
  rw [writeByte_of_lt _ 0 _ (by rw [length_newBuffer]; omega)]
  simp only [Option.some_bind]
  have hmod : (m + 1) % 256 = m + 1 := Nat.mod_eq_of_lt (by omega)
  rw [hmod]
  have hb0 : ∀ k, ((newBuffer g (m + 2)).set 0 (m + 1)).getD k 0 < 256 :=
    fun k => getD_set_lt _ _ k _ (by omega) (getD_newBuffer_lt g (m + 2))
  have hl0 : ((newBuffer g (m + 2)).set 0 (m + 1)).length = m + 2 := by
    rw [List.length_set, length_newBuffer]
  have h00 : ((newBuffer g (m + 2)).set 0 (m + 1)).getD 0 0 = m + 1 :=
    getD_set_self _ _ _ (by rw [length_newBuffer]; omega)
  generalize (newBuffer g (m + 2)).set 0 (m + 1) = B0 at hb0 hl0 h00 ⊢
  obtain ⟨B1, hcp, hl1, _, h01, _, hget⟩ := copySections_spec C (m + 1) levels 0 B0
    (fun j hj => valid_get C _ (levels + j) hb hlen (by omega)) hb0
    (fun _ => by rw [hl0]; omega)
  refine ⟨B1, ?_, ?_, ?_⟩
  · rw [hcp]
    rfl
  · exact numberOf_of_head B1 (m + 1) (by rw [hl1, hl0]; omega) (by rw [h01, h00]) (by omega)
  · intro j hj
    obtain ⟨v, hv, _⟩ := valid_get C _ (levels + j) hb hlen (by omega)
    refine ⟨v, hv, ?_⟩
    have h := hget j hj
    rw [Nat.zero_add, hv] at h
    exact h

/-- Chopping as many levels as the code has sections, or more, yields the null pointer. -/
theorem chop_null (g : Nat → Nat) (C : List Nat) (hC : validOctalCode C = true) (levels : Nat)
    (hlv : C.getD 0 0 ≤ levels) : chopOctalCode g C levels = some none := by
  obtain ⟨n, hn0, _, hnum, _⟩ := valid_facts C hC
  rw [hn0] at hlv
  have hgt : ¬ ((n : Int) > (levels : Int)) := by omega
  simp only [chopOctalCode, hnum, Option.bind_eq_bind, Option.some_bind, hgt, if_false]

end Chop

/-! ## The voxel of a code -/

section Voxel

theorem oneAtBit_section (v : Nat) (hv : v < 8) :
    (if oneAtBit v (BITS_IN_BYTE - BITS_IN_OCTAL + 0) = true then (1 : ℚ) else 0)
        = (((v / 2 ^ 2 % 2 : Nat)) : ℚ)
      ∧ (if oneAtBit v (BITS_IN_BYTE - BITS_IN_OCTAL + 1) = true then (1 : ℚ) else 0)
        = (((v / 2 ^ 1 % 2 : Nat)) : ℚ)
      ∧ (if oneAtBit v (BITS_IN_BYTE - BITS_IN_OCTAL + 2) = true then (1 : ℚ) else 0)
        = (((v / 2 ^ 0 % 2 : Nat)) : ℚ) := by
  interval_cases v <;> simp [oneAtBit, BITS_IN_BYTE, BITS_IN_OCTAL]

/-- The loop of `voxelDetailsForCode` from the section `i` on: each section adds its three
bits, weighted by the halved scale, to the three coordinates. -/
theorem voxelDetailsLoop_spec (c : List Nat) (rem : Nat) :
    ∀ (i : Nat) (x y z sc : ℚ),
      (∀ k, k < rem → ∃ v, getOctalCodeSectionValue c (i + k) = some v ∧ v < 8) →
      voxelDetailsLoop c rem i x y z sc
        = some (x + Finset.sum (Finset.range rem)
              (fun k => sc * (1 / 2) ^ (k + 1) * sectionBit c (i + k) 2),
            y + Finset.sum (Finset.range rem)
              (fun k => sc * (1 / 2) ^ (k + 1) * sectionBit c (i + k) 1),
            z + Finset.sum (Finset.range rem)
              (fun k => sc * (1 / 2) ^ (k + 1) * sectionBit c (i + k) 0),
            sc * (1 / 2) ^ rem) := by
  induction rem with
  | zero =>
    intro i x y z sc _
    simp [voxelDetailsLoop]
  | succ r ih =>
    intro i x y z sc h
    obtain ⟨v, hv, hv8⟩ := h 0 (Nat.succ_pos r)
    rw [Nat.add_zero] at hv
    have hsec : sectionValue (c.drop (1 + BITS_IN_OCTAL * i / BITS_IN_BYTE))
        ((BITS_IN_OCTAL * i) % BITS_IN_BYTE) = some v := hv
    obtain ⟨b2, b1, b0⟩ := oneAtBit_section v hv8
    have s2 : sectionBit c i 2 = (((v / 2 ^ 2 % 2 : Nat)) : ℚ) := by
      simp only [sectionBit, hv, Option.getD_some]
    have s1 : sectionBit c i 1 = (((v / 2 ^ 1 % 2 : Nat)) : ℚ) := by
      simp only [sectionBit, hv, Option.getD_some]
    have s0 : sectionBit c i 0 = (((v / 2 ^ 0 % 2 : Nat)) : ℚ) := by
      simp only [sectionBit, hv, Option.getD_some]
    have hrest := ih (i + 1) (x + sc * (1 / 2) * sectionBit c i 2)
      (y + sc * (1 / 2) * sectionBit c i 1) (z + sc * (1 / 2) * sectionBit c i 0)
      (sc * (1 / 2))
      (fun k hk => by
        have := h (k + 1) (by omega)
        rwa [show i + (k + 1) = i + 1 + k by omega] at this)
    simp only [voxelDetailsLoop, hsec, Option.bind_eq_bind, Option.some_bind, b2, b1, b0]
    rw [← s2, ← s1, ← s0, hrest]
    have hterm : ∀ (b : Nat) (k : Nat),
        sc * (1 / 2) * (1 / 2) ^ (k + 1) * sectionBit c (i + 1 + k) b
          = sc * (1 / 2) ^ (k + 1 + 1) * sectionBit c (i + (k + 1)) b := by
      intro b k
      rw [show i + 1 + k = i + (k + 1) by omega]
      ring
    simp only [hterm, Finset.sum_range_succ' _ r]
    congr 1
    refine Prod.ext ?_ (Prod.ext ?_ (Prod.ext ?_ ?_))
    · simp only [Nat.add_zero]
      ring
    · simp only [Nat.add_zero]
      ring
    · simp only [Nat.add_zero]
      ring
    · simp only []
      ring

end Voxel

/-! ## Coalescing the messages of one server -/

section Coalesce

/-- A server whose jurisdiction an edit falls in is a known server. -/
theorem voxelServersExist_of_mine (env : Env) (U A : Nat) (code : List Nat)
    (hnodes : env.nodes = [{ type := NODE_TYPE_VOXEL_SERVER, uuid := U, activeSocket := some A }])
    (hmine : isMyJurisdictionForQueue env U code = true) : voxelServersExist env = true := by
  unfold voxelServersExist
  rw [hnodes]
  cases hj : env.jurisdictions with
  | none => simp [voxelServersExistLoop, hj]
  | some table =>
    cases hl : table.lookup U with
    | none => simp [isMyJurisdictionForQueue, hj, hl] at hmine
    | some map => simp [voxelServersExistLoop, hj, hl]

/-- One `queueVoxelEditMessage` call with one known server whose jurisdiction holds the
edit: the state after the call, in terms of the flush, initialise and append steps. -/
theorem queue_one_server (env : Env) (U A : Nat) (s : VoxelEditPacketSender) (t : PACKET_TYPE)
    (code : List Nat)
    (hnodes : env.nodes = [{ type := NODE_TYPE_VOXEL_SERVER, uuid := U, activeSocket := some A }])
    (hmine : isMyJurisdictionForQueue env U code = true) (hsend : s._shouldSend = true) :
    queueVoxelEditMessage env s t code
      = { (appendToPacketBuffer env s { mapGet s._pendingEditPackets U with _nodeUUID := U }
            t code).1 with
          _pendingEditPackets := mapSet
            (appendToPacketBuffer env s { mapGet s._pendingEditPackets U with _nodeUUID := U }
              t code).1._pendingEditPackets U
            (appendToPacketBuffer env s { mapGet s._pendingEditPackets U with _nodeUUID := U }
              t code).2 } := by
  have hex := voxelServersExist_of_mine env U A code hnodes hmine
  unfold queueVoxelEditMessage
  simp only [hsend, hex, Bool.not_true, Bool.false_eq_true, if_false, hnodes, List.foldl_cons,
    List.foldl_nil]
  unfold queueVoxelEditMessageStep
  simp only [Option.isSome_some, and_self, if_true, hmine]

/-- The first message for a server without a buffer opens a packet that holds it. -/
theorem batched_first (env : Env) (U A : Nat) (hdr : PACKET_TYPE → List Nat)
    (s : VoxelEditPacketSender) (t : PACKET_TYPE) (code : List Nat)
    (hnodes : env.nodes = [{ type := NODE_TYPE_VOXEL_SERVER, uuid := U, activeSocket := some A }])
    (hhdr : env.populateTypeAndVersion = hdr)
    (hmine : isMyJurisdictionForQueue env U code = true) (hsend : s._shouldSend = true)
    (ht : t ≠ PACKET_TYPE_UNKNOWN) (hempty : s._pendingEditPackets = [])
    (hfit : ((code.length : Nat) : Int) < s._maxPacketSize) :
    Batched U t hdr code (queueVoxelEditMessage env s t code)
      ∧ (queueVoxelEditMessage env s t code).outbound = s.outbound
      ∧ (queueVoxelEditMessage env s t code)._shouldSend = true
      ∧ (queueVoxelEditMessage env s t code)._maxPacketSize = s._maxPacketSize := by
  rw [queue_one_server env U A s t code hnodes hmine hsend]
  have hg : mapGet s._pendingEditPackets U = EditPacketBuffer.empty := by
    rw [hempty]
    rfl
  generalize hpb : ({ mapGet s._pendingEditPackets U with _nodeUUID := U } : EditPacketBuffer)
    = pb
  have hty : pb._currentType = PACKET_TYPE_UNKNOWN := by
    rw [← hpb, hg]
    rfl
  have hsz : pb._currentSize = 0 := by
    rw [← hpb, hg]
    rfl
  have hu : pb._nodeUUID = U := by
    rw [← hpb]
  have c1 : ¬ ((t ≠ pb._currentType ∧ pb._currentSize > 0)
      ∨ ((pb._currentSize : Int) + (code.length : Int) ≥ s._maxPacketSize)) := by
    rw [hsz]
    intro h
    rcases h with h | h
    · exact absurd h.2 (by decide)
    · omega
  have c2 : t ≠ pb._currentType ∧ pb._currentSize = 0 := ⟨by rw [hty]; exact ht, hsz⟩
  have hev := append_eval_init env s pb t code c1 c2
  obtain ⟨hb, hl⟩ := initializePacket_bytes env s pb t
  obtain ⟨⟨_, _, hmax, _⟩, hpend⟩ := keeps_appendToPacketBuffer env s pb t code
  refine ⟨⟨(appendToPacketBuffer env s pb t code).2, ?_, ?_, ?_, ?_,
    env.populateTypeAndVersion t ++ littleEndian 2 s._sequenceNumber
      ++ littleEndian 8 env.usecTimestampNow, ?_, ?_⟩, ?_, ?_, hmax⟩
  · show mapSet (appendToPacketBuffer env s pb t code).1._pendingEditPackets U _ = _
    rw [hpend, hempty]
    rfl
  · rw [hev]
    rfl
  · rw [hev]
    exact hu
  · rw [hev]
    exact writeAt_length _ _ _ hl
  · simp only [List.length_append, littleEndian_length, hhdr]
  · rw [hev]
    show List.take _ (writeAt _ _ code) = _
    rw [writeAt_take _ _ _ hl, hb]
  · rw [hev]
    rfl
  · rw [hev]
    exact hsend

/-- A further message of the same type that fits is appended to the open packet. -/
theorem batched_next (env : Env) (U A : Nat) (hdr : PACKET_TYPE → List Nat)
    (s : VoxelEditPacketSender) (t : PACKET_TYPE) (payload code : List Nat)
    (hnodes : env.nodes = [{ type := NODE_TYPE_VOXEL_SERVER, uuid := U, activeSocket := some A }])
    (hmine : isMyJurisdictionForQueue env U code = true) (hsend : s._shouldSend = true)
    (hopen : Batched U t hdr payload s)
    (hfit : ((((hdr t).length + 2 + 8 + payload.length + code.length : Nat)) : Int)
      < s._maxPacketSize) :
    Batched U t hdr (payload ++ code) (queueVoxelEditMessage env s t code)
      ∧ (queueVoxelEditMessage env s t code).outbound = s.outbound
      ∧ (queueVoxelEditMessage env s t code)._shouldSend = true
      ∧ (queueVoxelEditMessage env s t code)._maxPacketSize = s._maxPacketSize := by
  obtain ⟨b, hp, hbt, hbu, hbl, header, hhl, hbytes⟩ := hopen
  have hsize : b._currentSize = (hdr t).length + 2 + 8 + payload.length := by
    have h := congrArg List.length hbytes
    rw [List.length_take, List.length_append, hhl] at h
    omega
  rw [queue_one_server env U A s t code hnodes hmine hsend]
  have hg : mapGet s._pendingEditPackets U = b := by
    rw [hp]
    exact mapGet_single U b
  have hpb : ({ mapGet s._pendingEditPackets U with _nodeUUID := U } : EditPacketBuffer) = b := by
    rw [hg, ← hbu]
  rw [hpb]
  have c1 : ¬ ((t ≠ b._currentType ∧ b._currentSize > 0)
      ∨ ((b._currentSize : Int) + (code.length : Int) ≥ s._maxPacketSize)) := by
    intro h
    rcases h with h | h
    · exact h.1 hbt.symm
    · omega
  have c2 : ¬ (t ≠ b._currentType ∧ b._currentSize = 0) := fun h => h.1 hbt.symm
  have hev := append_eval_plain env s b t code c1 c2
  refine ⟨⟨(appendToPacketBuffer env s b t code).2, ?_, ?_, ?_, ?_, header, hhl, ?_⟩, ?_, ?_, ?_⟩
  · show mapSet (appendToPacketBuffer env s b t code).1._pendingEditPackets U _ = _
    rw [hev]
    show mapSet s._pendingEditPackets U _ = _
    rw [hp]
    simp [mapSet]
  · rw [hev]
    exact hbt
  · rw [hev]
    exact hbu
  · rw [hev]
    exact writeAt_length _ _ _ hbl
  · rw [hev]
    show List.take _ (writeAt _ _ code) = _
    rw [writeAt_take _ _ _ hbl, hbytes, List.append_assoc]
  · rw [hev]
  · rw [hev]
    exact hsend
  · rw [hev]

/-- The messages of a run of `queueVoxelEditMessage` calls that fit into the open packet are
appended to it in call order, and no packet is handed over. -/
theorem batched_run (U A : Nat) (hdr : PACKET_TYPE → List Nat) (t : PACKET_TYPE)
    (msgs : List (Env × List Nat)) :
    ∀ (s : VoxelEditPacketSender) (payload : List Nat),
      (∀ m ∈ msgs,
        m.1.nodes = [{ type := NODE_TYPE_VOXEL_SERVER, uuid := U, activeSocket := some A }]
          ∧ isMyJurisdictionForQueue m.1 U m.2 = true) →
      s._shouldSend = true → Batched U t hdr payload s →
      ((((hdr t).length + 2 + 8 + payload.length + (msgs.map (fun m => m.2.length)).sum
        : Nat)) : Int) < s._maxPacketSize →
      ∃ s1, run s (msgs.map (fun m => (m.1, Call.queueVoxelEditMessage t m.2))) = some s1
        ∧ Batched U t hdr (payload ++ (msgs.map (fun m => m.2)).flatten) s1
        ∧ s1.outbound = s.outbound := by
  induction msgs with
  | nil =>
    intro s payload _ _ hopen _
    refine ⟨s, rfl, ?_, rfl⟩
    simpa using hopen
  | cons m rest ih =>
    intro s payload henv hsend hopen hfit
    obtain ⟨hnodes, hmine⟩ := henv m (List.mem_cons_self _ _)
    simp only [List.map_cons, List.sum_cons] at hfit
    obtain ⟨hb, ho, hs, hmax⟩ := batched_next m.1 U A hdr s t payload m.2 hnodes hmine hsend
      hopen (by omega)
    obtain ⟨s1, hrun, hb1, ho1⟩ := ih (queueVoxelEditMessage m.1 s t m.2) (payload ++ m.2)
      (fun m1 hm1 => henv m1 (List.mem_cons_of_mem _ hm1)) hs hb
      (by rw [hmax, List.length_append]; omega)
    refine ⟨s1, ?_, ?_, ho1.trans ho⟩
    · simp only [List.map_cons, run, step, Option.bind_eq_bind, Option.some_bind]
      exact hrun
    · simpa using hb1

/-- Releasing the one open packet hands it over, whole, to the server. -/
theorem batched_release (env : Env) (U A : Nat) (hdr : PACKET_TYPE → List Nat)
    (s : VoxelEditPacketSender) (t : PACKET_TYPE) (payload : List Nat)
    (hnodes : env.nodes = [{ type := NODE_TYPE_VOXEL_SERVER, uuid := U, activeSocket := some A }])
    (hex : voxelServersExist env = true) (ht : t ≠ PACKET_TYPE_UNKNOWN)
    (hopen : Batched U t hdr payload s) :
    ∃ header, header.length = (hdr t).length + 2 + 8
      ∧ (releaseQueuedMessages env s).outbound = s.outbound ++ [(A, header ++ payload)] := by
  obtain ⟨b, hpend, hbt, hbu, hbl, header, hhl, hbytes⟩ := hopen
  have hsize : b._currentSize = (hdr t).length + 2 + 8 + payload.length := by
    have h := congrArg List.length hbytes
    rw [List.length_take, List.length_append, hhl] at h
    omega
  refine ⟨header, hhl, ?_⟩
  unfold releaseQueuedMessages
  simp only [hex, Bool.not_true, Bool.false_eq_true, if_false, hpend, releaseQueuedMessagesLoop,
    mapGet_single]
  have hc : b._currentSize > 0 ∧ b._currentType ≠ PACKET_TYPE_UNKNOWN :=
    ⟨by omega, by rw [hbt]; exact ht⟩
  show (releaseQueuedPacket env s b).1.outbound = _
  unfold releaseQueuedPacket
  dsimp only
  rw [if_pos hc, hbu, queuePacketToNode_single env U A s _ _ hnodes, hbytes]

end Coalesce

/-! ## The two vertex computations -/

section Vertex

/-- The loop of `copyFirstVertexForCode`, started with half the scale, computes the three
coordinates of the loop of `voxelDetailsForCode`, and fails where that loop fails. -/
theorem copyFirstVertexLoop_eq (c : List Nat) (rem : Nat) :
    ∀ (i : Nat) (x y z sc : ℚ),
      copyFirstVertexLoop c rem i x y z (sc * (1 / 2))
        = (voxelDetailsLoop c rem i x y z sc).map (fun r => (r.1, r.2.1, r.2.2.1)) := by
  induction rem with
  | zero =>
    intro i x y z sc
    rfl
  | succ r ih =>
    intro i x y z sc
    simp only [copyFirstVertexLoop, voxelDetailsLoop, BITS_IN_OCTAL, BITS_IN_BYTE]
    cases sectionValue (c.drop (1 + 3 * i / 8)) (3 * i % 8) with
    | none => rfl
    | some v =>
      simp only [Option.bind_eq_bind, Option.some_bind]
      exact ih (i + 1) _ _ _ (sc * (1 / 2))

theorem copyFirstVertex_eq (c : List Nat) :
    copyFirstVertexForCode (some c)
      = (voxelDetailsForCode (some c)).map (fun v => (v.x, v.y, v.z)) := by
  simp only [copyFirstVertexForCode, voxelDetailsForCode]
  cases numberOfThreeBitSectionsInCode c UNKNOWN_OCTCODE_LENGTH with
  | none => rfl
  | some n =>
    simp only [Option.bind_eq_bind, Option.some_bind]
    have h := copyFirstVertexLoop_eq c n.toNat 0 0 0 0 1
    rw [one_mul] at h
    rw [h]
    cases voxelDetailsLoop c n.toNat 0 0 0 0 1 with
    | none => rfl
    | some r => rfl

/-- On a valid code `voxelDetailsForCode` yields a voxel. -/
theorem voxelDetails_returns (C : List Nat) (hC : validOctalCode C = true) :
    ∃ v, voxelDetailsForCode (some C) = some v := by
  obtain ⟨n, _, _, hn, hlen, hb, _⟩ := valid_facts C hC
  have h := voxelDetailsLoop_spec C n 0 0 0 0 1
    (fun k hk => by rw [Nat.zero_add]; exact valid_get C n k hb hlen hk)
  simp only [voxelDetailsForCode, hn, Option.bind_eq_bind, Option.some_bind, Int.toNat_ofNat, h]
  exact ⟨_, rfl⟩

end Vertex

/-! ## Validity of the constructed codes -/

section ConstructedCodes

/-- The converse of `valid_facts`. -/
theorem valid_of_facts (c : List Nat) (n : Nat) (h0 : c.getD 0 0 = n) (hn : n < 255)
    (hlen : 1 + (3 * n + 7) / 8 ≤ c.length) (hb : ∀ m, c.getD m 0 < 256)
    (hpad : (3 * n) % 8 = 0 ∨ c.getD ((3 * n + 7) / 8) 0 % 2 ^ (8 - (3 * n) % 8) = 0) :
    validOctalCode c = true := by
  rw [validOctalCode_iff]
  cases c with
  | nil =>
    simp only [List.length_nil] at hlen
    omega
  | cons m rest =>
    simp only [List.getD_cons_zero] at h0
    subst h0
    refine ⟨m, rest, rfl, hn, ?_, forall_lt_of_getD _ hb, ?_⟩
    · rw [bytesRequired_eq m (by omega)]
      exact hlen
    · rw [bytesRequired_eq m (by omega)]
      simpa using hpad

/-- The head of a buffer whose decoded length is below the extension marker. -/
theorem head_of_numberOf (c : List Nat) (m : Nat) (hm : m < 255)
    (h : numberOfThreeBitSectionsInCode c UNKNOWN_OCTCODE_LENGTH = some (m : Int)) :
    0 < c.length ∧ c.getD 0 0 = m := by
  cases c with
  | nil =>
    unfold numberOfThreeBitSectionsInCode at h
    rw [if_neg (by decide)] at h
    exact Option.noConfusion h
  | cons b rest =>
    refine ⟨by simp, ?_⟩
    simp only [List.getD_cons_zero]
    by_cases hb : b = 255
    · unfold numberOfThreeBitSectionsInCode at h
      rw [if_neg (by decide)] at h
      simp only [hb, if_true, Option.map_eq_map, Option.map_eq_some'] at h
      obtain ⟨r1, hr1, e⟩ := h
      have h1 := (numberOf_ge rest _ r1 hr1).2 (by decide)
      have e2 : (m : Int) = 255 + r1 := by
        rw [← e]
        norm_num
      omega
    · rw [numberOf_cons b rest hb] at h
      have := Option.some.inj h
      omega

theorem child_null_valid (k : Nat) (hk : k < 8) : validOctalCode [1, k * 32] = true := by
  interval_cases k <;> decide

/-- The child of a valid code of fewer than 254 sections is a valid code, whatever the fresh
buffer held: the byte that the new section opens is zeroed before the section is added, and
the padding bits of the parent are zero. -/
theorem child_valid (g : Nat → Nat) (p : List Nat) (n k : Nat)
    (hv : validOctalCode p = true) (h0 : p.getD 0 0 = n) (hn : n < 254) :
    ∃ c, childOctalCode g (some p) k = some c ∧ validOctalCode c = true := by
  obtain ⟨n1, h01, _, hnum, hlen, hb, hpad⟩ := valid_facts p hv
  rw [h0] at h01
  subst h01
  have e1 : ((n : Int) + 1).toNat = n + 1 := by omega
  have hB : bytesRequiredForCodeLength n = 1 + (3 * n + 7) / 8 := bytesRequired_eq n (by omega)
  have hB1 : bytesRequiredForCodeLength (n + 1) = 1 + (3 * n + 10) / 8 := by
    rw [bytesRequired_eq (n + 1) (by omega)]
    omega
  simp only [childOctalCode, hnum, Option.bind_eq_bind, Option.some_bind, Int.toNat_ofNat, e1,
    hB, hB1]
  rw [memcpy_of_le _ _ _ hlen (by rw [length_newBuffer]; omega), Nat.mul_comm n 3]
  simp only [Option.some_bind]
  have hAl : (List.take (1 + (3 * n + 7) / 8) p ++
      List.drop (1 + (3 * n + 7) / 8) (newBuffer g (1 + (3 * n + 10) / 8))).length
        = 1 + (3 * n + 10) / 8 := by
    simp only [List.length_append, List.length_take, List.length_drop, length_newBuffer]
    omega
  have hAget : ∀ m, m < 1 + (3 * n + 7) / 8 →
      (List.take (1 + (3 * n + 7) / 8) p ++
        List.drop (1 + (3 * n + 7) / 8) (newBuffer g (1 + (3 * n + 10) / 8))).getD m 0
          = p.getD m 0 := by
    intro m hm
    rw [getD_take_append_drop _ _ _ _ hlen, if_pos hm]
  have hAb : ∀ m, (List.take (1 + (3 * n + 7) / 8) p ++
      List.drop (1 + (3 * n + 7) / 8) (newBuffer g (1 + (3 * n + 10) / 8))).getD m 0 < 256 := by
    intro m
    rw [getD_take_append_drop _ _ _ _ hlen]
    split
    · exact hb m
    · exact getD_newBuffer_lt g _ m
  generalize (List.take (1 + (3 * n + 7) / 8) p ++
      List.drop (1 + (3 * n + 7) / 8) (newBuffer g (1 + (3 * n + 10) / 8))) = A
    at hAl hAget hAb ⊢
  have h8 : 3 * n % 8 < 8 := Nat.mod_lt _ (by norm_num)
  have hn1 : (n + 1) % 256 = n + 1 := Nat.mod_eq_of_lt (by omega)
  rw [writeByte_of_lt A 0 _ (by omega), hn1]
  simp only [Option.some_bind]
  have hA0 : ∀ m, (A.set 0 (n + 1)).getD m 0 < 256 :=
    fun m => getD_set_lt A 0 m _ (by omega) hAb
  have e10 : (3 * (n + 1) + 7) / 8 = (3 * n + 10) / 8 := by omega
  have e3 : 3 * (n + 1) = 3 * n + 3 := by omega
  clear e1 hB hB1 hnum hv
  rcases (show 3 * n % 8 = 0 ∨ (1 ≤ 3 * n % 8 ∧ 3 * n % 8 ≤ 5) ∨ 6 ≤ 3 * n % 8 by omega)
    with hr | hr | hr
  · -- the new section opens a new byte
    obtain ⟨d7, d10⟩ := (div8_facts (3 * n)).1 hr
    have hgt : 1 + (3 * n + 10) / 8 > 1 + (3 * n + 7) / 8 := by omega
    have hls : ¬ ((8 : Int) - ((3 * n % 8 : Nat) : Int) - 3 < 0) := by omega
    have hsh : ((8 : Int) - ((3 * n % 8 : Nat) : Int) - 3).toNat = 5 := by omega
    have hidx : 1 + (3 * n + 10) / 8 - 1 = 3 * n / 8 + 1 := by omega
    simp only [hgt, hls, hsh, if_true, if_false, hidx]
    rw [writeByte_of_lt _ _ _ (by simp; omega)]
    simp only [Option.some_bind]
    rw [readByte_of_lt _ _ (by simp; omega), getD_set_self _ _ _ (by simp; omega)]
    simp only [Option.some_bind]
    rw [writeByte_of_lt _ _ _ (by simp; omega)]
    refine ⟨_, rfl, valid_of_facts _ (n + 1) ?_ (by omega) ?_ ?_ ?_⟩
    · rw [getD_set_other _ _ _ _ (by omega), getD_set_other _ _ _ _ (by omega),
        getD_set_self _ _ _ (by omega)]
    · simp only [List.length_set]
      omega
    · intro m
      exact getD_set_lt _ _ m _ (Nat.mod_lt _ (by norm_num))
        (fun m1 => getD_set_lt _ _ m1 _ (Nat.mod_lt _ (by norm_num)) hA0)
    · right
      rw [e10, d10, getD_set_self _ _ _ (by simp; omega), e3]
      have hm3 : (3 * n + 3) % 8 = 3 := by omega
      rw [hm3, Nat.shiftLeft_eq]
      omega
  · -- the new section fits into the last byte of the parent
    obtain ⟨d7, d10⟩ := (div8_facts (3 * n)).2.1 hr.1 hr.2
    have hgt : ¬ (1 + (3 * n + 10) / 8 > 1 + (3 * n + 7) / 8) := by omega
    have hls : ¬ ((8 : Int) - ((3 * n % 8 : Nat) : Int) - 3 < 0) := by omega
    have hsh : ((8 : Int) - ((3 * n % 8 : Nat) : Int) - 3).toNat = 5 - 3 * n % 8 := by omega
    simp only [hgt, hls, hsh, if_false]
    rw [readByte_of_lt _ _ (by simp; omega), getD_set_other _ _ _ _ (by omega),
      hAget _ (by omega)]
    simp only [Option.some_bind]
    rw [writeByte_of_lt _ _ _ (by simp; omega)]
    refine ⟨_, rfl, valid_of_facts _ (n + 1) ?_ (by omega) ?_ ?_ ?_⟩
    · rw [getD_set_other _ _ _ _ (by omega), getD_set_self _ _ _ (by omega)]
    · simp only [List.length_set]
      omega
    · intro m
      exact getD_set_lt _ _ m _ (Nat.mod_lt _ (by norm_num)) hA0
    · rw [e10, d10, getD_set_self _ _ _ (by simp; omega), e3, Nat.shiftLeft_eq]
      rw [d7] at hpad
      have hpad1 : p.getD (3 * n / 8 + 1) 0 % 2 ^ (8 - 3 * n % 8) = 0 :=
        hpad.resolve_left (by omega)
      have hbb := hb (3 * n / 8 + 1)
      generalize p.getD (3 * n / 8 + 1) 0 = b at hpad1 hbb ⊢
      have hm3 : (3 * n + 3) % 8 = (3 * n % 8 + 3) % 8 := by omega
      rw [hm3]
      obtain ⟨hr1, hr2⟩ := hr
      generalize 3 * n % 8 = r at hr1 hr2 hpad1 ⊢
      interval_cases r <;> simp at hpad1 ⊢ <;> omega
  · -- the new section straddles the last byte of the parent and a new byte
    obtain ⟨d7, d10⟩ := (div8_facts (3 * n)).2.2 hr
    have hgt : 1 + (3 * n + 10) / 8 > 1 + (3 * n + 7) / 8 := by omega
    have hls : (8 : Int) - ((3 * n % 8 : Nat) : Int) - 3 < 0 := by omega
    have hsh : (-((8 : Int) - ((3 * n % 8 : Nat) : Int) - 3)).toNat = 3 * n % 8 - 5 := by omega
    have hsh2 : ((8 : Int) + ((8 : Int) - ((3 * n % 8 : Nat) : Int) - 3)).toNat
        = 13 - 3 * n % 8 := by omega
    have hidx : 1 + (3 * n + 10) / 8 - 1 = 3 * n / 8 + 2 := by omega
    simp only [hgt, hls, hsh, hsh2, if_true, hidx]
    rw [writeByte_of_lt _ _ _ (by simp; omega)]
    simp only [Option.some_bind]
    rw [readByte_of_lt _ _ (by simp; omega), getD_set_other _ _ _ _ (by omega),
      getD_set_other _ _ _ _ (by omega), hAget _ (by omega)]
    simp only [Option.some_bind]
    rw [writeByte_of_lt _ _ _ (by simp; omega)]
    simp only [Option.some_bind]
    rw [readByte_of_lt _ _ (by simp; omega), getD_set_other _ _ _ _ (by omega),
      getD_set_self _ _ _ (by simp; omega)]
    simp only [Option.some_bind]
    rw [writeByte_of_lt _ _ _ (by simp; omega)]
    refine ⟨_, rfl, valid_of_facts _ (n + 1) ?_ (by omega) ?_ ?_ ?_⟩
    · rw [getD_set_other _ _ _ _ (by omega), getD_set_other _ _ _ _ (by omega),
        getD_set_other _ _ _ _ (by omega), getD_set_self _ _ _ (by omega)]
    · simp only [List.length_set]
      omega
    · intro m
      exact getD_set_lt _ _ m _ (Nat.mod_lt _ (by norm_num))
        (fun m1 => getD_set_lt _ _ m1 _ (Nat.mod_lt _ (by norm_num))
          (fun m2 => getD_set_lt _ _ m2 _ (Nat.mod_lt _ (by norm_num)) hA0))
    · right
      rw [e10, d10, getD_set_self _ _ _ (by simp; omega), e3, Nat.shiftLeft_eq]
      have hm3 : (3 * n + 3) % 8 = 3 * n % 8 - 5 := by omega
      rw [hm3]
      generalize 3 * n % 8 = r at hr h8 ⊢
      interval_cases r <;> simp <;> omega

end ConstructedCodes

/-! ## The map of the per-server buffers -/

section BufferMap

theorem mapGet_mapSet_self (m : List (Nat × EditPacketBuffer)) (u : Nat) (b : EditPacketBuffer) :
    mapGet (mapSet m u b) u = b := by
  induction m with
  | nil => simp [mapSet, mapGet]
  | cons x m ih =>
    obtain ⟨k, v⟩ := x
    unfold mapSet
    split
    · simp [mapGet]
    · split
      · simp [mapGet]
      · rename_i h1 h2
        have hk : ¬ k = u := fun h => h2 h.symm
        simp only [mapGet, hk, if_false]
        exact ih

theorem mapGet_mapSet_other (m : List (Nat × EditPacketBuffer)) (u w : Nat) (b : EditPacketBuffer)
    (h : w ≠ u) : mapGet (mapSet m u b) w = mapGet m w := by
  induction m with
  | nil =>
    have hu : ¬ u = w := fun e => h e.symm
    simp [mapSet, mapGet, hu]
  | cons x m ih =>
    obtain ⟨k, v⟩ := x
    have hu : ¬ u = w := fun e => h e.symm
    unfold mapSet
    split
    · simp only [mapGet, hu, if_false]
    · split
      · rename_i h1 h2
        have hk : ¬ k = w := fun e => hu (h2.trans e)
        simp only [mapGet, hu, hk, if_false]
      · by_cases hk : k = w
        · simp only [mapGet, hk, if_true]
        · simp only [mapGet, hk, if_false]
          exact ih

/-- The loop body of `queueVoxelEditMessage` touches no buffer but that of its node. -/
theorem queueStep_other (env : Env) (t : PACKET_TYPE) (code : List Nat)
    (s : VoxelEditPacketSender) (node : Node) (w : Nat) (h : w ≠ node.uuid) :
    mapGet (queueVoxelEditMessageStep env t code s node)._pendingEditPackets w
      = mapGet s._pendingEditPackets w := by
  unfold queueVoxelEditMessageStep
  split
  · dsimp only
    split
    · show mapGet (mapSet _ node.uuid _) w = _
      rw [mapGet_mapSet_other _ _ _ _ h, (keeps_appendToPacketBuffer env s _ t code).2]
    · rfl
  · rfl

/-- A node that is no voxel server with an active socket, or whose jurisdiction does not
take the edit, is passed over by the loop of `queueVoxelEditMessage`. -/
theorem queueStep_skip (env : Env) (t : PACKET_TYPE) (code : List Nat)
    (s : VoxelEditPacketSender) (node : Node)
    (h : ¬ (node.activeSocket.isSome = true ∧ node.type = NODE_TYPE_VOXEL_SERVER
      ∧ isMyJurisdictionForQueue env node.uuid code = true)) :
    queueVoxelEditMessageStep env t code s node = s := by
  unfold queueVoxelEditMessageStep
  split
  · rename_i h1
    dsimp only
    split
    · rename_i h2
      exact absurd ⟨h1.1, h1.2, h2⟩ h
    · rfl
  · rfl

/-- A buffer that the loop of `queueVoxelEditMessage` changes is the buffer of a voxel server
with an active socket whose jurisdiction takes the edit. -/
theorem queueFold_changed (env : Env) (t : PACKET_TYPE) (code : List Nat) (w : Nat)
    (nodes : List Node) :
    ∀ s, mapGet (nodes.foldl (queueVoxelEditMessageStep env t code) s)._pendingEditPackets w
        ≠ mapGet s._pendingEditPackets w →
      ∃ node ∈ nodes, node.uuid = w ∧ node.activeSocket.isSome = true
        ∧ node.type = NODE_TYPE_VOXEL_SERVER
        ∧ isMyJurisdictionForQueue env w code = true := by
  induction nodes with
  | nil =>
    intro s h
    exact absurd rfl h
  | cons node rest ih =>
    intro s h
    simp only [List.foldl_cons] at h
    by_cases hown : node.uuid = w ∧ node.activeSocket.isSome = true
        ∧ node.type = NODE_TYPE_VOXEL_SERVER
        ∧ isMyJurisdictionForQueue env w code = true
    · exact ⟨node, List.mem_cons_self _ _, hown⟩
    · have hsame : mapGet (queueVoxelEditMessageStep env t code s node)._pendingEditPackets w
          = mapGet s._pendingEditPackets w := by
        by_cases hu : w = node.uuid
        · have hskip : ¬ (node.activeSocket.isSome = true ∧ node.type = NODE_TYPE_VOXEL_SERVER
              ∧ isMyJurisdictionForQueue env node.uuid code = true) := by
            intro hh
            exact hown ⟨hu.symm, hh.1, hh.2.1, by rw [hu]; exact hh.2.2⟩
          rw [queueStep_skip env t code s node hskip]
        · exact queueStep_other env t code s node w hu
      obtain ⟨n1, hn1, hrest⟩ := ih (queueVoxelEditMessageStep env t code s node)
        (by rw [hsame]; exact h)
      exact ⟨n1, List.mem_cons_of_mem _ hn1, hrest⟩

/-- The loop body of `queueVoxelEditMessage` for a voxel server with an active socket whose
jurisdiction takes the edit. -/
theorem queueStep_own (env : Env) (t : PACKET_TYPE) (code : List Nat)
    (s : VoxelEditPacketSender) (node : Node) (hsock : node.activeSocket.isSome = true)
    (htype : node.type = NODE_TYPE_VOXEL_SERVER)
    (hmine : isMyJurisdictionForQueue env node.uuid code = true) :
    queueVoxelEditMessageStep env t code s node
      = { (appendToPacketBuffer env s
            { mapGet s._pendingEditPackets node.uuid with _nodeUUID := node.uuid } t code).1 with
          _pendingEditPackets := mapSet
            (appendToPacketBuffer env s
              { mapGet s._pendingEditPackets node.uuid with _nodeUUID := node.uuid }
              t code).1._pendingEditPackets node.uuid
            (appendToPacketBuffer env s
              { mapGet s._pendingEditPackets node.uuid with _nodeUUID := node.uuid }
              t code).2 } := by
  unfold queueVoxelEditMessageStep
  rw [if_pos ⟨hsock, htype⟩]
  dsimp only
  rw [if_pos hmine]

end BufferMap

/-! ## Opening, switching and releasing the packet of one server -/

section TypeSwitch

theorem holds_size {bytes : List Nat} {b : EditPacketBuffer}
    (hbytes : b._currentBuffer.take b._currentSize = bytes) (hne : bytes ≠ []) :
    0 < b._currentSize := by
  rcases Nat.eq_zero_or_pos b._currentSize with h | h
  · rw [h, List.take_zero] at hbytes
    exact absurd hbytes.symm hne
  · exact h

/-- Releasing the open packet of the one server hands it over. -/
theorem holds_release (env : Env) (U A : Nat) (s : VoxelEditPacketSender) (t : PACKET_TYPE)
    (bytes : List Nat)
    (hnodes : env.nodes = [{ type := NODE_TYPE_VOXEL_SERVER, uuid := U, activeSocket := some A }])
    (hex : voxelServersExist env = true) (ht : t ≠ PACKET_TYPE_UNKNOWN)
    (hopen : Holds U t bytes s) (hbytes : bytes ≠ []) :
    (releaseQueuedMessages env s).outbound = s.outbound ++ [(A, bytes)] := by
  obtain ⟨b, hp, hbt, hbu, hbl, hb⟩ := hopen
  unfold releaseQueuedMessages
  simp only [hex, Bool.not_true, Bool.false_eq_true, if_false, hp, releaseQueuedMessagesLoop,
    mapGet_single]
  have hc : b._currentSize > 0 ∧ b._currentType ≠ PACKET_TYPE_UNKNOWN :=
    ⟨holds_size hb hbytes, by rw [hbt]; exact ht⟩
  show (releaseQueuedPacket env s b).1.outbound = _
  unfold releaseQueuedPacket
  dsimp only
  rw [if_pos hc, hbu, queuePacketToNode_single env U A s _ _ hnodes, hb]

end TypeSwitch

/-! ## Draining the queue of packable messages to one server -/

section Drain

theorem run_append (l1 : List (Env × Call)) :
    ∀ (s : VoxelEditPacketSender) (l2 : List (Env × Call)),
      run s (l1 ++ l2) = (run s l1).bind (fun s1 => run s1 l2) := by
  induction l1 with
  | nil =>
    intro s l2
    rfl
  | cons x l1 ih =>
    intro s l2
    obtain ⟨env, call⟩ := x
    simp only [List.cons_append, run, Option.bind_eq_bind]
    cases step env s call with
    | none => rfl
    | some s1 =>
      simp only [Option.some_bind]
      exact ih s1 l2

/-- With known servers `queueVoxelEditMessage` leaves the switches, the limits and the
pre-server queues alone. -/
theorem frame_queue_servers (env : Env) (s : VoxelEditPacketSender) (t : PACKET_TYPE)
    (code : List Nat) (hex : voxelServersExist env = true) :
    Frame s (queueVoxelEditMessage env s t code) := by
  unfold queueVoxelEditMessage
  split
  · exact frame_refl s
  · rw [hex]
    simp only [Bool.not_true, Bool.false_eq_true, if_false]
    exact foldl_rel Frame frame_refl (fun _ _ _ => frame_trans) _
      (fun a node => frame_queueVoxelEditMessageStep env t code a node) env.nodes s

/-- With no known server and room in the pre-server queues, a run of `queueVoxelEditMessage`
calls appends the edits to the queue of packable messages and changes nothing else. -/
theorem preServer_run (t : PACKET_TYPE) (msgs : List (Env × List Nat)) :
    ∀ (s : VoxelEditPacketSender), s._shouldSend = true →
      (∀ m ∈ msgs, voxelServersExist m.1 = false) →
      (((s._preServerSingleMessagePackets.length + s._preServerPackets.length + msgs.length
        : Nat)) : Int) ≤ s._maxPendingMessages →
      run s (msgs.map (fun m => (m.1, Call.queueVoxelEditMessage t m.2)))
        = some { s with _preServerPackets := (s._preServerPackets
            ++ msgs.map (fun m => EditPacketBuffer.make t m.2 nullUUID)) } := by
  induction msgs with
  | nil =>
    intro s _ _ _
    simp [run]
  | cons m rest ih =>
    intro s hsend hno hcap
    have hex := hno m (List.mem_cons_self _ _)
    simp only [List.length_cons] at hcap
    have hpos : s._maxPendingMessages > 0 := by omega
    have hroom : ¬ ((((s._preServerSingleMessagePackets.length
        + (s._preServerPackets ++ [EditPacketBuffer.make t m.2 nullUUID]).length : Nat)) : Int)
          > s._maxPendingMessages) := by
      rw [List.length_append, List.length_singleton]
      omega
    have hq : queueVoxelEditMessage m.1 s t m.2
        = { s with _preServerPackets := (s._preServerPackets
            ++ [EditPacketBuffer.make t m.2 nullUUID]) } := by
      unfold queueVoxelEditMessage
      simp only [hsend, hex, Bool.not_true, Bool.not_false, Bool.false_eq_true, if_false,
        if_true, hpos, hroom]
    simp only [List.map_cons, run, step, Option.bind_eq_bind, Option.some_bind]
    have h2 := ih { s with _preServerPackets := (s._preServerPackets
        ++ [EditPacketBuffer.make t m.2 nullUUID]) } hsend
      (fun m1 hm1 => hno m1 (List.mem_cons_of_mem _ hm1))
      (by simp only [List.length_append, List.length_singleton]; omega)
    rw [hq, h2]
    simp only [List.append_assoc, List.singleton_append]

/-- One iteration of the loop that drains the queue of packable messages. -/
theorem drain_step (env : Env) (fuel : Nat) (s : VoxelEditPacketSender) (t : PACKET_TYPE)
    (p : List Nat) (rest : List EditPacketBuffer)
    (hpre : s._preServerPackets = EditPacketBuffer.make t p nullUUID :: rest) :
    drainPackets env (fuel + 1) s
      = drainPackets env fuel
          { queueVoxelEditMessage env s t p with
            _preServerPackets := (queueVoxelEditMessage env s t p)._preServerPackets.tail } := by
  simp only [drainPackets, hpre, EditPacketBuffer.make, List.take_length]

/-- Draining the queue of packable messages into the open packet of the one server: the
messages are appended in queue order, the queue ends empty, and nothing is handed over. -/
theorem drain_batched (env : Env) (U A : Nat) (hdr : PACKET_TYPE → List Nat) (t : PACKET_TYPE)
    (hnodes : env.nodes = [{ type := NODE_TYPE_VOXEL_SERVER, uuid := U, activeSocket := some A }])
    (L : List (List Nat)) :
    ∀ (s : VoxelEditPacketSender) (payload : List Nat),
      s._preServerPackets = L.map (fun p => EditPacketBuffer.make t p nullUUID) →
      s._shouldSend = true → Batched U t hdr payload s →
      (∀ p ∈ L, isMyJurisdictionForQueue env U p = true) →
      ((((hdr t).length + 2 + 8 + payload.length + (L.map List.length).sum : Nat)) : Int)
        < s._maxPacketSize →
      Batched U t hdr (payload ++ L.flatten) (drainPackets env L.length s)
        ∧ (drainPackets env L.length s)._preServerPackets = []
        ∧ (drainPackets env L.length s).outbound = s.outbound
        ∧ (drainPackets env L.length s)._preServerSingleMessagePackets
            = s._preServerSingleMessagePackets
        ∧ (drainPackets env L.length s)._releaseQueuedMessagesPending
            = s._releaseQueuedMessagesPending := by
  induction L with
  | nil =>
    intro s payload hpre _ hopen _ _
    have h0 : drainPackets env ([] : List (List Nat)).length s = s := rfl
    rw [h0, List.flatten_nil, List.append_nil]
    exact ⟨hopen, hpre, rfl, rfl, rfl⟩
  | cons p rest ih =>
    intro s payload hpre hsend hopen hmine hfit
    have hm := hmine p (List.mem_cons_self _ _)
    have hex := voxelServersExist_of_mine env U A p hnodes hm
    simp only [List.map_cons, List.sum_cons] at hfit
    obtain ⟨hb, ho, hs, hmax⟩ := batched_next env U A hdr s t payload p hnodes hm hsend hopen
      (by omega)
    obtain ⟨_, _, _, f4, f5, f6⟩ := frame_queue_servers env s t p hex
    rw [List.length_cons, drain_step env rest.length s t p _ hpre]
    have hb1 : Batched U t hdr (payload ++ p)
        { queueVoxelEditMessage env s t p with
          _preServerPackets := (queueVoxelEditMessage env s t p)._preServerPackets.tail } := hb
    obtain ⟨r1, r2, r3, r4, r5⟩ := ih
      { queueVoxelEditMessage env s t p with
        _preServerPackets := (queueVoxelEditMessage env s t p)._preServerPackets.tail }
      (payload ++ p)
      (by
        show (queueVoxelEditMessage env s t p)._preServerPackets.tail = _
        rw [f6, hpre]
        rfl)
      hs hb1 (fun p1 hp1 => hmine p1 (List.mem_cons_of_mem _ hp1))
      (by
        show _ < (queueVoxelEditMessage env s t p)._maxPacketSize
        rw [hmax, List.length_append]
        omega)
    refine ⟨?_, r2, r3.trans ho, r4.trans f5, r5.trans f4⟩
    simpa using r1

/-- With known servers `releaseQueuedMessages` leaves the switches, the limits and the
pre-server queues alone. -/
theorem frame_release_servers (env : Env) (s : VoxelEditPacketSender)
    (hex : voxelServersExist env = true) : Frame s (releaseQueuedMessages env s) := by
  unfold releaseQueuedMessages
  rw [hex]
  simp only [Bool.not_true, Bool.false_eq_true, if_false]
  exact frame_releaseQueuedMessagesLoop env _ s

/-- The call `process` on a sender without buffers whose queue of packable messages holds
the messages `p :: L` of one type, when the one server takes them all and they fit into one
packet: the queue is drained into the buffer of the server, and the packet is handed over
only if a release is pending. -/
theorem process_batched (env : Env) (U A : Nat) (hdr : PACKET_TYPE → List Nat) (t : PACKET_TYPE)
    (hnodes : env.nodes = [{ type := NODE_TYPE_VOXEL_SERVER, uuid := U, activeSocket := some A }])
    (hhdr : env.populateTypeAndVersion = hdr) (p : List Nat) (L : List (List Nat))
    (s : VoxelEditPacketSender)
    (hpre : s._preServerPackets = EditPacketBuffer.make t p nullUUID
      :: L.map (fun x => EditPacketBuffer.make t x nullUUID))
    (hsingle : s._preServerSingleMessagePackets = []) (hpend : s._pendingEditPackets = [])
    (hsend : s._shouldSend = true) (ht : t ≠ PACKET_TYPE_UNKNOWN)
    (hmine : ∀ x ∈ p :: L, isMyJurisdictionForQueue env U x = true)
    (hfit : ((((hdr t).length + 2 + 8 + p.length + (L.map List.length).sum : Nat)) : Int)
      < s._maxPacketSize) :
    ∃ s2, Batched U t hdr (p ++ L.flatten) s2 ∧ s2._preServerPackets = []
      ∧ s2._preServerSingleMessagePackets = [] ∧ s2.outbound = s.outbound
      ∧ s2._releaseQueuedMessagesPending = s._releaseQueuedMessagesPending
      ∧ process env s = (if s._releaseQueuedMessagesPending = true then
          some { releaseQueuedMessages env s2 with _releaseQueuedMessagesPending := false }
        else some s2) := by
  have hm := hmine p (List.mem_cons_self _ _)
  have hex := voxelServersExist_of_mine env U A p hnodes hm
  obtain ⟨hb, ho, hs, hmax⟩ := batched_first env U A hdr s t p hnodes hhdr hm hsend ht hpend
    (by omega)
  obtain ⟨_, _, _, f4, f5, f6⟩ := frame_queue_servers env s t p hex
  have hb1 : Batched U t hdr p
      { queueVoxelEditMessage env s t p with
        _preServerPackets := (queueVoxelEditMessage env s t p)._preServerPackets.tail } := hb
  obtain ⟨r1, r2, r3, r4, r5⟩ := drain_batched env U A hdr t hnodes L
    { queueVoxelEditMessage env s t p with
      _preServerPackets := (queueVoxelEditMessage env s t p)._preServerPackets.tail } p
    (by
      show (queueVoxelEditMessage env s t p)._preServerPackets.tail = _
      rw [f6, hpre]
      rfl)
    hs hb1 (fun x hx => hmine x (List.mem_cons_of_mem _ hx))
    (by
      show _ < (queueVoxelEditMessage env s t p)._maxPacketSize
      rw [hmax]
      exact hfit)
  have hdrain : drainPackets env s._preServerPackets.length s
      = drainPackets env L.length
          { queueVoxelEditMessage env s t p with
            _preServerPackets := (queueVoxelEditMessage env s t p)._preServerPackets.tail } := by
    rw [hpre, List.length_cons, List.length_map, drain_step env L.length s t p _ hpre]
  refine ⟨_, r1, r2, (r4.trans f5).trans hsingle, r3.trans ho, r5.trans f4, ?_⟩
  have hne : (!s._preServerPackets.isEmpty) = true := by
    rw [hpre]
    rfl
  unfold process
  rw [if_pos ⟨hex, Or.inl hne⟩]
  unfold processPreServerExistsPackets
  simp only [hex, Bool.not_true, Bool.false_eq_true, if_false, hsingle, List.length_nil,
    drainSingleMessagePackets, Option.bind_eq_bind, Option.some_bind, hdrain]
  rw [r5]
  show (if (queueVoxelEditMessage env s t p)._releaseQueuedMessagesPending = true then _
    else _) = _
  rw [f4]

end Drain

/-! ## Voxels in the unit cube -/

section UnitCube

/-- Adding less than the weight of the padding to a byte whose padding bits are zero leaves
the bits before the padding as they were. -/
theorem pad_add_bits (b d r t : Nat) (hr0 : 0 < r) (hr : r < 8) (ht : t < r) (hb : b < 256)
    (hpad : b % 2 ^ (8 - r) = 0) (hd : d < 2 ^ (8 - r)) :
    ((b + d) % 256 / 2 ^ (7 - t)) % 2 = (b / 2 ^ (7 - t)) % 2 := by
  interval_cases r <;> interval_cases t <;> simp at hpad hd ⊢ <;> omega

/-- The child of a valid code of fewer than 254 sections carries the bits of the sections of
its parent unchanged. -/
theorem child_keeps_bits (g : Nat → Nat) (p : List Nat) (n k : Nat)
    (hv : validOctalCode p = true) (h0 : p.getD 0 0 = n) (hn : n < 254) (hk : k < 8) :
    ∃ c, childOctalCode g (some p) k = some c ∧ ∀ j, j < 3 * n → bitAt c j = bitAt p j := by
  obtain ⟨n1, h01, _, hnum, hlen, hb, hpad⟩ := valid_facts p hv
  rw [h0] at h01
  subst h01
  have e1 : ((n : Int) + 1).toNat = n + 1 := by omega
  have hB : bytesRequiredForCodeLength n = 1 + (3 * n + 7) / 8 := bytesRequired_eq n (by omega)
  have hB1 : bytesRequiredForCodeLength (n + 1) = 1 + (3 * n + 10) / 8 := by
    rw [bytesRequired_eq (n + 1) (by omega)]
    omega
  simp only [childOctalCode, hnum, Option.bind_eq_bind, Option.some_bind, Int.toNat_ofNat, e1,
    hB, hB1]
  rw [memcpy_of_le _ _ _ hlen (by rw [length_newBuffer]; omega), Nat.mul_comm n 3]
  simp only [Option.some_bind]
  have hAl : (List.take (1 + (3 * n + 7) / 8) p ++
      List.drop (1 + (3 * n + 7) / 8) (newBuffer g (1 + (3 * n + 10) / 8))).length
        = 1 + (3 * n + 10) / 8 := by
    simp only [List.length_append, List.length_take, List.length_drop, length_newBuffer]
    omega
  have hAget : ∀ m, m < 1 + (3 * n + 7) / 8 →
      (List.take (1 + (3 * n + 7) / 8) p ++
        List.drop (1 + (3 * n + 7) / 8) (newBuffer g (1 + (3 * n + 10) / 8))).getD m 0
          = p.getD m 0 := by
    intro m hm
    rw [getD_take_append_drop _ _ _ _ hlen, if_pos hm]
  generalize (List.take (1 + (3 * n + 7) / 8) p ++
      List.drop (1 + (3 * n + 7) / 8) (newBuffer g (1 + (3 * n + 10) / 8))) = A at hAl hAget ⊢
  have h8 : 3 * n % 8 < 8 := Nat.mod_lt _ (by norm_num)
  have hn1 : (n + 1) % 256 = n + 1 := Nat.mod_eq_of_lt (by omega)
  rw [writeByte_of_lt A 0 _ (by omega), hn1]
  simp only [Option.some_bind]
  clear e1 hB hB1 hnum hv
  rcases (show 3 * n % 8 = 0 ∨ (1 ≤ 3 * n % 8 ∧ 3 * n % 8 ≤ 5) ∨ 6 ≤ 3 * n % 8 by omega)
    with hr | hr | hr
  · -- the new section opens a new byte: every byte of the parent is kept
    obtain ⟨d7, d10⟩ := (div8_facts (3 * n)).1 hr
    have hgt : 1 + (3 * n + 10) / 8 > 1 + (3 * n + 7) / 8 := by omega
    have hls : ¬ ((8 : Int) - ((3 * n % 8 : Nat) : Int) - 3 < 0) := by omega
    have hsh : ((8 : Int) - ((3 * n % 8 : Nat) : Int) - 3).toNat = 5 := by omega
    have hidx : 1 + (3 * n + 10) / 8 - 1 = 3 * n / 8 + 1 := by omega
    simp only [hgt, hls, hsh, if_true, if_false, hidx]
    rw [writeByte_of_lt _ _ _ (by simp; omega)]
    simp only [Option.some_bind]
    rw [readByte_of_lt _ _ (by simp; omega), getD_set_self _ _ _ (by simp; omega)]
    simp only [Option.some_bind]
    rw [writeByte_of_lt _ _ _ (by simp; omega)]
    refine ⟨_, rfl, ?_⟩
    intro j hj
    have hj8 : j / 8 < 3 * n / 8 := by omega
    simp only [bitAt]
    rw [getD_set_other _ _ _ _ (by omega), getD_set_other _ _ _ _ (by omega),
      getD_set_other _ _ _ _ (by omega), hAget _ (by omega)]
  · -- the new section fits into the last byte of the parent, after the bits of the parent
    obtain ⟨d7, d10⟩ := (div8_facts (3 * n)).2.1 hr.1 hr.2
    have hgt : ¬ (1 + (3 * n + 10) / 8 > 1 + (3 * n + 7) / 8) := by omega
    have hls : ¬ ((8 : Int) - ((3 * n % 8 : Nat) : Int) - 3 < 0) := by omega
    have hsh : ((8 : Int) - ((3 * n % 8 : Nat) : Int) - 3).toNat = 5 - 3 * n % 8 := by omega
    simp only [hgt, hls, hsh, if_false]
    rw [readByte_of_lt _ _ (by simp; omega), getD_set_other _ _ _ _ (by omega),
      hAget _ (by omega)]
    simp only [Option.some_bind]
    rw [writeByte_of_lt _ _ _ (by simp; omega)]
    refine ⟨_, rfl, ?_⟩
    intro j hj
    rw [d7] at hpad
    have hpad1 : p.getD (3 * n / 8 + 1) 0 % 2 ^ (8 - 3 * n % 8) = 0 :=
      hpad.resolve_left (by omega)
    simp only [bitAt]
    rcases (show j / 8 < 3 * n / 8 ∨ (j / 8 = 3 * n / 8 ∧ j % 8 < 3 * n % 8) by omega)
      with hj8 | ⟨hj8, hjr⟩
    · rw [getD_set_other _ _ _ _ (by omega), getD_set_other _ _ _ _ (by omega),
        hAget _ (by omega)]
    · have e : 1 + j / 8 = 3 * n / 8 + 1 := by omega
      rw [e, getD_set_self _ _ _ (by simp; omega), Nat.shiftLeft_eq]
      refine pad_add_bits _ _ (3 * n % 8) _ (by omega) h8 hjr (hb _) hpad1 ?_
      obtain ⟨hr1, hr2⟩ := hr
      generalize 3 * n % 8 = r at hr1 hr2 ⊢
      interval_cases r <;> simp <;> omega
  · -- the new section straddles the last byte of the parent and a new byte
    obtain ⟨d7, d10⟩ := (div8_facts (3 * n)).2.2 hr
    have hgt : 1 + (3 * n + 10) / 8 > 1 + (3 * n + 7) / 8 := by omega
    have hls : (8 : Int) - ((3 * n % 8 : Nat) : Int) - 3 < 0 := by omega
    have hsh : (-((8 : Int) - ((3 * n % 8 : Nat) : Int) - 3)).toNat = 3 * n % 8 - 5 := by omega
    have hsh2 : ((8 : Int) + ((8 : Int) - ((3 * n % 8 : Nat) : Int) - 3)).toNat
        = 13 - 3 * n % 8 := by omega
    have hidx : 1 + (3 * n + 10) / 8 - 1 = 3 * n / 8 + 2 := by omega
    simp only [hgt, hls, hsh, hsh2, if_true, hidx]
    rw [writeByte_of_lt _ _ _ (by simp; omega)]
    simp only [Option.some_bind]
    rw [readByte_of_lt _ _ (by simp; omega), getD_set_other _ _ _ _ (by omega),
      getD_set_other _ _ _ _ (by omega), hAget _ (by omega)]
    simp only [Option.some_bind]
    rw [writeByte_of_lt _ _ _ (by simp; omega)]
    simp only [Option.some_bind]
    rw [readByte_of_lt _ _ (by simp; omega), getD_set_other _ _ _ _ (by omega),
      getD_set_self _ _ _ (by simp; omega)]
    simp only [Option.some_bind]
    rw [writeByte_of_lt _ _ _ (by simp; omega)]
    refine ⟨_, rfl, ?_⟩
    intro j hj
    rw [d7] at hpad
    have hpad1 : p.getD (3 * n / 8 + 1) 0 % 2 ^ (8 - 3 * n % 8) = 0 :=
      hpad.resolve_left (by omega)
    simp only [bitAt]
    rcases (show j / 8 < 3 * n / 8 ∨ (j / 8 = 3 * n / 8 ∧ j % 8 < 3 * n % 8) by omega)
      with hj8 | ⟨hj8, hjr⟩
    · rw [getD_set_other _ _ _ _ (by omega), getD_set_other _ _ _ _ (by omega),
        getD_set_other _ _ _ _ (by omega), getD_set_other _ _ _ _ (by omega),
        hAget _ (by omega)]
    · have e : 1 + j / 8 = 3 * n / 8 + 1 := by omega
      rw [e, getD_set_other _ _ _ _ (by omega), getD_set_self _ _ _ (by simp; omega),
        Nat.shiftRight_eq_div_pow]
      refine pad_add_bits _ _ (3 * n % 8) _ (by omega) h8 hjr (hb _) hpad1 ?_
      generalize 3 * n % 8 = r at hr h8 ⊢
      interval_cases r <;> simp <;> omega

/-- The child of a valid code of fewer than 254 sections: a valid code of one section more,
whose earlier sections are those of the parent. -/
theorem child_sections (g : Nat → Nat) (p : List Nat) (n k : Nat)
    (hv : validOctalCode p = true) (h0 : p.getD 0 0 = n) (hn : n < 254) (hk : k < 8) :
    ∃ c, childOctalCode g (some p) k = some c ∧ validOctalCode c = true
      ∧ c.getD 0 0 = n + 1
      ∧ ∀ i, i < n → getOctalCodeSectionValue c i = getOctalCodeSectionValue p i := by
  obtain ⟨c, hc, hvalid⟩ := child_valid g p n k hv h0 hn
  obtain ⟨c1, hc1, hnum, _⟩ := child_of_valid g p n k hv h0 hn hk
  obtain ⟨c2, hc2, hbits⟩ := child_keeps_bits g p n k hv h0 hn hk
  rw [hc] at hc1 hc2
  cases hc1
  cases hc2
  obtain ⟨m, hm0, hm, hmnum, hmlen, hmb, _⟩ := valid_facts c hvalid
  obtain ⟨n1, hn0, _, _, hlen, hb, _⟩ := valid_facts p hv
  have em : m = n + 1 := by
    rw [hnum] at hmnum
    have := Option.some.inj hmnum
    omega
  have en : n1 = n := by omega
  subst em en
  refine ⟨c, hc, hvalid, hm0, ?_⟩
  intro i hi
  rw [getSection_eq_bits c i hmb (by omega), getSection_eq_bits p i hb (by omega),
    hbits _ (by omega), hbits _ (by omega), hbits _ (by omega)]

theorem sectionBit_bounds (c : List Nat) (i b : Nat) :
    0 ≤ sectionBit c i b ∧ sectionBit c i b ≤ 1 := by
  unfold sectionBit
  refine ⟨Nat.cast_nonneg _, ?_⟩
  have h : (getOctalCodeSectionValue c i).getD 0 / 2 ^ b % 2 ≤ 1 := by omega
  exact_mod_cast h

/-- A sum of halving weights times bits stays, with the last weight added, within 1. -/
theorem cube_sum (b : Nat → ℚ) (hb0 : ∀ i, 0 ≤ b i) (hb1 : ∀ i, b i ≤ 1) (n : Nat) :
    0 ≤ Finset.sum (Finset.range n) (fun k => (1 / 2 : ℚ) ^ (k + 1) * b k)
      ∧ Finset.sum (Finset.range n) (fun k => (1 / 2 : ℚ) ^ (k + 1) * b k) + (1 / 2) ^ n
          ≤ 1 := by
  constructor
  · exact Finset.sum_nonneg (fun k _ => mul_nonneg (by positivity) (hb0 k))
  · induction n with
    | zero => simp
    | succ m ih =>
      rw [Finset.sum_range_succ]
      have hp : (0 : ℚ) < (1 / 2) ^ (m + 1) := by positivity
      have h2 : (1 / 2 : ℚ) ^ m = 2 * (1 / 2) ^ (m + 1) := by
        rw [pow_succ]
        ring
      have := hb1 m
      nlinarith

/-- The voxel of a valid code, as sums over its sections. -/
theorem voxelDetails_sums (C : List Nat) (n : Nat) (hC : validOctalCode C = true)
    (h0 : C.getD 0 0 = n) :
    voxelDetailsForCode (some C)
        = some { x := Finset.sum (Finset.range n) (fun i => (1 / 2) ^ (i + 1) * sectionBit C i 2)
                 y := Finset.sum (Finset.range n) (fun i => (1 / 2) ^ (i + 1) * sectionBit C i 1)
                 z := Finset.sum (Finset.range n) (fun i => (1 / 2) ^ (i + 1) * sectionBit C i 0)
                 s := (1 / 2) ^ n } := by
  obtain ⟨n1, hn0, _, hn1, hlen, hb, _⟩ := valid_facts C hC
  have e : n1 = n := by omega
  subst e
  have h := voxelDetailsLoop_spec C n1 0 0 0 0 1
    (fun k hk => by rw [Nat.zero_add]; exact valid_get C n1 k hb hlen hk)
  simp only [voxelDetailsForCode, hn1, Option.bind_eq_bind, Option.some_bind, Int.toNat_ofNat, h,
    Nat.zero_add, zero_add, one_mul]

/-- The voxel of a valid code lies in the unit cube. -/
theorem voxel_in_cube (C : List Nat) (hC : validOctalCode C = true) :
    ∃ v, voxelDetailsForCode (some C) = some v
      ∧ 0 ≤ v.x ∧ 0 ≤ v.y ∧ 0 ≤ v.z ∧ 0 < v.s ∧ v.s ≤ 1
      ∧ v.x + v.s ≤ 1 ∧ v.y + v.s ≤ 1 ∧ v.z + v.s ≤ 1 := by
  refine ⟨_, voxelDetails_sums C _ hC rfl, ?_⟩
  have hx := cube_sum (fun i => sectionBit C i 2) (fun i => (sectionBit_bounds C i 2).1)
    (fun i => (sectionBit_bounds C i 2).2) (C.getD 0 0)
  have hy := cube_sum (fun i => sectionBit C i 1) (fun i => (sectionBit_bounds C i 1).1)
    (fun i => (sectionBit_bounds C i 1).2) (C.getD 0 0)
  have hz := cube_sum (fun i => sectionBit C i 0) (fun i => (sectionBit_bounds C i 0).1)
    (fun i => (sectionBit_bounds C i 0).2) (C.getD 0 0)
  refine ⟨hx.1, hy.1, hz.1, by positivity, ?_, hx.2, hy.2, hz.2⟩
  exact pow_le_one₀ (by norm_num) (by norm_num)

/-- One axis of the containment: a further section moves the coordinate by its bit times the
halved size, which keeps the halved voxel inside. -/
theorem axis_contained (c p : List Nat) (n b : Nat)
    (hsec : ∀ i, i < n → getOctalCodeSectionValue c i = getOctalCodeSectionValue p i) :
    Finset.sum (Finset.range n) (fun i => (1 / 2 : ℚ) ^ (i + 1) * sectionBit p i b)
        ≤ Finset.sum (Finset.range (n + 1)) (fun i => (1 / 2 : ℚ) ^ (i + 1) * sectionBit c i b)
      ∧ Finset.sum (Finset.range (n + 1)) (fun i => (1 / 2 : ℚ) ^ (i + 1) * sectionBit c i b)
          + (1 / 2) ^ (n + 1)
        ≤ Finset.sum (Finset.range n) (fun i => (1 / 2 : ℚ) ^ (i + 1) * sectionBit p i b)
          + (1 / 2) ^ n := by
  have hsum : Finset.sum (Finset.range n) (fun i => (1 / 2 : ℚ) ^ (i + 1) * sectionBit c i b)
      = Finset.sum (Finset.range n) (fun i => (1 / 2 : ℚ) ^ (i + 1) * sectionBit p i b) := by
    refine Finset.sum_congr rfl (fun i hi => ?_)
    have hi1 : i < n := Finset.mem_range.mp hi
    simp only [sectionBit, hsec i hi1]
  rw [Finset.sum_range_succ, hsum]
  have hp : (0 : ℚ) < (1 / 2) ^ (n + 1) := by positivity
  have h2 : (1 / 2 : ℚ) ^ n = 2 * (1 / 2) ^ (n + 1) := by
    rw [pow_succ]
    ring
  obtain ⟨hb0, hb1⟩ := sectionBit_bounds c n b
  constructor <;> nlinarith

end UnitCube

/-! ## Chopping a rebased code -/

section ChopRebase

/-- The buffer of the rebased code: of the allocated length, with bytes only. -/
theorem rebase_buffer (g : Nat → Nat) (C P : List Nat) (incl : Bool)
    (hC : validOctalCode C = true) (hP : validOctalCode P = true)
    (hroom : incl = true ∨ 2 ≤ P.getD 0 0 + C.getD 0 0) :
    ∃ R, rebaseOctalCode g C P incl = some R
      ∧ R.length = P.getD 0 0 + C.getD 0 0 + (if incl = true then 3 else 0)
      ∧ ∀ m, R.getD m 0 < 256 := by
  obtain ⟨c, hc0, _, hcnum, hclen, hcb, _⟩ := valid_facts C hC
  obtain ⟨p, hp0, _, hpnum, hplen, hpb, _⟩ := valid_facts P hP
  rw [hc0, hp0] at hroom ⊢
  have hbuf : (((p : Int) + (c : Int))
      + (if incl = true then (SIZE_OF_COLOR_DATA : Int) else 0)).toNat
        = p + c + (if incl = true then 3 else 0) := by
    cases incl
    · simp only [Bool.false_eq_true, if_false]
      omega
    · simp only [if_true, SIZE_OF_COLOR_DATA]
      omega
  have htn : ((p : Int) + (c : Int)).toNat = p + c := by omega
  have hfit : 1 + (3 * (p + c) + 7) / 8 ≤ p + c + (if incl = true then 3 else 0) := by
    cases incl
    · simp only [Bool.false_eq_true, if_false, false_or] at hroom ⊢
      omega
    · simp only [if_true]
      omega
  simp only [rebaseOctalCode, hcnum, hpnum, Option.bind_eq_bind, Option.some_bind, hbuf, htn,
    Int.toNat_ofNat]
  generalize p + c + (if incl = true then 3 else 0) = len at hfit
  rw [writeByte_of_lt _ 0 _ (by rw [length_newBuffer]; omega)]
  simp only [Option.some_bind]
  obtain ⟨B1, hcp1, hl1, hb1, _⟩ := copySections_spec P p 0 0
    ((newBuffer g len).set 0 ((p + c) % 256))
    (fun j hj => by rw [Nat.zero_add]; exact valid_get P p j hpb hplen hj)
    (fun n => getD_set_lt _ _ n _ (Nat.mod_lt _ (by norm_num)) (getD_newBuffer_lt g len))
    (fun _ => by rw [List.length_set, length_newBuffer]; omega)
  rw [List.length_set, length_newBuffer] at hl1
  obtain ⟨B2, hcp2, hl2, hb2, _⟩ := copySections_spec C c 0 p B1
    (fun j hj => by rw [Nat.zero_add]; exact valid_get C c j hcb hclen hj) hb1
    (fun _ => by rw [hl1]; omega)
  refine ⟨B2, ?_, by rw [hl2, hl1], hb2⟩
  rw [hcp1]
  exact hcp2

/-- Chopping a buffer that holds `n` sections under the length byte `n`, whatever its unused
bits are: fewer levels than `n` leave the remaining sections under their count. -/
theorem chop_of_facts (g : Nat → Nat) (C : List Nat) (n levels : Nat) (h0 : C.getD 0 0 = n)
    (hn : n < 255) (hlen : 1 + (3 * n + 7) / 8 ≤ C.length) (hb : ∀ m, C.getD m 0 < 256)
    (hlv : levels < n) :
    ∃ R, chopOctalCode g C levels = some (some R)
      ∧ numberOfThreeBitSectionsInCode R UNKNOWN_OCTCODE_LENGTH
          = some (((n - levels : Nat)) : Int)
      ∧ ∀ j, j < n - levels →
          getOctalCodeSectionValue R j = getOctalCodeSectionValue C (levels + j) := by
  have hnum := numberOf_of_head C n (by omega) h0 (by omega)
  obtain ⟨m, hm⟩ : ∃ m, n = levels + (m + 1) := ⟨n - levels - 1, by omega⟩
  subst hm
  have e1 : ((((levels + (m + 1) : Nat)) : Int) - (levels : Int) + 1).toNat = m + 2 := by omega
  have e2 : ((((levels + (m + 1) : Nat)) : Int) - (levels : Int)).toNat = m + 1 := by omega
  have e3 : levels + (m + 1) - levels = m + 1 := by omega
  have hgt : (((levels + (m + 1) : Nat)) : Int) > (levels : Int) := by omega
  simp only [chopOctalCode, hnum, Option.bind_eq_bind, Option.some_bind, hgt, if_true, e1, e2, e3]
  rw [writeByte_of_lt _ 0 _ (by rw [length_newBuffer]; omega),
    Nat.mod_eq_of_lt (show m + 1 < 256 by omega)]
  simp only [Option.some_bind]
  obtain ⟨B1, hcp, hl1, _, h01, _, hget⟩ := copySections_spec C (m + 1) levels 0
    ((newBuffer g (m + 2)).set 0 (m + 1))
    (fun j hj => valid_get C _ (levels + j) hb hlen (by omega))
    (fun k => getD_set_lt _ _ k _ (by omega) (getD_newBuffer_lt g (m + 2)))
    (fun _ => by rw [List.length_set, length_newBuffer]; omega)
  rw [List.length_set, length_newBuffer] at hl1
  rw [getD_set_self _ _ _ (by rw [length_newBuffer]; omega)] at h01
  refine ⟨B1, ?_, numberOf_of_head B1 (m + 1) (by omega) h01 (by omega), ?_⟩
  · rw [hcp]
    rfl
  · intro j hj
    have h := hget j hj
    rwa [Nat.zero_add] at h

/-- Chopping as many levels as the length byte counts, or more, yields the null pointer. -/
theorem chop_null_of_head (g : Nat → Nat) (C : List Nat) (n levels : Nat)
    (h0 : C.getD 0 0 = n) (hn : n < 255) (hlen : 0 < C.length) (hlv : n ≤ levels) :
    chopOctalCode g C levels = some none := by
  have hnum := numberOf_of_head C n hlen h0 (by omega)
  have hgt : ¬ ((n : Int) > (levels : Int)) := by omega
  simp only [chopOctalCode, hnum, Option.bind_eq_bind, Option.some_bind, hgt, if_false]

/-- Chop undoes rebase wherever the rebased code fits its allocation: for valid codes `P` and
`C`, `C` of at least one section, whose section counts total at least 2 and at most 254,
chopping the sections of `P` off the code `C` rebased under `P` without colour space gives a
code with the section count and the sections of `C`. -/
theorem chop_undoes_rebase (g1 g2 : Nat → Nat) (C P : List Nat)
    (hC : validOctalCode C = true) (hP : validOctalCode P = true) (hc : 1 ≤ C.getD 0 0)
    (htot : P.getD 0 0 + C.getD 0 0 ≤ 254) (hroom : 2 ≤ P.getD 0 0 + C.getD 0 0) :
    ∃ R R1, rebaseOctalCode g1 C P false = some R
      ∧ chopOctalCode g2 R (P.getD 0 0) = some (some R1)
      ∧ numberOfThreeBitSectionsInCode R1 UNKNOWN_OCTCODE_LENGTH
          = numberOfThreeBitSectionsInCode C UNKNOWN_OCTCODE_LENGTH
      ∧ ∀ j, j < C.getD 0 0 →
          getOctalCodeSectionValue R1 j = getOctalCodeSectionValue C j := by
  obtain ⟨R, hR, _, hR0, _, hsec⟩ := rebase_spec g1 C P false hC hP (Or.inr hroom)
  obtain ⟨R2, hR2, hlen, hb⟩ := rebase_buffer g1 C P false hC hP (Or.inr hroom)
  rw [hR] at hR2
  cases hR2
  rw [Nat.mod_eq_of_lt (by omega)] at hR0
  simp only [Bool.false_eq_true, if_false, Nat.add_zero] at hlen
  obtain ⟨R1, hchop, hnum, hget⟩ := chop_of_facts g2 R _ (P.getD 0 0) hR0 (by omega)
    (by rw [hlen]; omega) hb (by omega)
  obtain ⟨c, hc0, _, hcnum, _⟩ := valid_facts C hC
  refine ⟨R, R1, hR, hchop, ?_, ?_⟩
  · rw [hnum, hcnum, hc0]
    congr 2
    omega
  · intro j hj
    obtain ⟨v, hv, hv1⟩ := hsec j hj
    rw [hget j (by omega), hv, hv1]

/-- Chopping the sections of `P` off the root code rebased under `P` gives the null pointer,
for a valid `P` of at least two sections, where the rebased code fits its allocation. -/
theorem chop_rebased_root (g1 g2 : Nat → Nat) (C P : List Nat)
    (hC : validOctalCode C = true) (hP : validOctalCode P = true) (hc : C.getD 0 0 = 0)
    (hroom : 2 ≤ P.getD 0 0) :
    ∃ R, rebaseOctalCode g1 C P false = some R
      ∧ chopOctalCode g2 R (P.getD 0 0) = some none := by
  obtain ⟨p, hp0, hp, _⟩ := valid_facts P hP
  obtain ⟨R, hR, hlen, hR0, _⟩ := rebase_spec g1 C P false hC hP (Or.inr (by omega))
  rw [hc, Nat.add_zero, Nat.mod_eq_of_lt (by omega)] at hR0
  exact ⟨R, hR, chop_null_of_head g2 R _ _ hR0 (by omega) hlen (Nat.le_refl _)⟩

end ChopRebase

/-! ## The claims -/

theorem child_of_null (g : Nat → Nat) (k : Nat) (hk : k < 8) :
    childOctalCode g none k = some [1, k * 32] := by
  have h : k * 32 % 256 = k * 32 := Nat.mod_eq_of_lt (by omega)
  simp [childOctalCode, bytesRequiredForCodeLength, newBuffer, writeByte, readByte,
    List.range_succ, Nat.shiftLeft_eq, h]

/-- C1 (amended): for a parent that is null (the root) or a valid code of fewer than 254
three-bit sections, and a child number `k < 8`, `childOctalCode` returns a code whose count is
one more than the parent's and whose section at index `length(P)` is `k`; and
`childOctalCode(null, 3)` is the byte string `[0x01, 0x60]`. -/
theorem C1_childOctalCode (garbage : Nat → Nat) (P : Option (List Nat)) (N k : Nat)
    (hvalid : ∀ p, P = some p → validOctalCode p = true
      ∧ numberOfThreeBitSectionsInCode p UNKNOWN_OCTCODE_LENGTH = some (N : Int))
    (hroot : P = none → N = 0) (hN : N < 254) (hk : k < 8) :
    (∃ c, childOctalCode garbage P k = some c
        ∧ numberOfThreeBitSectionsInCode c UNKNOWN_OCTCODE_LENGTH = some ((N : Int) + 1)
        ∧ getOctalCodeSectionValue c N = some k)
      ∧ childOctalCode garbage none 3 = some [0x01, 0x60] := by
  refine ⟨?_, child_of_null garbage 3 (by norm_num)⟩
  cases P with
  | none =>
    rw [hroot rfl, child_of_null garbage k hk]
    refine ⟨_, rfl, ?_, ?_⟩
    · simp [numberOfThreeBitSectionsInCode, UNKNOWN_OCTCODE_LENGTH, OVERFLOWED_OCTCODE_BUFFER]
    · rw [getSection_single _ 0 (by norm_num) (by simp)]
      simp
      omega
  | some p =>
    obtain ⟨hv, hnum⟩ := hvalid p rfl
    obtain ⟨n, h0, _, hnum1, _⟩ := valid_facts p hv
    rw [hnum] at hnum1
    have hnN : n = N := by
      have := Option.some.inj hnum1
      omega
    subst hnN
    exact child_of_valid garbage p n k hv h0 hN hk

/-- Witness of C1: the child 7 of the two-section code `[0x02, 0x74]`; its section starts at
bit 6 and straddles two bytes. -/
theorem C1_childOctalCode_witness :
    (∃ c, childOctalCode (fun _ => 0xAA) (some [0x02, 0x74]) 7 = some c
        ∧ numberOfThreeBitSectionsInCode c UNKNOWN_OCTCODE_LENGTH = some ((2 : Int) + 1)
        ∧ getOctalCodeSectionValue c 2 = some 7)
      ∧ childOctalCode (fun _ => 0xAA) none 3 = some [0x01, 0x60] :=
  C1_childOctalCode (fun _ => 0xAA) (some [0x02, 0x74]) 2 7
    (by intro p hp; cases hp; decide) (by intro h; cases h) (by decide) (by decide)

set_option maxRecDepth 100000 in
/-- Counterexample to C1 as stated: the parent is a valid code of 254 sections, the first of
them being 1; `childOctalCode` writes 255 into the length byte of the child, which
`numberOfThreeBitSectionsInCode` reads as the extension marker, so the section count it
reports for the child is 255 + 0x20 = 287 and not 254 + 1. -/
theorem C1_counterexample :
    validOctalCode (254 :: 0x20 :: List.replicate 95 0) = true
      ∧ numberOfThreeBitSectionsInCode (254 :: 0x20 :: List.replicate 95 0)
          UNKNOWN_OCTCODE_LENGTH = some 254
      ∧ ∃ c, childOctalCode (fun _ => 0) (some (254 :: 0x20 :: List.replicate 95 0)) 0 = some c
          ∧ numberOfThreeBitSectionsInCode c UNKNOWN_OCTCODE_LENGTH = some 287
          ∧ numberOfThreeBitSectionsInCode c UNKNOWN_OCTCODE_LENGTH ≠ some (254 + 1) := by
  refine ⟨by decide, by decide, 255 :: 0x20 :: List.replicate 95 0, by decide, by decide,
    by decide⟩

/-- C2: in a buffer of bytes that holds `N` sections, writing a value `v < 8` into section
`i < N` with `setOctalCodeSectionValue` succeeds, `getOctalCodeSectionValue` then reads `v`
at section `i`, and every other section `j < N` reads the value it had before (sections
that straddle two bytes included). -/
theorem C2_set_then_get (c : List Nat) (N i v : Nat) (hbytes : ∀ b ∈ c, b < 256)
    (hlen : 1 + (3 * N + 7) / 8 ≤ c.length) (hi : i < N) (hv : v < 8) :
    ∃ c1, setOctalCodeSectionValue c i v = some c1
      ∧ getOctalCodeSectionValue c1 i = some v
      ∧ ∀ j, j < N → j ≠ i →
          ∃ w, getOctalCodeSectionValue c j = some w ∧ getOctalCodeSectionValue c1 j = some w := by
  have hb := getD_lt_of_forall c hbytes
  obtain ⟨c1, hset, _, _, _, _, hget, hother⟩ := setSection_get c i v hb (by omega) hv
  refine ⟨c1, hset, hget, ?_⟩
  intro j hj hne
  have hjl : 1 + (3 * j + 2) / 8 < c.length := by omega
  refine ⟨_, getSection_eq_bits c j hb hjl, ?_⟩
  rw [hother j hne hjl]
  exact getSection_eq_bits c j hb hjl

/-- Witness of C2: section 2 of a three-section buffer starts at bit 6 and straddles bytes 1
and 2. -/
theorem C2_set_then_get_witness :
    ∃ c1, setOctalCodeSectionValue [3, 0xFF, 0xFF] 2 0 = some c1
      ∧ getOctalCodeSectionValue c1 2 = some 0
      ∧ ∀ j, j < 3 → j ≠ 2 →
          ∃ w, getOctalCodeSectionValue [3, 0xFF, 0xFF] j = some w
            ∧ getOctalCodeSectionValue c1 j = some w :=
  C2_set_then_get [3, 0xFF, 0xFF] 3 2 0 (by decide) (by decide) (by decide) (by decide)

/-- C3: for non-null valid codes `A` and `D`, `isAncestorOf(A, D, CHECK_NODE_ONLY)` returns,
and it returns true exactly when `length(A) ≤ length(D)` and every section `i < length(A)`
of `A` equals section `i` of `D`; `[0x01, 0x00]` is an ancestor of `[0x02, 0x00]` and not
vice versa. -/
theorem C3_isAncestorOf_iff (A D : List Nat) (a d : Nat) (hA : validOctalCode A = true)
    (hD : validOctalCode D = true)
    (ha : numberOfThreeBitSectionsInCode A UNKNOWN_OCTCODE_LENGTH = some (a : Int))
    (hd : numberOfThreeBitSectionsInCode D UNKNOWN_OCTCODE_LENGTH = some (d : Int)) :
    (∃ b, isAncestorOf (some A) (some D) CHECK_NODE_ONLY = some b
        ∧ (b = true ↔ (a ≤ d ∧ ∀ i, i < a →
            getOctalCodeSectionValue A i = getOctalCodeSectionValue D i)))
      ∧ isAncestorOf (some [0x01, 0x00]) (some [0x02, 0x00]) CHECK_NODE_ONLY = some true
      ∧ isAncestorOf (some [0x02, 0x00]) (some [0x01, 0x00]) CHECK_NODE_ONLY = some false := by
  refine ⟨?_, by decide, by decide⟩
  obtain ⟨a1, ha0, _, ha1, _⟩ := valid_facts A hA
  obtain ⟨d1, hd0, _, hd1, _⟩ := valid_facts D hD
  have e1 : a1 = a := by
    rw [ha] at ha1
    have := Option.some.inj ha1
    omega
  have e2 : d1 = d := by
    rw [hd] at hd1
    have := Option.some.inj hd1
    omega
  subst e1 e2
  have h := isAncestorOf_of_valid A D hA hD
  rw [ha0, hd0] at h
  exact h

/-- Witness of C3: the one-section code `[0x01, 0x60]` against the two-section code
`[0x02, 0x74]`, which extends it. -/
theorem C3_isAncestorOf_iff_witness :
    (∃ b, isAncestorOf (some [0x01, 0x60]) (some [0x02, 0x74]) CHECK_NODE_ONLY = some b
        ∧ (b = true ↔ (1 ≤ 2 ∧ ∀ i, i < 1 →
            getOctalCodeSectionValue [0x01, 0x60] i = getOctalCodeSectionValue [0x02, 0x74] i)))
      ∧ isAncestorOf (some [0x01, 0x00]) (some [0x02, 0x00]) CHECK_NODE_ONLY = some true
      ∧ isAncestorOf (some [0x02, 0x00]) (some [0x01, 0x00]) CHECK_NODE_ONLY = some false :=
  C3_isAncestorOf_iff [0x01, 0x60] [0x02, 0x74] 1 2 (by decide) (by decide) (by decide)
    (by decide)

/-- C4 (amended): starting from a fresh sender with a limit `_maxPacketSize = MAX ≥ 0`, after
any sequence of calls in which every message queued with `queueVoxelEditMessage` fits in a
packet of its own (header size plus payload length at most `MAX`), every per-server buffer
of `_pendingEditPackets` has `_currentSize ≤ _maxPacketSize`; and the sequence of calls
returns whenever the jurisdiction table is set in the calls that read it. -/
theorem C4_batching_fits (MAX D : Int) (hdr : PACKET_TYPE → List Nat)
    (calls : List (Env × Call)) (hMAX : 0 ≤ MAX)
    (henv : ∀ ec ∈ calls, ec.1.populateTypeAndVersion = hdr)
    (hfit : ∀ env t code, (env, Call.queueVoxelEditMessage t code) ∈ calls →
      (((hdr t).length + 2 + 8 + code.length : Nat) : Int) ≤ MAX) :
    (∀ s1, run (fresh MAX D) calls = some s1 →
        s1._maxPacketSize = MAX
          ∧ ∀ p ∈ s1._pendingEditPackets, (p.2._currentSize : Int) ≤ s1._maxPacketSize)
      ∧ ((∀ ec ∈ calls, usesTable ec.2 = true → ec.1.jurisdictions.isSome = true) →
          ∃ s1, run (fresh MAX D) calls = some s1) := by
  refine ⟨?_, run_returns calls _⟩
  intro s1 hrun
  have hinv : BufferInv MAX (fun b => (b._currentSize : Int) ≤ MAX)
      (fun t code => (((hdr t).length + 2 + 8 + code.length : Nat) : Int) ≤ MAX) s1 := by
    refine run_invariant _ calls (fresh MAX D) s1 ?_ ?_ hrun
    · intro ec hec a a1 ha hs
      obtain ⟨env, call⟩ := ec
      refine binv_step env MAX _ _ ?_ ?_ ?_ call ?_ a a1 ha hs
      · intro b b1 h1 _ hb
        rw [h1]
        exact hb
      · exact hMAX
      · intro s pb t code hs hR hQ
        have he : env.populateTypeAndVersion = hdr := henv (env, call) hec
        obtain ⟨h1, h2⟩ := append_size_type env s pb t code
        by_cases hc : (t ≠ pb._currentType ∧ pb._currentSize > 0)
            ∨ ((pb._currentSize : Int) + (code.length : Int) ≥ s._maxPacketSize)
            ∨ (t ≠ pb._currentType ∧ pb._currentSize = 0)
        · show ((appendToPacketBuffer env s pb t code).2._currentSize : Int) ≤ MAX
          rw [(h1 hc).1]
          simp only [headerSize, he]
          exact hR
        · show ((appendToPacketBuffer env s pb t code).2._currentSize : Int) ≤ MAX
          rw [(h2 hc).1]
          have hlt : ¬ ((pb._currentSize : Int) + (code.length : Int) ≥ s._maxPacketSize) :=
            fun h => hc (Or.inr (Or.inl h))
          rw [hs] at hlt
          push_cast
          omega
      · cases call with
        | queueVoxelEditMessage t c => exact hfit env t c hec
        | sendVoxelEditMessage t e => trivial
        | releaseQueuedMessages => trivial
        | process => trivial
    · refine ⟨rfl, ?_, ?_⟩
      · intro p hp
        simp [fresh] at hp
      · intro p hp
        simp [fresh] at hp
  refine ⟨hinv.1, ?_⟩
  intro p hp
  rw [hinv.1]
  exact hinv.2.1 p hp

/-- Witness of C4: two messages of three bytes, of two types, queued for one server under a
limit of 1500 bytes. -/
theorem C4_batching_fits_witness :
    (∀ s1, run (fresh 1500 60)
          [(oneServerEnv, Call.queueVoxelEditMessage 83 [1, 2, 3]),
            (oneServerEnv, Call.queueVoxelEditMessage 69 [4, 5, 6])] = some s1 →
        s1._maxPacketSize = 1500
          ∧ ∀ p ∈ s1._pendingEditPackets, (p.2._currentSize : Int) ≤ s1._maxPacketSize)
      ∧ ((∀ ec ∈ [(oneServerEnv, Call.queueVoxelEditMessage 83 [1, 2, 3]),
            (oneServerEnv, Call.queueVoxelEditMessage 69 [4, 5, 6])],
            usesTable ec.2 = true → ec.1.jurisdictions.isSome = true) →
          ∃ s1, run (fresh 1500 60)
            [(oneServerEnv, Call.queueVoxelEditMessage 83 [1, 2, 3]),
              (oneServerEnv, Call.queueVoxelEditMessage 69 [4, 5, 6])] = some s1) :=
  C4_batching_fits 1500 60 (fun type => [type, 1])
    [(oneServerEnv, Call.queueVoxelEditMessage 83 [1, 2, 3]),
      (oneServerEnv, Call.queueVoxelEditMessage 69 [4, 5, 6])]
    (by decide)
    (by
      intro ec hec
      simp only [List.mem_cons, List.mem_singleton, List.not_mem_nil, or_false] at hec
      rcases hec with h | h <;> rw [h] <;> rfl)
    (by
      intro env t code h
      simp only [List.mem_cons, List.mem_singleton, List.not_mem_nil, or_false, Prod.mk.injEq,
        Call.queueVoxelEditMessage.injEq] at h
      rcases h with ⟨_, rfl, rfl⟩ | ⟨_, rfl, rfl⟩ <;> decide)

set_option maxRecDepth 100000 in
/-- Counterexample to C4 as stated: a fresh sender of buffers of 1500 bytes whose limit is
set to 30, one known server, and one `queueVoxelEditMessage` call with a payload of 30
bytes.  As 0 + 30 reaches the limit, the buffer is released (it is empty, nothing is handed
over) and initialised (12 bytes of header), and the payload is appended without a further
test: `_currentSize` is 42, above `_maxPacketSize`, and the 42 bytes written are well inside
the 1500 bytes of the buffer.  The capacity does not appear in the state of the sender, so
this sender is the state `fresh 30 60`. -/
theorem C4_counterexample :
    (run (setMaxPacketSize (fresh 1500 60) 30)
        [(oneServerEnv, Call.queueVoxelEditMessage 83 (List.replicate 30 0))]).map
      (fun s => (s._maxPacketSize,
        s._pendingEditPackets.map (fun p => (p.2._currentSize, p.2._currentBuffer.length))))
      = some (30, [(42, 42)])
      ∧ setMaxPacketSize (fresh 1500 60) 30 = fresh 30 60 := by
  refine ⟨by decide, rfl⟩

/-- C8 (amended): for valid codes `C` and `P` whose section counts total at most 254, when
the buffer that `rebaseOctalCode` allocates holds the rebased code (colour space included,
or at least two sections in total), the result `R` has section count
`length(C) + length(P)`, its sections `i < length(P)` are those of `P`, and its sections
`length(P) + j`, `j < length(C)`, are those of `C`. -/
theorem C8_rebaseOctalCode (garbage : Nat → Nat) (C P : List Nat) (includeColorSpace : Bool)
    (c p : Nat) (hC : validOctalCode C = true) (hP : validOctalCode P = true)
    (hc : numberOfThreeBitSectionsInCode C UNKNOWN_OCTCODE_LENGTH = some (c : Int))
    (hp : numberOfThreeBitSectionsInCode P UNKNOWN_OCTCODE_LENGTH = some (p : Int))
    (htotal : p + c ≤ 254) (hroom : includeColorSpace = true ∨ 2 ≤ p + c) :
    ∃ R, rebaseOctalCode garbage C P includeColorSpace = some R
      ∧ numberOfThreeBitSectionsInCode R UNKNOWN_OCTCODE_LENGTH = some (((c + p : Nat)) : Int)
      ∧ (∀ i, i < p → ∃ v, getOctalCodeSectionValue P i = some v
            ∧ getOctalCodeSectionValue R i = some v)
      ∧ ∀ j, j < c → ∃ v, getOctalCodeSectionValue C j = some v
            ∧ getOctalCodeSectionValue R (p + j) = some v := by
  obtain ⟨c1, hc0, _, hc1, _⟩ := valid_facts C hC
  obtain ⟨p1, hp0, _, hp1, _⟩ := valid_facts P hP
  have e1 : c1 = c := by
    rw [hc] at hc1
    have := Option.some.inj hc1
    omega
  have e2 : p1 = p := by
    rw [hp] at hp1
    have := Option.some.inj hp1
    omega
  subst e1 e2
  have h := rebase_of_valid garbage C P includeColorSpace hC hP (by rw [hc0, hp0]; exact htotal)
    (by rw [hc0, hp0]; exact hroom)
  rw [hc0, hp0] at h
  exact h

/-- Witness of C8: the two-section code `[0x02, 0xA8]` rebased under the three-section code
`[0x03, 0x77, 0x80]`, without colour space. -/
theorem C8_rebaseOctalCode_witness :
    ∃ R, rebaseOctalCode (fun _ => 0xAA) [0x02, 0xA8] [0x03, 0x77, 0x80] false = some R
      ∧ numberOfThreeBitSectionsInCode R UNKNOWN_OCTCODE_LENGTH = some (((2 + 3 : Nat)) : Int)
      ∧ (∀ i, i < 3 → ∃ v, getOctalCodeSectionValue [0x03, 0x77, 0x80] i = some v
            ∧ getOctalCodeSectionValue R i = some v)
      ∧ ∀ j, j < 2 → ∃ v, getOctalCodeSectionValue [0x02, 0xA8] j = some v
            ∧ getOctalCodeSectionValue R (3 + j) = some v :=
  C8_rebaseOctalCode (fun _ => 0xAA) [0x02, 0xA8] [0x03, 0x77, 0x80] false 2 3 (by decide)
    (by decide) (by decide) (by decide) (by decide) (by decide)

/-- Counterexample to C8 as stated: a valid code of 200 sections rebased under a valid code
of 100 sections.  The length byte of the result is 300 modulo 256, so the section count
that `numberOfThreeBitSectionsInCode` reports for the result is 44 and not 300. -/
theorem C8_counterexample :
    validOctalCode (200 :: List.replicate 75 0) = true
      ∧ validOctalCode (100 :: List.replicate 38 0) = true
      ∧ numberOfThreeBitSectionsInCode (200 :: List.replicate 75 0) UNKNOWN_OCTCODE_LENGTH
          = some 200
      ∧ numberOfThreeBitSectionsInCode (100 :: List.replicate 38 0) UNKNOWN_OCTCODE_LENGTH
          = some 100
      ∧ ∃ R, rebaseOctalCode (fun _ => 0) (200 :: List.replicate 75 0)
            (100 :: List.replicate 38 0) false = some R
          ∧ numberOfThreeBitSectionsInCode R UNKNOWN_OCTCODE_LENGTH = some 44
          ∧ numberOfThreeBitSectionsInCode R UNKNOWN_OCTCODE_LENGTH ≠ some (200 + 100) := by
  have hC : validOctalCode (200 :: List.replicate 75 0) = true := by decide
  have hP : validOctalCode (100 :: List.replicate 38 0) = true := by decide
  obtain ⟨R, hR, hlen, h0, _⟩ := rebase_spec (fun _ => 0) (200 :: List.replicate 75 0)
    (100 :: List.replicate 38 0) false hC hP (Or.inr (by decide))
  have hnum : numberOfThreeBitSectionsInCode R UNKNOWN_OCTCODE_LENGTH = some 44 :=
    numberOf_of_head R 44 hlen h0 (by decide)
  refine ⟨hC, hP, by decide, by decide, R, hR, hnum, ?_⟩
  rw [hnum]
  decide

/-- C9: for every well-formed code `C`, `octalCodeToHexString` returns a string on which
`hexStringToOctalCode` returns the first `bytesRequiredForCodeLength(length(C))` bytes of
`C`; `[0x02, 0xA8]` renders as "02A8" and "02A8" parses back to `[0x02, 0xA8]`. -/
theorem C9_hex_round_trip (garbage : Nat → Nat) (C : List Nat) (n : Nat)
    (hC : validOctalCode C = true)
    (hn : numberOfThreeBitSectionsInCode C UNKNOWN_OCTCODE_LENGTH = some (n : Int)) :
    (∃ s, octalCodeToHexString (some C) = some s
        ∧ hexStringToOctalCode garbage s = some (some (C.take (bytesRequiredForCodeLength n))))
      ∧ octalCodeToHexString (some [0x02, 0xA8]) = some ['0', '2', 'A', '8']
      ∧ hexStringToOctalCode garbage ['0', '2', 'A', '8'] = some (some [0x02, 0xA8]) := by
  obtain ⟨n1, h0, _, hn1, _⟩ := valid_facts C hC
  have e1 : n1 = n := by
    rw [hn] at hn1
    have := Option.some.inj hn1
    omega
  subst e1
  refine ⟨?_, by decide, ?_⟩
  · have h := hex_roundtrip garbage C hC
    rw [h0] at h
    exact h
  · obtain ⟨s, hs1, hs2⟩ := hex_roundtrip garbage [0x02, 0xA8] (by decide)
    have hs : s = ['0', '2', 'A', '8'] := by
      have : octalCodeToHexString (some [0x02, 0xA8]) = some ['0', '2', 'A', '8'] := by decide
      rw [this] at hs1
      exact (Option.some.inj hs1).symm
    rw [hs] at hs2
    exact hs2

/-- Witness of C9: the three-section code `[0x03, 0x77, 0x80]`. -/
theorem C9_hex_round_trip_witness :
    (∃ s, octalCodeToHexString (some [0x03, 0x77, 0x80]) = some s
        ∧ hexStringToOctalCode (fun _ => 0xAA) s
            = some (some ([0x03, 0x77, 0x80].take (bytesRequiredForCodeLength 3))))
      ∧ octalCodeToHexString (some [0x02, 0xA8]) = some ['0', '2', 'A', '8']
      ∧ hexStringToOctalCode (fun _ => 0xAA) ['0', '2', 'A', '8'] = some (some [0x02, 0xA8]) :=
  C9_hex_round_trip (fun _ => 0xAA) [0x03, 0x77, 0x80] 3 (by decide) (by decide)

open OctalCodeComparison in
/-- C10: for non-null valid codes `A` and `B`, `compareOctalCodes(A, B)` and
`compareOctalCodes(B, A)` both return, one is `EXACT_MATCH` iff the other is, one is
`LESS_THAN` iff the other is `GREATER_THAN`, and neither is `ILLEGAL_CODE`. -/
theorem C10_compare_opposite (A B : List Nat) (hA : validOctalCode A = true)
    (hB : validOctalCode B = true) :
    ∃ r s, compareOctalCodes (some A) (some B) = some r
      ∧ compareOctalCodes (some B) (some A) = some s
      ∧ (r = EXACT_MATCH ↔ s = EXACT_MATCH) ∧ (r = LESS_THAN ↔ s = GREATER_THAN)
      ∧ (r = GREATER_THAN ↔ s = LESS_THAN) ∧ r ≠ ILLEGAL_CODE ∧ s ≠ ILLEGAL_CODE :=
  compare_of_valid A B hA hB

open OctalCodeComparison in
/-- Witness of C10: a two-section code against a three-section code that extends it. -/
theorem C10_compare_opposite_witness :
    ∃ r s, compareOctalCodes (some [0x02, 0xA8]) (some [0x03, 0xA8, 0x00]) = some r
      ∧ compareOctalCodes (some [0x03, 0xA8, 0x00]) (some [0x02, 0xA8]) = some s
      ∧ (r = EXACT_MATCH ↔ s = EXACT_MATCH) ∧ (r = LESS_THAN ↔ s = GREATER_THAN)
      ∧ (r = GREATER_THAN ↔ s = LESS_THAN) ∧ r ≠ ILLEGAL_CODE ∧ s ≠ ILLEGAL_CODE :=
  C10_compare_opposite [0x02, 0xA8] [0x03, 0xA8, 0x00] (by decide) (by decide)

/-- C11: ancestry is transitive: for non-null valid codes `A`, `B` and `C`, if
`isAncestorOf(A, B, CHECK_NODE_ONLY)` and `isAncestorOf(B, C, CHECK_NODE_ONLY)` are true,
then so is `isAncestorOf(A, C, CHECK_NODE_ONLY)`. -/
theorem C11_isAncestorOf_transitive (A B C : List Nat) (hA : validOctalCode A = true)
    (hB : validOctalCode B = true) (hC : validOctalCode C = true)
    (hAB : isAncestorOf (some A) (some B) CHECK_NODE_ONLY = some true)
    (hBC : isAncestorOf (some B) (some C) CHECK_NODE_ONLY = some true) :
    isAncestorOf (some A) (some C) CHECK_NODE_ONLY = some true := by
  obtain ⟨b1, e1, i1⟩ := isAncestorOf_of_valid A B hA hB
  obtain ⟨b2, e2, i2⟩ := isAncestorOf_of_valid B C hB hC
  obtain ⟨b3, e3, i3⟩ := isAncestorOf_of_valid A C hA hC
  rw [hAB] at e1
  rw [hBC] at e2
  obtain ⟨l1, s1⟩ := i1.1 (Option.some.inj e1).symm
  obtain ⟨l2, s2⟩ := i2.1 (Option.some.inj e2).symm
  rw [e3, i3.2 ⟨le_trans l1 l2, fun i hi => (s1 i hi).trans (s2 i (by omega))⟩]

/-- Witness of C11: the codes of the paths 3, then 3-5, then 3-5-1. -/
theorem C11_isAncestorOf_transitive_witness :
    isAncestorOf (some [0x01, 0x60]) (some [0x03, 0x74, 0x80]) CHECK_NODE_ONLY = some true :=
  C11_isAncestorOf_transitive [0x01, 0x60] [0x02, 0x74] [0x03, 0x74, 0x80] (by decide)
    (by decide) (by decide) (by decide) (by decide)

/-- C12: ancestry is reflexive and the root is its least element: for every non-null valid
code `A`, `isAncestorOf(A, A, CHECK_NODE_ONLY)` is true, and for every non-null code `X`,
`isAncestorOf(root, X, CHECK_NODE_ONLY)` is true, `root` being the one-byte code `[0x00]`. -/
theorem C12_isAncestorOf_reflexive_root (A X : List Nat) (hA : validOctalCode A = true) :
    isAncestorOf (some A) (some A) CHECK_NODE_ONLY = some true
      ∧ isAncestorOf (some [0x00]) (some X) CHECK_NODE_ONLY = some true := by
  constructor
  · obtain ⟨b, e, i⟩ := isAncestorOf_of_valid A A hA hA
    rw [e, i.2 ⟨le_refl _, fun _ _ => rfl⟩]
  · rfl

/-- Witness of C12: the code of the path 3-5, and a buffer `X` that is no valid code. -/
theorem C12_isAncestorOf_reflexive_root_witness :
    isAncestorOf (some [0x02, 0x74]) (some [0x02, 0x74]) CHECK_NODE_ONLY = some true
      ∧ isAncestorOf (some [0x00]) (some [0x09]) CHECK_NODE_ONLY = some true :=
  C12_isAncestorOf_reflexive_root [0x02, 0x74] [0x09] (by decide)

/-- C13, the code at failing inputs.  `A = [0x02, 0x0C]` is the path 0-3 and
`D = [0x01, 0x00]` the path 0, so `A` is `D` extended by the child 3; yet
`isAncestorOf(A, D, 3)` is false.  And `A = [0x02, 0x00]`, the path 0-0, is not `D` extended
by the child 3; yet `isAncestorOf(A, D, 3)` is true.  The loop compares the last section of
`A` with the padding bits after the last section of `D`, not with the child number. -/
theorem C13_trailing_child_not_compared :
    validOctalCode [0x02, 0x0C] = true ∧ validOctalCode [0x01, 0x00] = true
      ∧ numberOfThreeBitSectionsInCode [0x02, 0x0C] UNKNOWN_OCTCODE_LENGTH = some 2
      ∧ numberOfThreeBitSectionsInCode [0x01, 0x00] UNKNOWN_OCTCODE_LENGTH = some 1
      ∧ getOctalCodeSectionValue [0x02, 0x0C] 0 = getOctalCodeSectionValue [0x01, 0x00] 0
      ∧ getOctalCodeSectionValue [0x02, 0x0C] 1 = some 3
      ∧ isAncestorOf (some [0x02, 0x0C]) (some [0x01, 0x00]) 3 = some false
      ∧ isAncestorOf (some [0x02, 0x00]) (some [0x01, 0x00]) 3 = some true := by
  decide

/-- C14: ancestors sort before descendants: for non-null valid codes `A` and `B` such that the
sections of `A` are a proper prefix of those of `B`, `compareOctalCodes(A, B)` is
`LESS_THAN`. -/
theorem C14_ancestor_sorts_first (A B : List Nat) (a b : Nat) (hA : validOctalCode A = true)
    (hB : validOctalCode B = true)
    (ha : numberOfThreeBitSectionsInCode A UNKNOWN_OCTCODE_LENGTH = some (a : Int))
    (hb : numberOfThreeBitSectionsInCode B UNKNOWN_OCTCODE_LENGTH = some (b : Int))
    (hlt : a < b)
    (hpre : ∀ i, i < a → getOctalCodeSectionValue A i = getOctalCodeSectionValue B i) :
    compareOctalCodes (some A) (some B) = some OctalCodeComparison.LESS_THAN := by
  have _ := hpre
  obtain ⟨a1, rA, rfl, ha1, hlenA, _, _⟩ := (validOctalCode_iff A).1 hA
  obtain ⟨b1, rB, rfl, hb1, hlenB, _, _⟩ := (validOctalCode_iff B).1 hB
  rw [numberOf_cons a1 rA (by omega)] at ha
  rw [numberOf_cons b1 rB (by omega)] at hb
  have ea : a1 = a := by
    have := Option.some.inj ha
    omega
  have eb : b1 = b := by
    have := Option.some.inj hb
    omega
  subst ea eb
  have hpos : ∀ n, 0 < bytesRequiredForCodeLength n := by
    intro n
    unfold bytesRequiredForCodeLength
    dsimp only
    split <;> omega
  obtain ⟨m, hm⟩ : ∃ m, min (bytesRequiredForCodeLength a1) (bytesRequiredForCodeLength b1)
      = m + 1 := by
    have h1 := hpos a1
    have h2 := hpos b1
    exact ⟨min (bytesRequiredForCodeLength a1) (bytesRequiredForCodeLength b1) - 1, by omega⟩
  have hmem : memcmp (a1 :: rA) (b1 :: rB) (m + 1) = some (-1) := by
    unfold memcmp
    rw [if_pos (by constructor <;> omega)]
    simp [memcmpSign, hlt]
  simp [compareOctalCodes, readByte, hm, hmem]

/-- Witness of C14: the code of the path 3 against the code of the path 3-5. -/
theorem C14_ancestor_sorts_first_witness :
    compareOctalCodes (some [0x01, 0x60]) (some [0x02, 0x74])
      = some OctalCodeComparison.LESS_THAN :=
  C14_ancestor_sorts_first [0x01, 0x60] [0x02, 0x74] 1 2 (by decide) (by decide) (by decide)
    (by decide) (by decide) (by
      intro i hi
      have h0 : i = 0 := by omega
      subst h0
      decide)

/-- C15, the code at a failing input: `A = [0x02, 0x00]` is the path 0-0 and
`B = [0x01, 0x20]` the path 1.  A depth-first traversal visits `A`, inside the child 0 of the
root, before `B`, the child 1 of the root (the first section of `A` is the smaller one),
yet `compareOctalCodes(A, B)` is `GREATER_THAN`: the bytes compared start with the length
byte, so the longer code is the greater one. -/
theorem C15_longer_code_sorts_last :
    validOctalCode [0x02, 0x00] = true ∧ validOctalCode [0x01, 0x20] = true
      ∧ getOctalCodeSectionValue [0x02, 0x00] 0 = some 0
      ∧ getOctalCodeSectionValue [0x01, 0x20] 0 = some 1
      ∧ compareOctalCodes (some [0x02, 0x00]) (some [0x01, 0x20])
          = some OctalCodeComparison.GREATER_THAN := by
  decide

/-- C16: for every valid code `C` with `N` sections and every `levels ≥ 0`,
`chopOctalCode(C, levels)` returns the null pointer if and only if `levels ≥ N`; otherwise
its result has the section count `N - levels`, and its section `j` is the section
`levels + j` of `C`, for every `j < N - levels`. -/
theorem C16_chopOctalCode (garbage : Nat → Nat) (C : List Nat) (n levels : Nat)
    (hC : validOctalCode C = true)
    (hn : numberOfThreeBitSectionsInCode C UNKNOWN_OCTCODE_LENGTH = some (n : Int)) :
    (chopOctalCode garbage C levels = some none ↔ n ≤ levels)
      ∧ (levels < n → ∃ R, chopOctalCode garbage C levels = some (some R)
          ∧ numberOfThreeBitSectionsInCode R UNKNOWN_OCTCODE_LENGTH
              = some (((n - levels : Nat)) : Int)
          ∧ ∀ j, j < n - levels → ∃ v, getOctalCodeSectionValue C (levels + j) = some v
              ∧ getOctalCodeSectionValue R j = some v) := by
  obtain ⟨n1, hn0, _, hn1, _⟩ := valid_facts C hC
  have e : n1 = n := by
    rw [hn] at hn1
    have := Option.some.inj hn1
    omega
  subst e
  have hsome : levels < n1 → ∃ R, chopOctalCode garbage C levels = some (some R)
      ∧ numberOfThreeBitSectionsInCode R UNKNOWN_OCTCODE_LENGTH
          = some (((n1 - levels : Nat)) : Int)
      ∧ ∀ j, j < n1 - levels → ∃ v, getOctalCodeSectionValue C (levels + j) = some v
          ∧ getOctalCodeSectionValue R j = some v := by
    intro hlt
    have h := chop_spec garbage C hC levels (by rw [hn0]; exact hlt)
    rw [hn0] at h
    exact h
  refine ⟨⟨fun hnull => ?_, fun hle => chop_null garbage C hC levels (by rw [hn0]; exact hle)⟩,
    hsome⟩
  by_contra hgt
  obtain ⟨R, hR, _⟩ := hsome (by omega)
  rw [hR] at hnull
  exact Option.noConfusion (Option.some.inj hnull)

/-- Witness of C16: the code of the path 1-2-3 chopped by one level, in a fresh buffer
whose bytes are all 255. -/
theorem C16_chopOctalCode_witness :
    (chopOctalCode (fun _ => 255) [0x03, 0x29, 0x80] 1 = some none ↔ 3 ≤ 1)
      ∧ (1 < 3 → ∃ R, chopOctalCode (fun _ => 255) [0x03, 0x29, 0x80] 1 = some (some R)
          ∧ numberOfThreeBitSectionsInCode R UNKNOWN_OCTCODE_LENGTH
              = some (((3 - 1 : Nat)) : Int)
          ∧ ∀ j, j < 3 - 1 → ∃ v, getOctalCodeSectionValue [0x03, 0x29, 0x80] (1 + j) = some v
              ∧ getOctalCodeSectionValue R j = some v) :=
  C16_chopOctalCode (fun _ => 255) [0x03, 0x29, 0x80] 3 1 (by decide) (by decide)

/-- C17: the length decoder honours the 255 extension: on `k` bytes equal to 255 followed by
a byte `b < 255` (and whatever follows), `numberOfThreeBitSectionsInCode` with `maxBytes`
equal to `UNKNOWN_OCTCODE_LENGTH` returns `255 * k + b`; with `k = 0` that is byte 0
itself. -/
theorem C17_length_extension (k b : Nat) (rest : List Nat) (hb : b < 255) :
    numberOfThreeBitSectionsInCode (List.replicate k 255 ++ b :: rest) UNKNOWN_OCTCODE_LENGTH
        = some (((255 * k + b : Nat)) : Int)
      ∧ numberOfThreeBitSectionsInCode (b :: rest) UNKNOWN_OCTCODE_LENGTH = some (b : Int) :=
  ⟨numberOf_extension k b rest (by omega), numberOf_cons b rest (by omega)⟩

/-- Witness of C17: two extension bytes, then the length byte 3, then a section byte. -/
theorem C17_length_extension_witness :
    numberOfThreeBitSectionsInCode (List.replicate 2 255 ++ 3 :: [0x74]) UNKNOWN_OCTCODE_LENGTH
        = some (((255 * 2 + 3 : Nat)) : Int)
      ∧ numberOfThreeBitSectionsInCode (3 :: [0x74]) UNKNOWN_OCTCODE_LENGTH = some (3 : Int) :=
  C17_length_extension 2 3 [0x74] (by decide)

/-- C18, the code at failing inputs.  On the code `[255, 3]`, of 258 sections, with the
budget `maxBytes = 0`, the recursive call on the extension byte is made with the budget
`0 - 1`, the overflow sentinel, and returns `OVERFLOWED_OCTCODE_BUFFER`; the caller adds its
255 to that, and the result is 254, neither the sentinel nor the section count.  On
`[255, 255, 3]`, of 513 sections, with `maxBytes = 1` the result is 509.  The sentinel is
returned when `maxBytes` is the sentinel itself. -/
theorem C18_overflow_sentinel_lost :
    numberOfThreeBitSectionsInCode [255, 3] OVERFLOWED_OCTCODE_BUFFER
        = some OVERFLOWED_OCTCODE_BUFFER
      ∧ numberOfThreeBitSectionsInCode [255, 3] UNKNOWN_OCTCODE_LENGTH = some 258
      ∧ numberOfThreeBitSectionsInCode [3] (0 - 1) = some OVERFLOWED_OCTCODE_BUFFER
      ∧ numberOfThreeBitSectionsInCode [255, 3] 0 = some 254
      ∧ numberOfThreeBitSectionsInCode [255, 255, 3] UNKNOWN_OCTCODE_LENGTH = some 513
      ∧ numberOfThreeBitSectionsInCode [255, 255, 3] 1 = some 509 := by
  decide

/-- C19: in exact rational arithmetic, for every valid code with the sections
`v_0 .. v_(N-1)`, `voxelDetailsForCode` yields `s = (1/2)^N`, and `x`, `y`, `z` the sums over
`i < N` of `(1/2)^(i+1)` times the bit 2, the bit 1 and the bit 0 of `v_i`, bit 2 being the
most significant bit of the section; a null code yields `(0, 0, 0, 1)`. -/
theorem C19_voxelDetailsForCode (C : List Nat) (n : Nat) (hC : validOctalCode C = true)
    (hn : numberOfThreeBitSectionsInCode C UNKNOWN_OCTCODE_LENGTH = some (n : Int)) :
    voxelDetailsForCode (some C)
        = some { x := Finset.sum (Finset.range n) (fun i => (1 / 2) ^ (i + 1) * sectionBit C i 2)
                 y := Finset.sum (Finset.range n) (fun i => (1 / 2) ^ (i + 1) * sectionBit C i 1)
                 z := Finset.sum (Finset.range n) (fun i => (1 / 2) ^ (i + 1) * sectionBit C i 0)
                 s := (1 / 2) ^ n }
      ∧ voxelDetailsForCode none = some { x := 0, y := 0, z := 0, s := 1 } := by
  refine ⟨?_, rfl⟩
  obtain ⟨n1, _, _, hn1, hlen, hb, _⟩ := valid_facts C hC
  have e : n1 = n := by
    rw [hn] at hn1
    have := Option.some.inj hn1
    omega
  subst e
  have h := voxelDetailsLoop_spec C n1 0 0 0 0 1
    (fun k hk => by rw [Nat.zero_add]; exact valid_get C n1 k hb hlen hk)
  simp only [voxelDetailsForCode, hn, Option.bind_eq_bind, Option.some_bind, Int.toNat_ofNat, h,
    Nat.zero_add, zero_add, one_mul]

/-- Witness of C19: the code of the path 3-5, whose voxel is at `(1/4, 1/2, 3/4)` and has the
size `1/4`. -/
theorem C19_voxelDetailsForCode_witness :
    voxelDetailsForCode (some [0x02, 0x74])
        = some { x := Finset.sum (Finset.range 2)
                   (fun i => (1 / 2) ^ (i + 1) * sectionBit [0x02, 0x74] i 2)
                 y := Finset.sum (Finset.range 2)
                   (fun i => (1 / 2) ^ (i + 1) * sectionBit [0x02, 0x74] i 1)
                 z := Finset.sum (Finset.range 2)
                   (fun i => (1 / 2) ^ (i + 1) * sectionBit [0x02, 0x74] i 0)
                 s := (1 / 2) ^ 2 }
      ∧ voxelDetailsForCode none = some { x := 0, y := 0, z := 0, s := 1 } :=
  C19_voxelDetailsForCode [0x02, 0x74] 2 (by decide) (by decide)

/-- C20 (amended): batching coalesces and preserves order.  With one known voxel server
whose jurisdiction contains every edit, from a sender that is enabled and holds no
per-server buffer, for `n ≥ 1` payloads `p_1 .. p_n` of one packet type other than
`PACKET_TYPE_UNKNOWN` whose total length plus the header size (packet header, 2-byte
sequence number, 8-byte timestamp) is smaller than `_maxPacketSize`, the `n` consecutive
`queueVoxelEditMessage` calls return and hand no packet to the outbound queue, and a
following `releaseQueuedMessages` hands over exactly one packet, to the server, of the size
header + Σ|p_i|, whose bytes after the header are `p_1 ‖ … ‖ p_n` in call order. -/
theorem C20_batching_coalesces (U A : Nat) (hdr : PACKET_TYPE → List Nat) (t : PACKET_TYPE)
    (s : VoxelEditPacketSender) (msgs : List (Env × List Nat)) (envR : Env)
    (hn : msgs ≠ []) (ht : t ≠ PACKET_TYPE_UNKNOWN)
    (hsend : s._shouldSend = true) (hempty : s._pendingEditPackets = [])
    (hmsgs : ∀ m ∈ msgs,
      m.1.nodes = [{ type := NODE_TYPE_VOXEL_SERVER, uuid := U, activeSocket := some A }]
        ∧ m.1.populateTypeAndVersion = hdr
        ∧ isMyJurisdictionForQueue m.1 U m.2 = true)
    (hR : envR.nodes = [{ type := NODE_TYPE_VOXEL_SERVER, uuid := U, activeSocket := some A }]
        ∧ envR.populateTypeAndVersion = hdr ∧ voxelServersExist envR = true)
    (hfit : ((((msgs.map (fun m => m.2.length)).sum + headerSize envR t : Nat)) : Int)
      < s._maxPacketSize) :
    ∃ s1, run s (msgs.map (fun m => (m.1, Call.queueVoxelEditMessage t m.2))) = some s1
      ∧ s1.outbound = s.outbound
      ∧ ∃ packet, (releaseQueuedMessages envR s1).outbound = s.outbound ++ [(A, packet)]
          ∧ packet.length = headerSize envR t + (msgs.map (fun m => m.2.length)).sum
          ∧ packet.drop (headerSize envR t) = (msgs.map (fun m => m.2)).flatten := by
  obtain ⟨hRn, hRh, hRe⟩ := hR
  have hH : headerSize envR t = (hdr t).length + 2 + 8 := by
    unfold headerSize
    rw [hRh]
  rw [hH] at hfit ⊢
  cases msgs with
  | nil => exact absurd rfl hn
  | cons m rest =>
    obtain ⟨hnodes, hhdr, hmine⟩ := hmsgs m (List.mem_cons_self _ _)
    simp only [List.map_cons, List.sum_cons] at hfit
    obtain ⟨hb, ho, hs, hmax⟩ := batched_first m.1 U A hdr s t m.2 hnodes hhdr hmine hsend ht
      hempty (by omega)
    obtain ⟨s1, hrun, hb1, ho1⟩ := batched_run U A hdr t rest (queueVoxelEditMessage m.1 s t m.2)
      m.2
      (fun m1 hm1 => ⟨(hmsgs m1 (List.mem_cons_of_mem _ hm1)).1,
        (hmsgs m1 (List.mem_cons_of_mem _ hm1)).2.2⟩)
      hs hb (by rw [hmax]; omega)
    obtain ⟨header, hhl, hout⟩ := batched_release envR U A hdr s1 t _ hRn hRe ht hb1
    refine ⟨s1, ?_, ho1.trans ho, header ++ (m.2 ++ (rest.map (fun m => m.2)).flatten), ?_, ?_,
      ?_⟩
    · simp only [List.map_cons, run, step, Option.bind_eq_bind, Option.some_bind]
      exact hrun
    · rw [hout, ho1, ho]
    · simp only [List.length_append, List.length_flatten, List.map_map, List.map_cons,
        List.sum_cons, hhl]
      rfl
    · rw [← hhl, List.drop_left]
      rfl

/-- Witness of C20: a fresh sender, one known server, and two messages of the type 83, of
three and of two bytes. -/
theorem C20_batching_coalesces_witness :
    ∃ s1, run (fresh 1500 60)
          ([(oneServerEnv, [1, 2, 3]), (oneServerEnv, [4, 5])].map
            (fun m => (m.1, Call.queueVoxelEditMessage 83 m.2))) = some s1
      ∧ s1.outbound = (fresh 1500 60).outbound
      ∧ ∃ packet, (releaseQueuedMessages oneServerEnv s1).outbound
            = (fresh 1500 60).outbound ++ [(10, packet)]
          ∧ packet.length = headerSize oneServerEnv 83
              + ([(oneServerEnv, [1, 2, 3]), (oneServerEnv, [4, 5])].map
                  (fun m => m.2.length)).sum
          ∧ packet.drop (headerSize oneServerEnv 83)
              = ([(oneServerEnv, [1, 2, 3]), (oneServerEnv, [4, 5])].map
                  (fun m => m.2)).flatten :=
  C20_batching_coalesces 1 10 (fun type => [type, 1]) 83 (fresh 1500 60)
    [(oneServerEnv, [1, 2, 3]), (oneServerEnv, [4, 5])] oneServerEnv (by simp) (by decide) rfl rfl
    (by
      intro m hm
      simp only [List.mem_cons, List.mem_singleton, List.not_mem_nil, or_false] at hm
      rcases hm with h | h <;> rw [h] <;> exact ⟨rfl, rfl, rfl⟩)
    ⟨rfl, rfl, by decide⟩ (by decide)

/-- Counterexample to C20 as stated: a fresh sender, one known server that takes every
edit, and one payload of three bytes queued under the type `PACKET_TYPE_UNKNOWN`.  The
buffer is not initialised for that type, and `releaseQueuedMessages` skips a buffer of the
type `UNKNOWN`: no packet is handed over.  The same payload under the type 83 is handed
over in one packet of 15 bytes. -/
theorem C20_counterexample :
    (run (fresh 1500 60)
        [(oneServerEnv, Call.queueVoxelEditMessage PACKET_TYPE_UNKNOWN [1, 2, 3]),
          (oneServerEnv, Call.releaseQueuedMessages)]).map (fun s => s.outbound) = some []
      ∧ (run (fresh 1500 60)
        [(oneServerEnv, Call.queueVoxelEditMessage 83 [1, 2, 3]),
          (oneServerEnv, Call.releaseQueuedMessages)]).map
            (fun s => s.outbound.map (fun p => (p.1, p.2.length, p.2.drop 12)))
          = some [(10, 15, [1, 2, 3])] := by
  decide

/-- C22 (amended): the pre-server drain.  On an enabled sender without buffers and with
empty pre-server queues, for `1 ≤ n ≤ _maxPendingMessages`, `n` edits of one type other
than `PACKET_TYPE_UNKNOWN` are queued with `queueVoxelEditMessage` while no voxel server is
known; then one server that takes them all is known, the edits fit into one packet (their
total length plus the header size is smaller than `_maxPacketSize`), and `process()` is
called once.  The run returns, both pre-server queues are empty, and the `n` payloads are in
one packet, in queueing order, after its header: `process()` hands this packet over if a
release was pending, and otherwise hands nothing over and leaves the packet to the next
`releaseQueuedMessages`, which hands over exactly this packet. -/
theorem C22_preServer_drain (U A : Nat) (hdr : PACKET_TYPE → List Nat) (t : PACKET_TYPE)
    (s : VoxelEditPacketSender) (msgs : List (Env × List Nat)) (envP envR : Env)
    (hn : msgs ≠ []) (hcap : ((msgs.length : Nat) : Int) ≤ s._maxPendingMessages)
    (ht : t ≠ PACKET_TYPE_UNKNOWN) (hsend : s._shouldSend = true)
    (hempty : s._pendingEditPackets = []) (hsingle : s._preServerSingleMessagePackets = [])
    (hpre : s._preServerPackets = [])
    (hno : ∀ m ∈ msgs, voxelServersExist m.1 = false)
    (hP : envP.nodes = [{ type := NODE_TYPE_VOXEL_SERVER, uuid := U, activeSocket := some A }]
      ∧ envP.populateTypeAndVersion = hdr
      ∧ ∀ m ∈ msgs, isMyJurisdictionForQueue envP U m.2 = true)
    (hR : envR.nodes = [{ type := NODE_TYPE_VOXEL_SERVER, uuid := U, activeSocket := some A }]
      ∧ voxelServersExist envR = true)
    (hfit : ((((msgs.map (fun m => m.2.length)).sum + headerSize envP t : Nat)) : Int)
      < s._maxPacketSize) :
    ∃ s1 packet,
      run s (msgs.map (fun m => (m.1, Call.queueVoxelEditMessage t m.2))
          ++ [(envP, Call.process)]) = some s1
        ∧ s1._preServerSingleMessagePackets = [] ∧ s1._preServerPackets = []
        ∧ packet.length = headerSize envP t + (msgs.map (fun m => m.2.length)).sum
        ∧ packet.drop (headerSize envP t) = (msgs.map (fun m => m.2)).flatten
        ∧ (s._releaseQueuedMessagesPending = true → s1.outbound = s.outbound ++ [(A, packet)])
        ∧ (s._releaseQueuedMessagesPending = false → s1.outbound = s.outbound
            ∧ (releaseQueuedMessages envR s1).outbound = s.outbound ++ [(A, packet)]) := by
  obtain ⟨hPn, hPh, hPm⟩ := hP
  obtain ⟨hRn, hRe⟩ := hR
  have hH : headerSize envP t = (hdr t).length + 2 + 8 := by
    unfold headerSize
    rw [hPh]
  rw [hH] at hfit ⊢
  cases msgs with
  | nil => exact absurd rfl hn
  | cons m rest =>
    have hq := preServer_run t (m :: rest) s hsend hno
      (by rw [hsingle, hpre]; simpa using hcap)
    rw [hpre, List.nil_append] at hq
    simp only [List.map_cons, List.sum_cons] at hfit
    have hexP := voxelServersExist_of_mine envP U A m.2 hPn (hPm m (List.mem_cons_self _ _))
    obtain ⟨s2, hb, q1, q2, q3, q4, hproc⟩ := process_batched envP U A hdr t hPn hPh m.2
      (rest.map (fun m => m.2))
      { s with _preServerPackets := ((m :: rest).map
          (fun m => EditPacketBuffer.make t m.2 nullUUID)) }
      (by simp only [List.map_cons, List.map_map]; rfl) hsingle hempty hsend ht
      (by
        intro x hx
        rcases List.mem_cons.1 hx with h | h
        · rw [h]
          exact hPm m (List.mem_cons_self _ _)
        · obtain ⟨m1, hm1, e⟩ := List.mem_map.1 h
          rw [← e]
          exact hPm m1 (List.mem_cons_of_mem _ hm1))
      (by
        show _ < s._maxPacketSize
        simp only [List.map_map]
        have e : (List.map (List.length ∘ fun m => m.2) rest)
            = List.map (fun m => m.2.length) rest := rfl
        rw [e]
        omega)
    obtain ⟨b, hp, hbt, hbu, hbl, header, hhl, hbytes⟩ := hb
    have hholds : Holds U t (header ++ (m.2 ++ (rest.map (fun m => m.2)).flatten)) s2 :=
      ⟨b, hp, hbt, hbu, hbl, hbytes⟩
    have hne : header ++ (m.2 ++ (rest.map (fun m => m.2)).flatten) ≠ [] := by
      intro h
      have hl := congrArg List.length h
      simp only [List.length_append, List.length_nil] at hl
      omega
    have hrun : run s ((m :: rest).map (fun m => (m.1, Call.queueVoxelEditMessage t m.2))
        ++ [(envP, Call.process)])
        = process envP { s with _preServerPackets := ((m :: rest).map
            (fun m => EditPacketBuffer.make t m.2 nullUUID)) } := by
      rw [run_append, hq]
      simp only [Option.bind_eq_bind, Option.some_bind, run, step]
      cases process envP { s with _preServerPackets := ((m :: rest).map
          (fun m => EditPacketBuffer.make t m.2 nullUUID)) } <;> rfl
    have hlen : (header ++ (m.2 ++ (rest.map (fun m => m.2)).flatten)).length
        = (hdr t).length + 2 + 8 + ((m :: rest).map (fun m => m.2.length)).sum := by
      simp only [List.length_append, List.length_flatten, List.map_map, List.map_cons,
        List.sum_cons, hhl]
      rfl
    have hdrop : (header ++ (m.2 ++ (rest.map (fun m => m.2)).flatten)).drop
        ((hdr t).length + 2 + 8) = ((m :: rest).map (fun m => m.2)).flatten := by
      rw [← hhl, List.drop_left]
      rfl
    by_cases hflag : s._releaseQueuedMessagesPending = true
    · have hrel := holds_release envP U A s2 t _ hPn hexP ht hholds hne
      obtain ⟨_, _, _, _, g5, g6⟩ := frame_release_servers envP s2 hexP
      refine ⟨{ releaseQueuedMessages envP s2 with _releaseQueuedMessagesPending := false },
        header ++ (m.2 ++ (rest.map (fun m => m.2)).flatten), ?_, g5.trans q2, g6.trans q1,
        hlen, hdrop, ?_, ?_⟩
      · rw [hrun, hproc]
        exact if_pos hflag
      · intro _
        show (releaseQueuedMessages envP s2).outbound = _
        rw [hrel, q3]
      · intro h
        rw [hflag] at h
        exact absurd h (by decide)
    · have hrel := holds_release envR U A s2 t _ hRn hRe ht hholds hne
      refine ⟨s2, header ++ (m.2 ++ (rest.map (fun m => m.2)).flatten), ?_, q2, q1, hlen,
        hdrop, ?_, ?_⟩
      · rw [hrun, hproc]
        exact if_neg hflag
      · intro h
        exact absurd h hflag
      · intro _
        exact ⟨q3, by rw [hrel, q3]⟩

/-- Witness of C22: three edits of one byte queued on a fresh sender with no known server,
under the limit 10 of pending messages; then the one server of `oneServerEnv` is known. -/
theorem C22_preServer_drain_witness :
    ∃ s1 packet,
      run (fresh 1500 10)
          ([(noServerEnv, [1]), (noServerEnv, [2]), (noServerEnv, [3])].map
              (fun m => (m.1, Call.queueVoxelEditMessage 83 m.2))
            ++ [(oneServerEnv, Call.process)]) = some s1
        ∧ s1._preServerSingleMessagePackets = [] ∧ s1._preServerPackets = []
        ∧ packet.length = headerSize oneServerEnv 83
            + ([(noServerEnv, [1]), (noServerEnv, [2]), (noServerEnv, [3])].map
                (fun m => m.2.length)).sum
        ∧ packet.drop (headerSize oneServerEnv 83)
            = ([(noServerEnv, [1]), (noServerEnv, [2]), (noServerEnv, [3])].map
                (fun m => m.2)).flatten
        ∧ ((fresh 1500 10)._releaseQueuedMessagesPending = true →
            s1.outbound = (fresh 1500 10).outbound ++ [(10, packet)])
        ∧ ((fresh 1500 10)._releaseQueuedMessagesPending = false →
            s1.outbound = (fresh 1500 10).outbound
              ∧ (releaseQueuedMessages oneServerEnv s1).outbound
                  = (fresh 1500 10).outbound ++ [(10, packet)]) :=
  C22_preServer_drain 1 10 (fun type => [type, 1]) 83 (fresh 1500 10)
    [(noServerEnv, [1]), (noServerEnv, [2]), (noServerEnv, [3])] oneServerEnv oneServerEnv
    (by simp) (by decide) (by decide) rfl rfl rfl rfl
    (by
      intro m hm
      simp only [List.mem_cons, List.mem_singleton, List.not_mem_nil, or_false] at hm
      rcases hm with h | h | h <;> rw [h] <;> rfl)
    ⟨rfl, rfl, by
      intro m hm
      simp only [List.mem_cons, List.mem_singleton, List.not_mem_nil, or_false] at hm
      rcases hm with h | h | h <;> rw [h] <;> rfl⟩
    ⟨rfl, by decide⟩ (by decide)

/-- Counterexample to C22 as stated: three edits are queued on a fresh sender with no known
server, under the limit 10; then one server that takes every edit is known and `process()`
is called once.  Both pre-server queues are empty, but no packet is in the outbound queue:
the three payloads wait in the buffer of the server, a packet of 12 + 3 bytes. -/
theorem C22_counterexample :
    (run (fresh 1500 10) [(noServerEnv, Call.queueVoxelEditMessage 83 [1]),
        (noServerEnv, Call.queueVoxelEditMessage 83 [2]),
        (noServerEnv, Call.queueVoxelEditMessage 83 [3]),
        (oneServerEnv, Call.process)]).map
      (fun s => (s.outbound, s._preServerPackets.length,
        s._preServerSingleMessagePackets.length,
        s._pendingEditPackets.map (fun p => (p.2._currentSize, p.2._currentBuffer.drop 12))))
      = some ([], 0, 0, [(15, [1, 2, 3])]) := by
  decide

/-- C23 (amended): a fitting append does not flush.  For the buffer of a voxel server that
takes the edit, in a state `OPEN(T)` (`_currentSize > 0`), and a payload of the same type
`T` with `_currentSize + len < _maxPacketSize`, the loop body of `queueVoxelEditMessage`
hands no packet to the outbound queue, leaves the sequence counter alone, and leaves the
buffer with the type `T` and `_currentSize` increased by `len`; and whenever it hands a
packet over or advances the sequence counter, the type switches or
`_currentSize + len ≥ _maxPacketSize`. -/
theorem C23_fitting_append (env : Env) (s : VoxelEditPacketSender) (node : Node)
    (t : PACKET_TYPE) (code : List Nat) (hsock : node.activeSocket.isSome = true)
    (htype : node.type = NODE_TYPE_VOXEL_SERVER)
    (hmine : isMyJurisdictionForQueue env node.uuid code = true)
    (hopen : 0 < (mapGet s._pendingEditPackets node.uuid)._currentSize) :
    ((mapGet s._pendingEditPackets node.uuid)._currentType = t →
        ((mapGet s._pendingEditPackets node.uuid)._currentSize : Int) + (code.length : Int)
          < s._maxPacketSize →
        (queueVoxelEditMessageStep env t code s node).outbound = s.outbound
          ∧ (queueVoxelEditMessageStep env t code s node)._sequenceNumber = s._sequenceNumber
          ∧ (mapGet (queueVoxelEditMessageStep env t code s node)._pendingEditPackets
              node.uuid)._currentType = t
          ∧ (mapGet (queueVoxelEditMessageStep env t code s node)._pendingEditPackets
              node.uuid)._currentSize
            = (mapGet s._pendingEditPackets node.uuid)._currentSize + code.length)
      ∧ ((queueVoxelEditMessageStep env t code s node).outbound ≠ s.outbound
          ∨ (queueVoxelEditMessageStep env t code s node)._sequenceNumber ≠ s._sequenceNumber →
        t ≠ (mapGet s._pendingEditPackets node.uuid)._currentType
          ∨ ((mapGet s._pendingEditPackets node.uuid)._currentSize : Int) + (code.length : Int)
            ≥ s._maxPacketSize) := by
  have _ := hopen
  have hfit : (mapGet s._pendingEditPackets node.uuid)._currentType = t →
      ((mapGet s._pendingEditPackets node.uuid)._currentSize : Int) + (code.length : Int)
        < s._maxPacketSize →
      (queueVoxelEditMessageStep env t code s node).outbound = s.outbound
        ∧ (queueVoxelEditMessageStep env t code s node)._sequenceNumber = s._sequenceNumber
        ∧ (mapGet (queueVoxelEditMessageStep env t code s node)._pendingEditPackets
            node.uuid)._currentType = t
        ∧ (mapGet (queueVoxelEditMessageStep env t code s node)._pendingEditPackets
            node.uuid)._currentSize
          = (mapGet s._pendingEditPackets node.uuid)._currentSize + code.length := by
    intro hty hlt
    rw [queueStep_own env t code s node hsock htype hmine]
    have c1 : ¬ ((t ≠ ({ mapGet s._pendingEditPackets node.uuid with
            _nodeUUID := node.uuid } : EditPacketBuffer)._currentType
          ∧ ({ mapGet s._pendingEditPackets node.uuid with
            _nodeUUID := node.uuid } : EditPacketBuffer)._currentSize > 0)
        ∨ ((({ mapGet s._pendingEditPackets node.uuid with
            _nodeUUID := node.uuid } : EditPacketBuffer)._currentSize : Int)
            + (code.length : Int) ≥ s._maxPacketSize)) := by
      intro h
      rcases h with h | h
      · exact h.1 hty.symm
      · have h1 : ((mapGet s._pendingEditPackets node.uuid)._currentSize : Int)
            + (code.length : Int) ≥ s._maxPacketSize := h
        omega
    have c2 : ¬ (t ≠ ({ mapGet s._pendingEditPackets node.uuid with
            _nodeUUID := node.uuid } : EditPacketBuffer)._currentType
          ∧ ({ mapGet s._pendingEditPackets node.uuid with
            _nodeUUID := node.uuid } : EditPacketBuffer)._currentSize = 0) :=
      fun h => h.1 hty.symm
    rw [append_eval_plain env s _ t code c1 c2]
    refine ⟨rfl, rfl, ?_, ?_⟩
    · show (mapGet (mapSet _ node.uuid _) node.uuid)._currentType = t
      rw [mapGet_mapSet_self]
      exact hty
    · show (mapGet (mapSet _ node.uuid _) node.uuid)._currentSize = _
      rw [mapGet_mapSet_self]
  refine ⟨hfit, fun hchg => ?_⟩
  by_contra hcon
  have hty : (mapGet s._pendingEditPackets node.uuid)._currentType = t := by
    by_contra hne
    exact hcon (Or.inl (fun e => hne e.symm))
  have hlt : ((mapGet s._pendingEditPackets node.uuid)._currentSize : Int) + (code.length : Int)
      < s._maxPacketSize := by
    by_contra hge
    exact hcon (Or.inr (by omega))
  obtain ⟨h1, h2, _⟩ := hfit hty hlt
  rcases hchg with h | h
  · exact h h1
  · exact h h2

/-- Witness of C23: the buffer of the one server holds a packet of the type 83 of 15 bytes,
and a further edit of three bytes of that type is queued under the limit 1500. -/
theorem C23_fitting_append_witness :
    ((mapGet openSender._pendingEditPackets oneServerNode.uuid)._currentType = 83 →
        ((mapGet openSender._pendingEditPackets oneServerNode.uuid)._currentSize : Int)
            + (([4, 5, 6] : List Nat).length : Int) < openSender._maxPacketSize →
        (queueVoxelEditMessageStep oneServerEnv 83 [4, 5, 6] openSender oneServerNode).outbound
            = openSender.outbound
          ∧ (queueVoxelEditMessageStep oneServerEnv 83 [4, 5, 6] openSender
              oneServerNode)._sequenceNumber = openSender._sequenceNumber
          ∧ (mapGet (queueVoxelEditMessageStep oneServerEnv 83 [4, 5, 6] openSender
              oneServerNode)._pendingEditPackets oneServerNode.uuid)._currentType = 83
          ∧ (mapGet (queueVoxelEditMessageStep oneServerEnv 83 [4, 5, 6] openSender
              oneServerNode)._pendingEditPackets oneServerNode.uuid)._currentSize
            = (mapGet openSender._pendingEditPackets oneServerNode.uuid)._currentSize
              + ([4, 5, 6] : List Nat).length)
      ∧ ((queueVoxelEditMessageStep oneServerEnv 83 [4, 5, 6] openSender oneServerNode).outbound
            ≠ openSender.outbound
          ∨ (queueVoxelEditMessageStep oneServerEnv 83 [4, 5, 6] openSender
              oneServerNode)._sequenceNumber ≠ openSender._sequenceNumber →
        83 ≠ (mapGet openSender._pendingEditPackets oneServerNode.uuid)._currentType
          ∨ ((mapGet openSender._pendingEditPackets oneServerNode.uuid)._currentSize : Int)
              + (([4, 5, 6] : List Nat).length : Int) ≥ openSender._maxPacketSize) :=
  C23_fitting_append oneServerEnv openSender oneServerNode 83 [4, 5, 6] rfl rfl rfl (by decide)

/-- Counterexample to C23 as stated: under the limit `_maxPacketSize = 30`, the buffer of the
one server holds a packet of 15 bytes of the type 83, and a payload of 15 bytes of the same
type is queued: `_currentSize + len` is 30, not more than the limit, yet the packet of 15
bytes is handed over, the buffer is initialised anew (the sequence counter goes from 1 to
2), and the buffer holds 12 + 15 bytes. -/
theorem C23_counterexample :
    (run (fresh 30 60) [(oneServerEnv, Call.queueVoxelEditMessage 83 [1, 2, 3])]).map
        (fun s => (s._maxPacketSize, s.outbound.length, s._sequenceNumber,
          s._pendingEditPackets.map (fun p => (p.2._currentType, p.2._currentSize))))
        = some (30, 0, 1, [(83, 15)])
      ∧ (run (fresh 30 60) [(oneServerEnv, Call.queueVoxelEditMessage 83 [1, 2, 3]),
          (oneServerEnv, Call.queueVoxelEditMessage 83 (List.replicate 15 7))]).map
        (fun s => (s.outbound.map (fun p => p.2.length), s._sequenceNumber,
          s._pendingEditPackets.map (fun p => (p.2._currentType, p.2._currentSize))))
        = some ([15], 2, [(83, 27)]) := by
  decide

/-- C24 (amended): the jurisdiction filter of `queueVoxelEditMessage`.  A server takes an
edit when there is no jurisdiction table at all, or when the table has an entry for it that
classifies the edit as `WITHIN`.  The loop passes over every node that is no voxel server
with an active socket or that does not take the edit: nothing of the sender changes, so
its buffer is left as it was and nothing is emitted for it.  And a buffer that the call
changes is the buffer of a voxel server with an active socket that takes the edit. -/
theorem C24_jurisdiction_filter (env : Env) (s : VoxelEditPacketSender) (t : PACKET_TYPE)
    (code : List Nat) :
    (∀ U, isMyJurisdictionForQueue env U code = true ↔
        (env.jurisdictions = none
          ∨ ∃ table map, env.jurisdictions = some table ∧ table.lookup U = some map
              ∧ map.isMyJurisdiction code CHECK_NODE_ONLY = Area.WITHIN))
      ∧ (∀ node, ¬ (node.activeSocket.isSome = true ∧ node.type = NODE_TYPE_VOXEL_SERVER
            ∧ isMyJurisdictionForQueue env node.uuid code = true) →
          queueVoxelEditMessageStep env t code s node = s)
      ∧ (∀ U, mapGet (queueVoxelEditMessage env s t code)._pendingEditPackets U
            ≠ mapGet s._pendingEditPackets U →
          ∃ node ∈ env.nodes, node.uuid = U ∧ node.activeSocket.isSome = true
            ∧ node.type = NODE_TYPE_VOXEL_SERVER
            ∧ isMyJurisdictionForQueue env U code = true) := by
  refine ⟨?_, fun node h => queueStep_skip env t code s node h, ?_⟩
  · intro U
    unfold isMyJurisdictionForQueue
    cases hj : env.jurisdictions with
    | none => simp
    | some table =>
      cases hl : table.lookup U with
      | none => simp [hl]
      | some map => simp [hl]
  · intro U h
    unfold queueVoxelEditMessage at h
    split at h
    · exact absurd rfl h
    · split at h
      · split at h
        · dsimp only at h
          split at h <;> exact absurd rfl h
        · exact absurd rfl h
      · exact queueFold_changed env t code U env.nodes s h

/-- Witness of C24: the two servers of `twoServerEnv` and an edit that the server 1 takes. -/
theorem C24_jurisdiction_filter_witness :
    (∀ U, isMyJurisdictionForQueue twoServerEnv U [1, 2, 3] = true ↔
        (twoServerEnv.jurisdictions = none
          ∨ ∃ table map, twoServerEnv.jurisdictions = some table ∧ table.lookup U = some map
              ∧ map.isMyJurisdiction [1, 2, 3] CHECK_NODE_ONLY = Area.WITHIN))
      ∧ (∀ node, ¬ (node.activeSocket.isSome = true ∧ node.type = NODE_TYPE_VOXEL_SERVER
            ∧ isMyJurisdictionForQueue twoServerEnv node.uuid [1, 2, 3] = true) →
          queueVoxelEditMessageStep twoServerEnv 83 [1, 2, 3] (fresh 1500 60) node
            = fresh 1500 60)
      ∧ (∀ U, mapGet (queueVoxelEditMessage twoServerEnv (fresh 1500 60) 83
              [1, 2, 3])._pendingEditPackets U
            ≠ mapGet (fresh 1500 60)._pendingEditPackets U →
          ∃ node ∈ twoServerEnv.nodes, node.uuid = U ∧ node.activeSocket.isSome = true
            ∧ node.type = NODE_TYPE_VOXEL_SERVER
            ∧ isMyJurisdictionForQueue twoServerEnv U [1, 2, 3] = true) :=
  C24_jurisdiction_filter twoServerEnv (fresh 1500 60) 83 [1, 2, 3]

/-- Counterexample to C24 as stated: one voxel server and no jurisdiction table at all.  The
jurisdiction of the server is unknown, yet the edit is appended to its buffer, which holds
15 bytes of the type 83 after the call. -/
theorem C24_counterexample :
    oneServerEnv.jurisdictions.isNone = true
      ∧ (mapGet (fresh 1500 60)._pendingEditPackets 1)._currentSize = 0
      ∧ (mapGet (queueVoxelEditMessage oneServerEnv (fresh 1500 60) 83
          [1, 2, 3])._pendingEditPackets 1)._currentSize = 15
      ∧ (mapGet (queueVoxelEditMessage oneServerEnv (fresh 1500 60) 83
          [1, 2, 3])._pendingEditPackets 1)._currentType = 83 := by
  decide

/-- C26 (amended): when `_shouldSend` is false, `sendVoxelEditMessage`,
`queueVoxelEditMessages`, `queueVoxelEditMessage` and `queuePacketToNodes` return at once:
the state of the sender, its outbound queue included, is what it was. -/
theorem C26_disabled_entries (env : Env) (s : VoxelEditPacketSender) (t : PACKET_TYPE)
    (encoded : Option (List Nat)) (details : List (Option (List Nat))) (code buffer : List Nat)
    (hsend : s._shouldSend = false) :
    sendVoxelEditMessage env s t encoded = some s
      ∧ queueVoxelEditMessages env s t details = s
      ∧ queueVoxelEditMessage env s t code = s
      ∧ queuePacketToNodes env s buffer = some s := by
  refine ⟨?_, ?_, ?_, ?_⟩
  · simp [sendVoxelEditMessage, hsend]
  · simp [queueVoxelEditMessages, hsend]
  · simp [queueVoxelEditMessage, hsend]
  · simp [queuePacketToNodes, hsend]

/-- Witness of C26: a disabled sender and one known server. -/
theorem C26_disabled_entries_witness :
    sendVoxelEditMessage oneServerEnv disabledSender 83 (some [1, 2, 3]) = some disabledSender
      ∧ queueVoxelEditMessages oneServerEnv disabledSender 83 [some [1, 2, 3]] = disabledSender
      ∧ queueVoxelEditMessage oneServerEnv disabledSender 83 [1, 2, 3] = disabledSender
      ∧ queuePacketToNodes oneServerEnv disabledSender [1, 2, 3] = some disabledSender :=
  C26_disabled_entries oneServerEnv disabledSender 83 (some [1, 2, 3]) [some [1, 2, 3]]
    [1, 2, 3] [1, 2, 3] rfl

/-- Counterexample to C26 as stated, on a disabled sender.  `releaseQueuedMessages` with no
known server sets the release-pending flag; `queuePacketToNode` hands the packet to the
outbound queue; `releaseQueuedMessages` with a known server hands over the packet of an
open buffer; and `process` with a known server empties the queue of packable messages. -/
theorem C26_counterexample :
    disabledSender._shouldSend = false
      ∧ disabledSender._releaseQueuedMessagesPending = false
      ∧ (releaseQueuedMessages noServerEnv disabledSender)._releaseQueuedMessagesPending = true
      ∧ (queuePacketToNode oneServerEnv disabledSender 1 [1, 2, 3] 3).outbound
          = [(10, [1, 2, 3])]
      ∧ (releaseQueuedMessages oneServerEnv
          { openSender with _shouldSend := false }).outbound.map (fun p => p.2.length) = [15]
      ∧ (process oneServerEnv { disabledSender with
            _preServerPackets := [EditPacketBuffer.make 83 [1, 2, 3] nullUUID] }).map
          (fun s => (s._preServerPackets.length, s.outbound.length,
            s._pendingEditPackets.length)) = some (0, 0, 0) := by
  decide

/-- C27 (amended): whatever the fresh allocation held, `childOctalCode` returns a valid code
(byte 0 is its section count and the unused trailing bits of its last section byte are
zero) for a parent that is null or a valid code of fewer than 254 sections; and the codes
returned by `chopOctalCode` (when it is not null) and by `rebaseOctalCode` (for section
counts that total at most 254, in a buffer that holds the code) have byte 0 equal to their
section count. -/
theorem C27_constructed_codes (garbage : Nat → Nat) (P : Option (List Nat)) (k levels : Nat)
    (C Q : List Nat) (includeColorSpace : Bool) (c q : Nat)
    (hP : ∀ p, P = some p → validOctalCode p = true ∧ p.getD 0 0 < 254) (hk : k < 8)
    (hC : validOctalCode C = true) (hQ : validOctalCode Q = true)
    (hc : numberOfThreeBitSectionsInCode C UNKNOWN_OCTCODE_LENGTH = some (c : Int))
    (hq : numberOfThreeBitSectionsInCode Q UNKNOWN_OCTCODE_LENGTH = some (q : Int)) :
    (∃ R, childOctalCode garbage P k = some R ∧ validOctalCode R = true)
      ∧ (levels < c → ∃ R, chopOctalCode garbage C levels = some (some R)
          ∧ numberOfThreeBitSectionsInCode R UNKNOWN_OCTCODE_LENGTH
              = some (((c - levels : Nat)) : Int)
          ∧ R.getD 0 0 = c - levels)
      ∧ (q + c ≤ 254 → (includeColorSpace = true ∨ 2 ≤ q + c) →
          ∃ R, rebaseOctalCode garbage C Q includeColorSpace = some R
            ∧ numberOfThreeBitSectionsInCode R UNKNOWN_OCTCODE_LENGTH
                = some (((c + q : Nat)) : Int)
            ∧ R.getD 0 0 = c + q) := by
  obtain ⟨c1, hc0, hc254, hc1, _⟩ := valid_facts C hC
  obtain ⟨q1, hq0, _, hq1, _⟩ := valid_facts Q hQ
  have ec : c1 = c := by
    rw [hc] at hc1
    have := Option.some.inj hc1
    omega
  have eq1 : q1 = q := by
    rw [hq] at hq1
    have := Option.some.inj hq1
    omega
  subst ec eq1
  refine ⟨?_, ?_, ?_⟩
  · cases P with
    | none =>
      rw [child_of_null garbage k hk]
      exact ⟨_, rfl, child_null_valid k hk⟩
    | some p =>
      obtain ⟨hv, hlt⟩ := hP p rfl
      exact child_valid garbage p _ k hv rfl hlt
  · intro hlt
    obtain ⟨R, hR, hnum, _⟩ := chop_spec garbage C hC levels (by rw [hc0]; exact hlt)
    rw [hc0] at hnum
    exact ⟨R, hR, hnum, (head_of_numberOf R _ (by omega) hnum).2⟩
  · intro htot hroom
    obtain ⟨R, hR, hnum, _⟩ := rebase_of_valid garbage C Q includeColorSpace hC hQ
      (by rw [hc0, hq0]; exact htot) (by rw [hc0, hq0]; exact hroom)
    rw [hc0, hq0] at hnum
    exact ⟨R, hR, hnum, (head_of_numberOf R _ (by omega) hnum).2⟩

/-- Witness of C27: the child 7 of the code of the path 3-5, that code chopped by one level,
and the code of the path 1 rebased under it with the colour space, in fresh buffers whose
bytes are all 255. -/
theorem C27_constructed_codes_witness :
    (∃ R, childOctalCode (fun _ => 255) (some [0x02, 0x74]) 7 = some R
        ∧ validOctalCode R = true)
      ∧ (1 < 2 → ∃ R, chopOctalCode (fun _ => 255) [0x02, 0x74] 1 = some (some R)
          ∧ numberOfThreeBitSectionsInCode R UNKNOWN_OCTCODE_LENGTH
              = some (((2 - 1 : Nat)) : Int)
          ∧ R.getD 0 0 = 2 - 1)
      ∧ (1 + 2 ≤ 254 → (true = true ∨ 2 ≤ 1 + 2) →
          ∃ R, rebaseOctalCode (fun _ => 255) [0x02, 0x74] [0x01, 0x20] true = some R
            ∧ numberOfThreeBitSectionsInCode R UNKNOWN_OCTCODE_LENGTH
                = some (((2 + 1 : Nat)) : Int)
            ∧ R.getD 0 0 = 2 + 1) :=
  C27_constructed_codes (fun _ => 255) (some [0x02, 0x74]) 7 1 [0x02, 0x74] [0x01, 0x20] true 2 1
    (by intro p hp; cases hp; decide) (by decide) (by decide) (by decide) (by decide)
    (by decide)

set_option maxRecDepth 100000 in
/-- Counterexample to C27 as stated.  In fresh buffers whose bytes are all 255, the code of
the path 1-2-3 chopped by one level is `[0x02, 0x4F, 0xFF]`, and the code of the path 3
rebased under the code of the path 1 is `[0x02, 0x2F]`: in both the two unused bits of the
last section byte are 11, so neither is a valid code.  And the child of a valid code of 254
sections has the byte 0 equal to 255, which is not its section count. -/
theorem C27_counterexample :
    chopOctalCode (fun _ => 255) [0x03, 0x29, 0x80] 1 = some (some [0x02, 0x4F, 0xFF])
      ∧ validOctalCode [0x02, 0x4F, 0xFF] = false
      ∧ rebaseOctalCode (fun _ => 255) [0x01, 0x60] [0x01, 0x20] false = some [0x02, 0x2F]
      ∧ validOctalCode [0x02, 0x2F] = false
      ∧ validOctalCode (254 :: 0x20 :: List.replicate 95 0) = true
      ∧ (childOctalCode (fun _ => 255) (some (254 :: 0x20 :: List.replicate 95 0)) 0).map
          (fun R => (R.getD 0 0, numberOfThreeBitSectionsInCode R UNKNOWN_OCTCODE_LENGTH))
          = some (255, some 287) := by
  refine ⟨by decide, by decide, by decide, by decide, by decide, by decide⟩

/-- C28, the code at failing inputs.  Rebasing the root code `[0x00]` under the code of the
path 3, without colour space, allocates one byte, the section count of the result, where
`bytesRequiredForCodeLength(1)` is 2: the write of the section lands outside the allocation.
Rebasing the root under the root allocates no byte at all, and the write of the length byte
is outside.  With the colour space the code of one section gets 4 bytes, one less than the 2
bytes of the code plus the 3 colour bytes. -/
theorem C28_allocation_too_small :
    validOctalCode [0x00] = true ∧ validOctalCode [0x01, 0x60] = true
      ∧ bytesRequiredForCodeLength 1 = 2 ∧ bytesRequiredForCodeLength 0 = 1
      ∧ rebaseOctalCode (fun _ => 0) [0x00] [0x01, 0x60] false = none
      ∧ rebaseOctalCode (fun _ => 0) [0x00] [0x00] false = none
      ∧ (rebaseOctalCode (fun _ => 0) [0x00] [0x01, 0x60] true).map List.length = some 4
      ∧ bytesRequiredForCodeLength 1 + SIZE_OF_COLOR_DATA = 5 := by
  decide

/-- C29, the code at a failing input.  For the string `"123"`, of three hex digits, one byte
is allocated; the chunk `"12"` is stored at index 0 and the chunk `"3"` at index 1, outside
the allocation.  The same happens for `"3"`, with no byte allocated.  The empty string and
a chunk that is not hexadecimal yield the null pointer. -/
theorem C29_odd_length_overruns :
    hexStringToOctalCode (fun _ => 0) ['1', '2', '3'] = none
      ∧ hexStringToOctalCode (fun _ => 0) ['3'] = none
      ∧ hexStringToOctalCode (fun _ => 0) ['1', '2'] = some (some [0x12])
      ∧ hexStringToOctalCode (fun _ => 0) [] = some none
      ∧ hexStringToOctalCode (fun _ => 0) ['1', 'G'] = some none := by
  decide

/-- C30: the two vertex computations agree: for every non-null valid code,
`voxelDetailsForCode` yields a voxel, and the three values that `copyFirstVertexForCode`
writes are the `x`, `y` and `z` of that voxel, in exact arithmetic. -/
theorem C30_vertex_computations_agree (C : List Nat) (hC : validOctalCode C = true) :
    ∃ v, voxelDetailsForCode (some C) = some v
      ∧ copyFirstVertexForCode (some C) = some (v.x, v.y, v.z) := by
  obtain ⟨v, hv⟩ := voxelDetails_returns C hC
  exact ⟨v, hv, by rw [copyFirstVertex_eq, hv]; rfl⟩

/-- Witness of C30: the code of the path 3-5. -/
theorem C30_vertex_computations_agree_witness :
    ∃ v, voxelDetailsForCode (some [0x02, 0x74]) = some v
      ∧ copyFirstVertexForCode (some [0x02, 0x74]) = some (v.x, v.y, v.z) :=
  C30_vertex_computations_agree [0x02, 0x74] (by decide)

/-- The voxel of a child lies in the voxel of its parent, for a parent that is null or a
valid code of fewer than 254 sections. -/
theorem child_voxel_contained (g : Nat → Nat) (P : Option (List Nat)) (k : Nat)
    (hP : ∀ p, P = some p → validOctalCode p = true ∧ p.getD 0 0 < 254) (hk : k < 8) :
    ∃ c vp vc, childOctalCode g P k = some c ∧ voxelDetailsForCode P = some vp
      ∧ voxelDetailsForCode (some c) = some vc
      ∧ vp.x ≤ vc.x ∧ vc.x + vc.s ≤ vp.x + vp.s
      ∧ vp.y ≤ vc.y ∧ vc.y + vc.s ≤ vp.y + vp.s
      ∧ vp.z ≤ vc.z ∧ vc.z + vc.s ≤ vp.z + vp.s := by
  cases P with
  | none =>
    obtain ⟨v, hv, hx, hy, hz, _, _, hxs, hys, hzs⟩ :=
      voxel_in_cube [1, k * 32] (child_null_valid k hk)
    refine ⟨_, _, v, child_of_null g k hk, rfl, hv, ?_⟩
    simp only [zero_add]
    exact ⟨hx, hxs, hy, hys, hz, hzs⟩
  | some p =>
    obtain ⟨hv, hlt⟩ := hP p rfl
    obtain ⟨c, hc, hvalid, hc0, hsec⟩ := child_sections g p _ k hv rfl hlt hk
    refine ⟨c, _, _, hc, voxelDetails_sums p _ hv rfl, voxelDetails_sums c _ hvalid hc0, ?_⟩
    obtain ⟨x1, x2⟩ := axis_contained c p (p.getD 0 0) 2 hsec
    obtain ⟨y1, y2⟩ := axis_contained c p (p.getD 0 0) 1 hsec
    obtain ⟨z1, z2⟩ := axis_contained c p (p.getD 0 0) 0 hsec
    exact ⟨x1, x2, y1, y2, z1, z2⟩

/-- C31 (amended): every voxel lies in the unit cube: for every valid code, the result
`(x, y, z, s)` of `voxelDetailsForCode` satisfies, in exact arithmetic, `0 ≤ x`, `0 ≤ y`,
`0 ≤ z`, `0 < s ≤ 1` and `x + s ≤ 1`, `y + s ≤ 1`, `z + s ≤ 1`; and for every parent `P` that
is null or a valid code of fewer than 254 sections, and every child number `k` in 0..7, the
voxel of `childOctalCode(P, k)` is contained in the voxel of `P`, whatever the fresh
allocation held. -/
theorem C31_voxel_in_unit_cube (garbage : Nat → Nat) (C : List Nat) (P : Option (List Nat))
    (k : Nat) (hC : validOctalCode C = true)
    (hP : ∀ p, P = some p → validOctalCode p = true ∧ p.getD 0 0 < 254) (hk : k < 8) :
    (∃ v, voxelDetailsForCode (some C) = some v
        ∧ 0 ≤ v.x ∧ 0 ≤ v.y ∧ 0 ≤ v.z ∧ 0 < v.s ∧ v.s ≤ 1
        ∧ v.x + v.s ≤ 1 ∧ v.y + v.s ≤ 1 ∧ v.z + v.s ≤ 1)
      ∧ ∃ c vp vc, childOctalCode garbage P k = some c ∧ voxelDetailsForCode P = some vp
          ∧ voxelDetailsForCode (some c) = some vc
          ∧ vp.x ≤ vc.x ∧ vc.x + vc.s ≤ vp.x + vp.s
          ∧ vp.y ≤ vc.y ∧ vc.y + vc.s ≤ vp.y + vp.s
          ∧ vp.z ≤ vc.z ∧ vc.z + vc.s ≤ vp.z + vp.s :=
  ⟨voxel_in_cube C hC, child_voxel_contained garbage P k hP hk⟩

/-- Witness of C31: the code of the path 3-5 and its child 7, in a fresh buffer whose bytes
are all 255. -/
theorem C31_voxel_in_unit_cube_witness :
    (∃ v, voxelDetailsForCode (some [0x02, 0x74]) = some v
        ∧ 0 ≤ v.x ∧ 0 ≤ v.y ∧ 0 ≤ v.z ∧ 0 < v.s ∧ v.s ≤ 1
        ∧ v.x + v.s ≤ 1 ∧ v.y + v.s ≤ 1 ∧ v.z + v.s ≤ 1)
      ∧ ∃ c vp vc, childOctalCode (fun _ => 255) (some [0x02, 0x74]) 7 = some c
          ∧ voxelDetailsForCode (some [0x02, 0x74]) = some vp
          ∧ voxelDetailsForCode (some c) = some vc
          ∧ vp.x ≤ vc.x ∧ vc.x + vc.s ≤ vp.x + vp.s
          ∧ vp.y ≤ vc.y ∧ vc.y + vc.s ≤ vp.y + vp.s
          ∧ vp.z ≤ vc.z ∧ vc.z + vc.s ≤ vp.z + vp.s :=
  C31_voxel_in_unit_cube (fun _ => 255) [0x02, 0x74] (some [0x02, 0x74]) 7 (by decide)
    (by intro p hp; cases hp; decide) (by decide)

set_option maxRecDepth 100000 in
/-- Counterexample to C31 as stated.  The valid code of 254 sections whose first section
is 1 and whose other sections are 0 occupies 97 bytes.  Its child 0 is returned in 97 bytes
with the byte 0 equal to 255, the marker of an extended length, so its length decodes as
255 + 32 = 287 sections, and `voxelDetailsForCode` reads the section 256 in the byte 97,
past the end of the buffer: no voxel results for the child. -/
theorem C31_counterexample :
    validOctalCode (254 :: 0x20 :: List.replicate 95 0) = true
      ∧ childOctalCode (fun _ => 0) (some (254 :: 0x20 :: List.replicate 95 0)) 0
          = some (255 :: 0x20 :: List.replicate 95 0)
      ∧ (255 :: 0x20 :: List.replicate 95 0).length = 97
      ∧ numberOfThreeBitSectionsInCode (255 :: 0x20 :: List.replicate 95 0)
          UNKNOWN_OCTCODE_LENGTH = some 287
      ∧ getOctalCodeSectionValue (255 :: 0x20 :: List.replicate 95 0) 256 = none
      ∧ voxelDetailsForCode (some (255 :: 0x20 :: List.replicate 95 0)) = none := by
  refine ⟨by decide, by decide, by decide, by decide, by decide, by decide⟩

/-- C32, the code at failing inputs.  Rebasing the code of the path 3 under the root code
`[0x00]` without colour space allocates one byte, the section count of the result, where
`bytesRequiredForCodeLength(1)` is 2: the write of the section lands outside the allocation,
and there is no rebased code to chop.  The same happens when the root code is rebased
under a code of one section, and under the root the write of the length byte is outside.
From a total of two sections on the allocation suffices: the code of the path 3 rebased
under the code of the path 1 and chopped by one level is the path 3 again, with the unused
bits of the fresh buffers, and the root rebased under the path 1-2 and chopped by two levels
is the null pointer. -/
theorem C32_chop_of_rebase_overruns :
    validOctalCode [0x00] = true ∧ validOctalCode [0x01, 0x60] = true
      ∧ bytesRequiredForCodeLength 1 = 2
      ∧ rebaseOctalCode (fun _ => 0) [0x01, 0x60] [0x00] false = none
      ∧ rebaseOctalCode (fun _ => 0) [0x00] [0x01, 0x60] false = none
      ∧ rebaseOctalCode (fun _ => 0) [0x00] [0x00] false = none
      ∧ (rebaseOctalCode (fun _ => 255) [0x01, 0x60] [0x01, 0x20] false).bind
          (fun R => chopOctalCode (fun _ => 255) R 1) = some (some [0x01, 0x7F])
      ∧ getOctalCodeSectionValue [0x01, 0x7F] 0 = getOctalCodeSectionValue [0x01, 0x60] 0
      ∧ (rebaseOctalCode (fun _ => 255) [0x00] [0x02, 0x28] false).bind
          (fun R => chopOctalCode (fun _ => 255) R 2) = some none := by
  decide
